import Mathlib

/-!
# OrderBookProject: a limit order book with price-time priority

A shallow embedding of `orderbook_backend/OrderBook.cpp` (with `Order.h`,
`OrderModify.h`, `Trade.h`, `OrderBook.h`, `Usings.h`).

Modelling decisions.

* `std::map<Price, OrderPointers, Cmp>` is the list of its `(key, level)` pairs in iteration
  order; `begin()` is the head of the list.
* `std::list<OrderPointer>` is a `List Order`; an order object is owned by exactly one level,
  so `bid->fill(q)` is a rewrite of the front element of the level.
* `std::unordered_map<OrderId, OrderEntry>` is a list of entries.  An entry holds a pointer to
  the order and an iterator to its list node; the model keeps the key together with the
  fields of the pointee that are fixed once the order is inserted (type, side, price), which
  are the fields `CancelOrder` reads through the pointer.
* `MatchOrder` reads the type of the old order through a reference to an entry of `orders_`
  that it has erased by then; the value of that read is an argument of the embedding.
* `Price` and `Quantity` (`std::int32_t`) are `Int`, `OrderId` (`std::uint64_t`) is `Nat`.
  Prices and ids are only compared.  The one subtraction on quantities (`Order::fill`) is
  reduced into the 32-bit range (`wrapInt32`); `validQuantity` says that a quantity is a
  positive value of the 32-bit type.
* A C++ exception is a `Fault`.  Every operation returns the book as it stands when the call
  ends, normally or by an exception, together with its outcome.
* The two `while` loops of `MatchOrders` run on a step budget computed from the book;
  `Fault.fuel` reports an exhausted budget.
-/

namespace OrderBookProject

abbrev OrderId := Nat

/-- Modelled from the spec: `OrderType.h` is not among the sources; the spec lists the
order types `Market | GoodTillCancel | FillAndKill`, the three names `OrderBook.cpp` uses. -/
inductive OrderType where
  | Market
  | GoodTillCancel
  | FillAndKill
deriving DecidableEq

/-- Modelled from the spec: `Side.h` is not among the sources; the spec gives `Buy | Sell`. -/
inductive Side where
  | Buy
  | Sell
deriving DecidableEq

/-- The exceptions of the code, and the exhausted loop budget of the model. -/
inductive Fault where
  /-- `std::runtime_error("Market Buy/Sell Order cannot be placed: ...")` in `AddOrder`. -/
  | noLiquidity
  /-- `std::runtime_error("Cannot fill more than remaining quantity")` in `Order::fill`. -/
  | overFill
  /-- `std::runtime_error("Cannot convert non-market order")` in `Order::ToGoodTillCancel`. -/
  | nonMarket
  /-- `std::out_of_range` of `std::map::at` in `CancelOrder`. -/
  | outOfRange
  /-- The step budget of a matching loop of the model ran out. -/
  | fuel
deriving DecidableEq

instance instDecidableEqExcept {ε α : Type} [DecidableEq ε] [DecidableEq α] :
    DecidableEq (Except ε α)
  | .ok a, .ok b => if h : a = b then isTrue (by rw [h]) else isFalse (fun h2 => h (by cases h2; rfl))
  | .error a, .error b =>
    if h : a = b then isTrue (by rw [h]) else isFalse (fun h2 => h (by cases h2; rfl))
  | .ok _, .error _ => isFalse (fun h => by cases h)
  | .error _, .ok _ => isFalse (fun h => by cases h)

/-- The class `Order` of `Order.h`. -/
structure Order where
  orderType : OrderType
  orderId : OrderId
  side : Side
  price : Int
  initialQuantity : Int
  remainingQuantity : Int
deriving DecidableEq

/-- Modelled from the spec: `TradeInfo.h` is not among the sources; one side of a trade is
`{order_id, price, qty}`, built in `MatchOrders` as `TradeInfo{ id, price, quantity }`. -/
structure TradeInfo where
  orderId : OrderId
  price : Int
  quantity : Int
deriving DecidableEq

/-- The class `Trade` of `Trade.h`. -/
structure Trade where
  bidTrade : TradeInfo
  askTrade : TradeInfo
deriving DecidableEq

/-- The class `OrderModify` of `OrderModify.h`. -/
structure OrderModify where
  orderId : OrderId
  side : Side
  price : Int
  quantity : Int
deriving DecidableEq

/-- The entry of `orders_` for one order: the key and the fixed fields of the pointee. -/
structure OrderEntry where
  orderId : OrderId
  orderType : OrderType
  side : Side
  price : Int
deriving DecidableEq

abbrev Level := List Order
abbrev Ladder := List (Int × Level)
abbrev Index := List OrderEntry

/-- The class `OrderBook` of `OrderBook.h`: `bids_` (descending), `asks_` (ascending), `orders_`. -/
structure OrderBook where
  bids : Ladder
  asks : Ladder
  orders : Index
deriving DecidableEq

/-- Reduction of an integer into the range of `std::int32_t`. -/
def wrapInt32 (x : Int) : Int := (x + 2147483648) % 4294967296 - 2147483648

/-- The constructor `Order(orderType, orderId, side, price, quantity)`. -/
def Order.new (orderType : OrderType) (orderId : OrderId) (side : Side) (price : Int)
    (quantity : Int) : Order :=
  { orderType := orderType, orderId := orderId, side := side, price := price,
    initialQuantity := quantity, remainingQuantity := quantity }

/-- `Order::isFilled`. -/
def Order.isFilled (o : Order) : Bool := o.remainingQuantity == 0

/-- `Order::fill`. -/
def Order.fill (o : Order) (quantity : Int) : Except Fault Order :=
  if quantity > o.remainingQuantity then .error Fault.overFill
  else .ok { o with remainingQuantity := wrapInt32 (o.remainingQuantity - quantity) }

/-- `Order::ToGoodTillCancel`. -/
def Order.ToGoodTillCancel (o : Order) (price : Int) : Except Fault Order :=
  if o.orderType ≠ OrderType.Market then .error Fault.nonMarket
  else .ok { o with price := price, orderType := OrderType.GoodTillCancel }

/-- `OrderModify::toOrderPointer`. -/
def OrderModify.toOrderPointer (m : OrderModify) (type : OrderType) : Order :=
  Order.new type m.orderId m.side m.price m.quantity

/-- The entry `AddOrder` records for an order. -/
def Order.entry (o : Order) : OrderEntry :=
  { orderId := o.orderId, orderType := o.orderType, side := o.side, price := o.price }

/-- `orders_.find(id) != orders_.end()`. -/
def Index.contains (idx : Index) (id : OrderId) : Bool := idx.any (fun e => e.orderId == id)

/-- `orders_.at(id)` after a successful `find`. -/
def Index.lookup (idx : Index) (id : OrderId) : Option OrderEntry :=
  idx.find? (fun e => e.orderId == id)

/-- `orders_.erase(id)`. -/
def Index.erase (idx : Index) (id : OrderId) : Index := idx.filter (fun e => e.orderId != id)

/-- `orders_.insert({id, entry})`: no effect when the key is present. -/
def Index.insert (idx : Index) (e : OrderEntry) : Index :=
  if idx.contains e.orderId then idx else idx ++ [e]

/-- `map.at(price)`: the level stored under the key, if any. -/
def Ladder.at : Ladder → Int → Option Level
  | [], _ => none
  | (p, l) :: rest, k => if p = k then some l else Ladder.at rest k

/-- Writing through the reference returned by `map.at(price)`. -/
def Ladder.set : Ladder → Int → Level → Ladder
  | [], _, _ => []
  | (p, l) :: rest, k, v => if p = k then (p, v) :: rest else (p, l) :: Ladder.set rest k v

/-- `map.erase(price)`. -/
def Ladder.erase : Ladder → Int → Ladder
  | [], _ => []
  | (p, l) :: rest, k => if p = k then rest else (p, l) :: Ladder.erase rest k

/-- `map[order.price].push_back(order)`: `before` is the comparator of the map
(`std::greater` for `bids_`, `std::less` for `asks_`). -/
def Ladder.push (before : Int → Int → Bool) : Ladder → Order → Ladder
  | [], o => [(o.price, [o])]
  | (p, l) :: rest, o =>
    if p = o.price then (p, l ++ [o]) :: rest
    else if before o.price p then (o.price, [o]) :: (p, l) :: rest
    else (p, l) :: Ladder.push before rest o

/-- `orders.erase(iterator)`: the node of the order with this id leaves the list. -/
def Level.eraseId (l : Level) (id : OrderId) : Level := l.eraseP (fun o => o.orderId == id)

/-- `OrderBook::canMatch`. -/
def canMatch (b : OrderBook) (side : Side) (price : Int) : Bool :=
  if side = Side.Buy then
    match b.asks with
    | [] => false
    | (bestAsk, _) :: _ => decide (price ≥ bestAsk)
  else
    match b.bids with
    | [] => false
    | (bestBid, _) :: _ => decide (price ≤ bestBid)

/-- `OrderBook::CancelOrder`. -/
def CancelOrder (b : OrderBook) (orderId : OrderId) : OrderBook × Except Fault Unit :=
  match b.orders.lookup orderId with
  | none => (b, .ok ())
  | some e =>
    let b1 : OrderBook := { b with orders := b.orders.erase orderId }
    if e.side = Side.Sell then
      match b1.asks.at e.price with
      | none => (b1, .error Fault.outOfRange)
      | some orders =>
        let orders1 := Level.eraseId orders orderId
        if orders1.isEmpty then ({ b1 with asks := b1.asks.erase e.price }, .ok ())
        else ({ b1 with asks := b1.asks.set e.price orders1 }, .ok ())
    else
      match b1.bids.at e.price with
      | none => (b1, .error Fault.outOfRange)
      | some orders =>
        let orders1 := Level.eraseId orders orderId
        if orders1.isEmpty then ({ b1 with bids := b1.bids.erase e.price }, .ok ())
        else ({ b1 with bids := b1.bids.set e.price orders1 }, .ok ())

/-- The trade `MatchOrders` records for a bid and an ask after both were filled by `quantity`. -/
def Trade.of (bid ask : Order) (quantity : Int) : Trade :=
  { bidTrade := { orderId := bid.orderId, price := bid.price, quantity := quantity },
    askTrade := { orderId := ask.orderId, price := ask.price, quantity := quantity } }

/-- The inner loop of `MatchOrders` (`while (!bids.empty() && !asks.empty())`) on the two
front levels, the index and the trades so far; the result carries the fault, if any. -/
def matchLevel : Nat → Level → Level → Index → List Trade →
    Level × Level × Index × List Trade × Option Fault
  | _, [], asks, idx, trades => ([], asks, idx, trades, none)
  | _, bid :: bids, [], idx, trades => (bid :: bids, [], idx, trades, none)
  | 0, bid :: bids, ask :: asks, idx, trades =>
    (bid :: bids, ask :: asks, idx, trades, some Fault.fuel)
  | fuel + 1, bid :: bids, ask :: asks, idx, trades =>
    let quantity := min bid.remainingQuantity ask.remainingQuantity
    match bid.fill quantity with
    | .error e => (bid :: bids, ask :: asks, idx, trades, some e)
    | .ok bid1 =>
      match ask.fill quantity with
      | .error e => (bid1 :: bids, ask :: asks, idx, trades, some e)
      | .ok ask1 =>
        let bids1 := if bid1.isFilled then bids else bid1 :: bids
        let idx1 := if bid1.isFilled then idx.erase bid1.orderId else idx
        let asks1 := if ask1.isFilled then asks else ask1 :: asks
        let idx2 := if ask1.isFilled then idx1.erase ask1.orderId else idx1
        matchLevel fuel bids1 asks1 idx2 (trades ++ [Trade.of bid1 ask1 quantity])

/-- The outer loop of `MatchOrders` (`while (true)`). -/
def matchLoop : Nat → OrderBook → List Trade → OrderBook × Except Fault (List Trade)
  | fuel, b, trades =>
    match b.bids, b.asks with
    | [], _ => (b, .ok trades)
    | _ :: _, [] => (b, .ok trades)
    | (bidPrice, bids) :: restBids, (askPrice, asks) :: restAsks =>
      if bidPrice < askPrice then (b, .ok trades)
      else
        match fuel with
        | 0 => (b, .error Fault.fuel)
        | fuel + 1 =>
          match matchLevel (bids.length + asks.length) bids asks b.orders trades with
          | (bids1, asks1, idx1, _, some e) =>
            ({ bids := (bidPrice, bids1) :: restBids, asks := (askPrice, asks1) :: restAsks,
               orders := idx1 }, .error e)
          | (bids1, asks1, idx1, trades1, none) =>
            let bidsMap : Ladder := (bidPrice, bids1) :: restBids
            let asksMap : Ladder := (askPrice, asks1) :: restAsks
            matchLoop fuel
              { bids := if bids1.isEmpty then bidsMap.erase bidPrice else bidsMap,
                asks := if asks1.isEmpty then asksMap.erase askPrice else asksMap,
                orders := idx1 } trades1

/-- One of the two blocks that close `MatchOrders`: the front order of the first level of
`ladder` is cancelled when it is FillAndKill. -/
def sweepFillAndKill (b : OrderBook) (ladder : Ladder) : OrderBook × Except Fault Unit :=
  match ladder with
  | (_, order :: _) :: _ =>
    if order.orderType = OrderType.FillAndKill then CancelOrder b order.orderId else (b, .ok ())
  | _ => (b, .ok ())

/-- `OrderBook::MatchOrders`. -/
def MatchOrders (b : OrderBook) : OrderBook × Except Fault (List Trade) :=
  match matchLoop (b.bids.length + b.asks.length) b [] with
  | (b1, .error e) => (b1, .error e)
  | (b1, .ok trades) =>
    match sweepFillAndKill b1 b1.bids with
    | (b2, .error e) => (b2, .error e)
    | (b2, .ok _) =>
      match sweepFillAndKill b2 b2.asks with
      | (b3, .error e) => (b3, .error e)
      | (b3, .ok _) => (b3, .ok trades)

/-- Lines 99-113 of `AddOrder`: a Market order becomes GoodTillCancel at the price of the
first level of the opposite ladder. -/
def rewriteMarket (b : OrderBook) (order : Order) : Except Fault Order :=
  if order.orderType = OrderType.Market then
    if order.side = Side.Buy then
      match b.asks with
      | [] => .error Fault.noLiquidity
      | (worstAsk, _) :: _ => order.ToGoodTillCancel worstAsk
    else
      match b.bids with
      | [] => .error Fault.noLiquidity
      | (worstBid, _) :: _ => order.ToGoodTillCancel worstBid
  else .ok order

/-- Lines 117-128 of `AddOrder`: the order joins the tail of its level and the index. -/
def insertOrder (b : OrderBook) (order : Order) : OrderBook :=
  if order.side = Side.Buy then
    { b with bids := b.bids.push (fun x y => decide (x > y)) order,
             orders := b.orders.insert order.entry }
  else
    { b with asks := b.asks.push (fun x y => decide (x < y)) order,
             orders := b.orders.insert order.entry }

/-- `OrderBook::AddOrder`. -/
def AddOrder (b : OrderBook) (order : Order) : OrderBook × Except Fault (List Trade) :=
  if b.orders.contains order.orderId then (b, .ok [])
  else if order.orderType = OrderType.FillAndKill ∧ ¬ canMatch b order.side order.price then
    (b, .ok [])
  else
    match rewriteMarket b order with
    | .error e => (b, .error e)
    | .ok order1 => MatchOrders (insertOrder b order1)

/-- `OrderBook::MatchOrder`, the modify operation.  `existingOrder` is bound by reference to
the entry of `orders_` that `CancelOrder` then erases, and the source reads
`existingOrder->getOrderType()` only after that erase, from an entry that is gone.  What
that read returns is not fixed by the book, so it is the argument `staleType` of the
embedding: the type the new order is built with. -/
def MatchOrder (b : OrderBook) (order : OrderModify) (staleType : OrderType) :
    OrderBook × Except Fault (List Trade) :=
  match b.orders.lookup order.orderId with
  | none => (b, .ok [])
  | some _ =>
    match CancelOrder b order.orderId with
    | (b1, .error e) => (b1, .error e)
    | (b1, .ok _) => AddOrder b1 (order.toOrderPointer staleType)

/-- `OrderBook::Size`. -/
def OrderBook.Size (b : OrderBook) : Nat := b.orders.length

/-- The book of a freshly constructed `OrderBook`. -/
def OrderBook.empty : OrderBook := { bids := [], asks := [], orders := [] }

/-! ## Definitions for the statements and the proofs -/

/-- The orders of a ladder in priority order: level by level, front of the queue first. -/
def Ladder.all : Ladder → List Order
  | [] => []
  | (_, l) :: rest => l ++ Ladder.all rest

/-- The prices of a ladder in iteration order. -/
def Ladder.keys (l : Ladder) : List Int := l.map Prod.fst

/-- The orders held in the two ladders. -/
def OrderBook.resting (b : OrderBook) : List Order := b.bids.all ++ b.asks.all

/-- A ladder is a well-formed map of one side: keys strictly ordered by the comparator, no
empty level, every order filed under its own price and on its own side. -/
structure LadderOk (before : Int → Int → Prop) (side : Side) (l : Ladder) : Prop where
  sorted : l.keys.Pairwise before
  nonempty : ∀ x ∈ l, x.2 ≠ []
  tagged : ∀ x ∈ l, ∀ o ∈ x.2, o.price = x.1 ∧ o.side = side

/-- The structure of the book: both ladders are well-formed maps, no bid price reaches an ask
price, no id occurs twice, and the index lists exactly the orders held in the ladders. -/
structure WellFormed (b : OrderBook) : Prop where
  bids : LadderOk (fun x y => x > y) Side.Buy b.bids
  asks : LadderOk (fun x y => x < y) Side.Sell b.asks
  uncrossed : ∀ x ∈ b.bids.keys, ∀ y ∈ b.asks.keys, x < y
  ids : (b.resting.map Order.orderId).Nodup
  index_ids : (b.orders.map OrderEntry.orderId).Nodup
  index : ∀ e, e ∈ b.orders ↔ e ∈ b.resting.map Order.entry

/-- The invariant of the book between two calls: it is well-formed and every resting order
is GoodTillCancel. -/
structure Inv (b : OrderBook) extends WellFormed b : Prop where
  gtc : ∀ o ∈ b.resting, o.orderType = OrderType.GoodTillCancel

/-- The books reachable from the empty book by `AddOrder`, `CancelOrder` and `MatchOrder`,
whatever type a modify reads for the order it builds; a call that ends by an exception
leaves the book it had reached. -/
inductive Reachable : OrderBook → Prop
  | empty : Reachable OrderBook.empty
  | add (b : OrderBook) (o : Order) : Reachable b → Reachable (AddOrder b o).1
  | cancel (b : OrderBook) (id : OrderId) : Reachable b → Reachable (CancelOrder b id).1
  | modify (b : OrderBook) (m : OrderModify) (t : OrderType) : Reachable b →
      Reachable (MatchOrder b m t).1

/-- An order after a fill of `quantity` that passed the check of `Order::fill`. -/
def Order.filledBy (o : Order) (quantity : Int) : Order :=
  { o with remainingQuantity := wrapInt32 (o.remainingQuantity - quantity) }

/-- The trade between an incoming order `o` and a resting order `a`. -/
def Trade.between (o a : Order) (quantity : Int) : Trade :=
  if o.side = Side.Buy then Trade.of o a quantity else Trade.of a o quantity

/-- The side of a trade that names the resting order, for an incoming order on `side`. -/
def Trade.resting (side : Side) (t : Trade) : TradeInfo :=
  if side = Side.Buy then t.askTrade else t.bidTrade

/-- The side of a trade that names the incoming order, for an incoming order on `side`. -/
def Trade.incoming (side : Side) (t : Trade) : TradeInfo :=
  if side = Side.Buy then t.bidTrade else t.askTrade

/-- A level price is within the limit of the order: the matcher does not stop there. -/
def Order.crosses (o : Order) (p : Int) : Bool :=
  if o.side = Side.Buy then decide (p ≤ o.price) else decide (o.price ≤ p)

/-- The first level of the opposite ladder decides whether the incoming order crosses. -/
def Order.marketable (o : Order) (opp : Ladder) : Bool :=
  match opp with
  | [] => false
  | (p, _) :: _ => o.crosses p

/-- The Market order as `AddOrder` rewrites it: GoodTillCancel at the price `p`. -/
def Order.pegged (o : Order) (p : Int) : Order :=
  { o with price := p, orderType := OrderType.GoodTillCancel }

/-- The order with its remaining quantity set to `q`. -/
def Order.withRemaining (o : Order) (q : Int) : Order := { o with remainingQuantity := q }

/-- What is left when one incoming order has run against resting orders. -/
structure Sweep (α : Type) where
  residual : Option Order
  rest : α
  trades : List Trade
  filled : List OrderId

/-- The incoming order `o`, alone in its level, against one opposite level. -/
def sweepLevel (o : Order) : Level → Sweep Level
  | [] => { residual := some o, rest := [], trades := [], filled := [] }
  | a :: rest =>
    let quantity := min o.remainingQuantity a.remainingQuantity
    let o1 := o.filledBy quantity
    let a1 := a.filledBy quantity
    if o1.isFilled then
      { residual := none, rest := if a1.isFilled then rest else a1 :: rest,
        trades := [Trade.between o1 a1 quantity],
        filled := if a1.isFilled then [a.orderId] else [] }
    else
      let s := sweepLevel o1 rest
      { s with trades := Trade.between o1 a1 quantity :: s.trades,
               filled := a.orderId :: s.filled }

/-- The incoming order `o`, alone in its level, against the opposite ladder. -/
def sweepLadder (o : Order) : Ladder → Sweep Ladder
  | [] => { residual := some o, rest := [], trades := [], filled := [] }
  | (p, l) :: rest =>
    if o.crosses p then
      let s := sweepLevel o l
      match s.residual with
      | none =>
        { residual := none, rest := if s.rest.isEmpty then rest else (p, s.rest) :: rest,
          trades := s.trades, filled := s.filled }
      | some o1 =>
        let s2 := sweepLadder o1 rest
        { s2 with trades := s.trades ++ s2.trades, filled := s.filled ++ s2.filled }
    else { residual := some o, rest := (p, l) :: rest, trades := [], filled := [] }

/-- The index without the entries of the listed ids. -/
def Index.eraseAll (idx : Index) (ids : List OrderId) : Index :=
  idx.filter (fun e => !ids.contains e.orderId)

/-- A ladder from which the order with the given id is deleted: every level keeps its other
orders in their order, and a level left without orders is dropped. -/
def Ladder.without (l : Ladder) (id : OrderId) : Ladder :=
  l.filterMap (fun x =>
    if (x.2.filter (fun o => o.orderId != id)).isEmpty then none
    else some (x.1, x.2.filter (fun o => o.orderId != id)))

/-- The book from which the order with the given id is deleted, in the words of the
specification of cancel. -/
def OrderBook.without (b : OrderBook) (id : OrderId) : OrderBook :=
  { bids := b.bids.without id, asks := b.asks.without id,
    orders := b.orders.filter (fun e => e.orderId != id) }

/-- The book and the trades when `o` has joined a well-formed book and the matching loop has
run: `o` has swept the opposite ladder and what is left of it rests on its own side. -/
def OrderBook.matched (b : OrderBook) (o : Order) : OrderBook × List Trade :=
  if o.side = Side.Buy then
    let s := sweepLadder o b.asks
    ({ bids := (match s.residual with
                | none => b.bids
                | some o1 => b.bids.push (fun x y => decide (x > y)) o1),
       asks := s.rest,
       orders := Index.eraseAll (b.orders ++ [o.entry])
          (s.filled ++ if s.residual.isNone then [o.orderId] else []) }, s.trades)
  else
    let s := sweepLadder o b.bids
    ({ bids := s.rest,
       asks := (match s.residual with
                | none => b.asks
                | some o1 => b.asks.push (fun x y => decide (x < y)) o1),
       orders := Index.eraseAll (b.orders ++ [o.entry])
          (s.filled ++ if s.residual.isNone then [o.orderId] else []) }, s.trades)

/-- The book and the trades when `o` has been admitted to a well-formed book: after the
matching loop, what is left of a FillAndKill order is deleted. -/
def OrderBook.admitted (b : OrderBook) (o : Order) : OrderBook × List Trade :=
  if o.orderType = OrderType.FillAndKill then
    (((b.matched o).1).without o.orderId, (b.matched o).2)
  else b.matched o

/-- The total remaining quantity of a list of orders. -/
def volume (l : List Order) : Int := (l.map Order.remainingQuantity).sum

/-- The total quantity of a list of trades. -/
def tradedQuantity (ts : List Trade) : Int := (ts.map (fun t => t.bidTrade.quantity)).sum

/-- A quantity that is positive and fits `std::int32_t`. -/
def validQuantity (q : Int) : Prop := 0 < q ∧ q < 2147483648

instance instDecidableValidQuantity (q : Int) : Decidable (validQuantity q) := by
  unfold validQuantity; infer_instance

/-- The ladder an order of the given side trades against. -/
def OrderBook.opposite (b : OrderBook) (side : Side) : Ladder :=
  if side = Side.Buy then b.asks else b.bids

/-- The ladder an order of the given side rests in. -/
def OrderBook.own (b : OrderBook) (side : Side) : Ladder :=
  if side = Side.Buy then b.bids else b.asks

/-- The total remaining quantity of the resting orders whose price the order `o` crosses. -/
def crossingVolume (o : Order) (opp : Ladder) : Int :=
  volume (opp.all.filter (fun a => o.crosses a.price))

/-- A book with asks at 100 and at 101 and a bid at 99, built by three calls of `AddOrder`. -/
def sampleBook : OrderBook :=
  (AddOrder (AddOrder (AddOrder OrderBook.empty
    (Order.new OrderType.GoodTillCancel 1 Side.Sell 100 5)).1
    (Order.new OrderType.GoodTillCancel 2 Side.Sell 101 5)).1
    (Order.new OrderType.GoodTillCancel 3 Side.Buy 99 4)).1

/-- A GoodTillCancel buy of 8 at 100 with a new id: it crosses the ask at 100 of `sampleBook`. -/
def sampleBuy : Order := Order.new OrderType.GoodTillCancel 10 Side.Buy 100 8

/-- A Market buy of 8 with a new id. -/
def sampleMarket : Order := Order.new OrderType.Market 11 Side.Buy 0 8

/-- A GoodTillCancel buy of 7 at 101 with a new id: it takes the ask at 100 of `sampleBook`
in full and 2 of the ask at 101. -/
def sampleSweep : Order := Order.new OrderType.GoodTillCancel 12 Side.Buy 101 7

/-- The state of the inner loop after one iteration on the fronts `bid` and `ask`. -/
def matchStep (bid : Order) (bids : Level) (ask : Order) (asks : Level) (idx : Index) :
    Level × Level × Index × Trade :=
  let quantity := min bid.remainingQuantity ask.remainingQuantity
  let bid1 := bid.filledBy quantity
  let ask1 := ask.filledBy quantity
  let idx1 := if bid1.isFilled then idx.erase bid1.orderId else idx
  (if bid1.isFilled then bids else bid1 :: bids,
   if ask1.isFilled then asks else ask1 :: asks,
   if ask1.isFilled then idx1.erase ask1.orderId else idx1,
   Trade.of bid1 ask1 quantity)

/-- The book after one iteration of the outer loop on crossing front levels. -/
def loopStep (bp ap : Int) (bids asks : Level) (rb ra : Ladder) (idx : Index)
    (ts : List Trade) : OrderBook × List Trade :=
  let r := matchLevel (bids.length + asks.length) bids asks idx ts
  ({ bids := if r.1.isEmpty then Ladder.erase ((bp, r.1) :: rb) bp else (bp, r.1) :: rb,
     asks := if r.2.1.isEmpty then Ladder.erase ((ap, r.2.1) :: ra) ap else (ap, r.2.1) :: ra,
     orders := r.2.2.1 }, r.2.2.2.1)

/-- A book with two bids queued at 100, the order 1 ahead of the order 2, built by two calls
of `AddOrder`. -/
def queueBook : OrderBook :=
  (AddOrder (AddOrder OrderBook.empty
    (Order.new OrderType.GoodTillCancel 1 Side.Buy 100 5)).1
    (Order.new OrderType.GoodTillCancel 2 Side.Buy 100 6)).1

/-- Modelled from the spec: `LevelInfo.h` is not among the sources; one level of the
snapshot is `{price, qty}`, built in `getOrderInfos` as `LevelInfo{ price, sum }`. -/
structure LevelInfo where
  price : Int
  quantity : Int
deriving DecidableEq

/-- The class `OrderBookLevelInfos` of `OrderBookLevelInfos.h`. -/
structure OrderBookLevelInfos where
  bids : List LevelInfo
  asks : List LevelInfo
deriving DecidableEq

/-- The lambda `CreateLevelInfos` of `getOrderInfos`: `std::accumulate` from `(Quantity)0`,
every sum being a `Quantity`, that is an `std::int32_t`. -/
def CreateLevelInfos (price : Int) (orders : Level) : LevelInfo :=
  { price := price,
    quantity := orders.foldl
      (fun runningSum order => wrapInt32 (runningSum + order.remainingQuantity)) 0 }

/-- `OrderBook::getOrderInfos`, a `const` member function: the book comes back as it was,
with the infos of the bid levels and of the ask levels in the iteration order of the maps. -/
def getOrderInfos (b : OrderBook) : OrderBook × OrderBookLevelInfos :=
  (b, { bids := b.bids.map (fun x => CreateLevelInfos x.1 x.2),
        asks := b.asks.map (fun x => CreateLevelInfos x.1 x.2) })

/-- A quantity that is not negative and fits `std::int32_t`. -/
def fitsQuantity (q : Int) : Prop := 0 ≤ q ∧ q < 2147483648

instance instDecidableFitsQuantity (q : Int) : Decidable (fitsQuantity q) := by
  unfold fitsQuantity; infer_instance

/-- The trades of an incoming order of which `r` is left, against a queue of resting orders:
trade by trade, both quantities of the trade are the smaller of what is left of the incoming
order and the remaining quantity of the resting order at the front, which the trade names,
and the incoming order goes on with that much less. -/
def Trade.conserving (side : Side) : Int → List Order → List Trade → Prop
  | _, _, [] => True
  | _, [], _ :: _ => False
  | r, a :: queue, t :: ts =>
    t.bidTrade.quantity = min r a.remainingQuantity ∧
    t.askTrade.quantity = min r a.remainingQuantity ∧
    (Trade.resting side t).orderId = a.orderId ∧
    Trade.conserving side (r - min r a.remainingQuantity) queue ts

/-- What a sweep of the incoming order `o` over the resting orders `queue` does to the
quantities: the trades conserve quantity, they sum to what the resting side has lost and to
what the incoming order has lost, and a resting order that stays is as it was or is the
order a trade names, less the quantity of that trade. -/
structure SweepQuantities (o : Order) (queue : List Order) (residual : Option Order)
    (rest : List Order) (trades : List Trade) : Prop where
  conserving : Trade.conserving o.side o.remainingQuantity queue trades
  traded : tradedQuantity trades = volume queue - volume rest
  left : ∀ o1, residual = some o1 →
    o1.remainingQuantity = o.remainingQuantity - tradedQuantity trades ∧
    o1.initialQuantity = o.initialQuantity ∧ o1.remainingQuantity ≤ o.remainingQuantity ∧
    (o1 = o ∨ o1.remainingQuantity ≠ 0) ∧ fitsQuantity o1.remainingQuantity
  used : residual = none → tradedQuantity trades = o.remainingQuantity
  kept : ∀ a1 ∈ rest, a1 ∈ queue ∨ ∃ a ∈ queue, ∃ t ∈ trades,
    (Trade.resting o.side t).orderId = a.orderId ∧
    a1 = a.withRemaining (a.remainingQuantity - t.bidTrade.quantity) ∧
    0 < a1.remainingQuantity ∧ a1.remainingQuantity ≤ a.remainingQuantity

/-- An order with a positive remaining quantity that is at most its initial quantity, both
values of `std::int32_t`; such is an order built by the constructor with a positive
quantity. -/
def Order.sound (o : Order) : Prop :=
  0 < o.remainingQuantity ∧ o.remainingQuantity ≤ o.initialQuantity ∧
    o.initialQuantity < 2147483648

instance instDecidableOrderSound (o : Order) : Decidable o.sound := by
  unfold Order.sound; infer_instance

/-- The books reachable from the empty book when every order passed to `AddOrder` and every
request passed to `MatchOrder` has a positive quantity. -/
inductive ReachablePositive : OrderBook → Prop
  | empty : ReachablePositive OrderBook.empty
  | add (b : OrderBook) (o : Order) : ReachablePositive b → o.sound →
      ReachablePositive (AddOrder b o).1
  | cancel (b : OrderBook) (id : OrderId) : ReachablePositive b →
      ReachablePositive (CancelOrder b id).1
  | modify (b : OrderBook) (m : OrderModify) (t : OrderType) : ReachablePositive b →
      validQuantity m.quantity → ReachablePositive (MatchOrder b m t).1

/-- Every order of the ladder is filed under its own price: the level key is the limit price
of the orders of the level, as `AddOrder` files them. -/
def Ladder.priced (l : Ladder) : Prop := ∀ x ∈ l, ∀ o ∈ x.2, o.price = x.1

instance instDecidableLadderPriced (l : Ladder) : Decidable l.priced := by
  unfold Ladder.priced; infer_instance

/-- An order with the entry `e` is held at the level of key `p` of the ladder, `p` being its
price. -/
def Ladder.holds (l : Ladder) (p : Int) (e : OrderEntry) : Prop :=
  e.price = p ∧ ∃ x ∈ l, x.1 = p ∧ ∃ o ∈ x.2, o.entry = e

/-- The trade does not cross the wrong way and records, on each side, the id and the limit
price of an order of that ladder, the price being the key of the level that holds it. -/
def Trade.atLevels (bids asks : Ladder) (t : Trade) : Prop :=
  t.askTrade.price ≤ t.bidTrade.price ∧
  (∃ x ∈ bids, x.1 = t.bidTrade.price ∧
    ∃ o ∈ x.2, o.orderId = t.bidTrade.orderId ∧ o.price = t.bidTrade.price) ∧
  (∃ y ∈ asks, y.1 = t.askTrade.price ∧
    ∃ o ∈ y.2, o.orderId = t.askTrade.orderId ∧ o.price = t.askTrade.price)

/-- No subtraction of `Order::fill` leaves the range of `std::int32_t` while the incoming
order `o` runs against the level: at each trade of the quantity `min` of the two remaining
quantities, both orders are left with less than 2^31, and the same holds further down the
queue for what is left of `o`, as long as it is not filled. -/
def sweepLevelExact (o : Order) : Level → Prop
  | [] => True
  | a :: rest =>
    o.remainingQuantity - min o.remainingQuantity a.remainingQuantity < 2147483648 ∧
    a.remainingQuantity - min o.remainingQuantity a.remainingQuantity < 2147483648 ∧
    ((o.filledBy (min o.remainingQuantity a.remainingQuantity)).isFilled = false →
      sweepLevelExact (o.filledBy (min o.remainingQuantity a.remainingQuantity)) rest)

/-- No subtraction of `Order::fill` leaves the range of `std::int32_t` while the incoming
order `o` runs against the ladder: level by level, as long as `o` crosses the level and is
not filled. -/
def sweepLadderExact (o : Order) : Ladder → Prop
  | [] => True
  | (p, l) :: rest =>
    o.crosses p = true →
      sweepLevelExact o l ∧
      ∀ o1, (sweepLevel o l).residual = some o1 → sweepLadderExact o1 rest

/-- No subtraction of `Order::fill` leaves the range of `std::int32_t` in the call of
`AddOrder` for the order `o`, which runs against the opposite ladder as `AddOrder` has
rewritten it. -/
def fillsExact (b : OrderBook) (o : Order) : Prop :=
  ∀ o1, rewriteMarket b o = .ok o1 → sweepLadderExact o1 (b.opposite o.side)

/-- What a sweep in which no fill leaves the 32-bit range does to the quantities: the trades
conserve quantity, they sum to what the resting side has lost and to what the incoming
order has lost, and a resting order that stays is as it was or is the order a trade names,
less the quantity of that trade. -/
structure SweepExact (o : Order) (queue : List Order) (residual : Option Order)
    (rest : List Order) (trades : List Trade) : Prop where
  conserving : Trade.conserving o.side o.remainingQuantity queue trades
  traded : tradedQuantity trades = volume queue - volume rest
  left : ∀ o1, residual = some o1 →
    o1.remainingQuantity = o.remainingQuantity - tradedQuantity trades ∧
    o1.initialQuantity = o.initialQuantity
  used : residual = none → tradedQuantity trades = o.remainingQuantity
  kept : ∀ a1 ∈ rest, a1 ∈ queue ∨ ∃ a ∈ queue, ∃ t ∈ trades,
    (Trade.resting o.side t).orderId = a.orderId ∧
    a1 = a.withRemaining (a.remainingQuantity - t.bidTrade.quantity)

/-! ## Theorems -/

theorem Index.contains_iff (idx : Index) (id : OrderId) :
    idx.contains id = true ↔ id ∈ idx.map OrderEntry.orderId := by
  simp only [Index.contains, List.any_eq_true, List.mem_map, beq_iff_eq]

theorem Index.lookup_eq_none (idx : Index) (id : OrderId) :
    idx.lookup id = none ↔ id ∉ idx.map OrderEntry.orderId := by
  simp only [Index.lookup, List.find?_eq_none, List.mem_map, beq_iff_eq, not_exists, not_and]

theorem Index.lookup_some (idx : Index) (id : OrderId) (e : OrderEntry)
    (h : idx.lookup id = some e) : e ∈ idx ∧ e.orderId = id := by
  unfold Index.lookup at h
  have h1 := List.find?_some h
  have h2 := List.mem_of_find?_eq_some h
  simp at h1
  exact ⟨h2, h1⟩

theorem Index.erase_of_not_mem (idx : Index) (id : OrderId)
    (h : id ∉ idx.map OrderEntry.orderId) : idx.erase id = idx := by
  unfold Index.erase
  rw [List.filter_eq_self]
  intro e he
  simp at h
  simpa [bne_iff_ne] using h e he

theorem Index.not_mem_erase (idx : Index) (id : OrderId) :
    id ∉ (idx.erase id).map OrderEntry.orderId := by
  simp [Index.erase]

theorem Ladder.all_append (l1 l2 : Ladder) : Ladder.all (l1 ++ l2) = Ladder.all l1 ++ Ladder.all l2 := by
  induction l1 with
  | nil => rfl
  | cons x t ih => obtain ⟨p, l⟩ := x; simp [Ladder.all, ih]

theorem Ladder.mem_all (l : Ladder) (o : Order) : o ∈ Ladder.all l ↔ ∃ x ∈ l, o ∈ x.2 := by
  induction l with
  | nil => simp [Ladder.all]
  | cons x t ih => obtain ⟨p, lv⟩ := x; simp [Ladder.all, ih]

theorem Ladder.at_of_mem (before : Int → Int → Prop) (hirr : ∀ x, ¬ before x x)
    (l : Ladder) (hs : l.keys.Pairwise before)
    (p : Int) (lv : Level) (h : (p, lv) ∈ l) : Ladder.at l p = some lv := by
  induction l with
  | nil => simp at h
  | cons x t ih =>
    obtain ⟨q, lq⟩ := x
    simp only [Ladder.keys, List.map_cons, List.pairwise_cons] at hs
    rcases List.mem_cons.mp h with h | h
    · cases h; simp [Ladder.at]
    · have hq : before q p := hs.1 p (List.mem_map.mpr ⟨(p, lv), h, rfl⟩)
      have hne : q ≠ p := by intro e; rw [e] at hq; exact hirr _ hq
      simp [Ladder.at, hne]
      exact ih hs.2 h

theorem Ladder.at_some_mem (l : Ladder) (p : Int) (lv : Level) (h : Ladder.at l p = some lv) :
    (p, lv) ∈ l := by
  induction l with
  | nil => simp [Ladder.at] at h
  | cons x t ih =>
    obtain ⟨q, lq⟩ := x
    simp only [Ladder.at] at h
    split at h
    · cases h; subst_vars; simp
    · simp [ih h]


theorem Ladder.all_without (l : Ladder) (id : OrderId) :
    (l.without id).all = l.all.filter (fun o => o.orderId != id) := by
  induction l with
  | nil => rfl
  | cons x t ih =>
    obtain ⟨q, lq⟩ := x
    unfold Ladder.without at ih ⊢
    rw [List.filterMap_cons]
    by_cases h : (lq.filter (fun o => o.orderId != id)).isEmpty = true
    · simp only [h, if_true, Ladder.all, List.filter_append, ih]
      rw [List.isEmpty_iff] at h
      rw [h]; rfl
    · simp only [h, Bool.false_eq_true, if_false, Ladder.all, List.filter_append, ih]

theorem Ladder.keys_without (l : Ladder) (id : OrderId) :
    (l.without id).keys.Sublist l.keys := by
  induction l with
  | nil => exact List.Sublist.slnil
  | cons x t ih =>
    obtain ⟨q, lq⟩ := x
    unfold Ladder.without at ih ⊢
    rw [List.filterMap_cons]
    by_cases h : (lq.filter (fun o => o.orderId != id)).isEmpty = true
    · simp only [h, if_true]
      exact List.Sublist.cons _ ih
    · simp only [h, Bool.false_eq_true, if_false]
      exact List.Sublist.cons₂ _ ih

theorem Ladder.mem_without (l : Ladder) (id : OrderId) (x : Int × Level) (h : x ∈ l.without id) :
    x.2 ≠ [] ∧ ∃ lv, (x.1, lv) ∈ l ∧ x.2 = lv.filter (fun o => o.orderId != id) := by
  unfold Ladder.without at h
  rw [List.mem_filterMap] at h
  obtain ⟨y, hy, h⟩ := h
  split at h
  · cases h
  · rename_i hne
    cases h
    refine ⟨?_, y.2, hy, rfl⟩
    intro h0; apply hne; simp only [] at h0; rw [h0]; rfl

theorem LadderOk.without_ok {before : Int → Int → Prop} {side : Side} {l : Ladder}
    (h : LadderOk before side l) (id : OrderId) : LadderOk before side (l.without id) where
  sorted := h.sorted.sublist (Ladder.keys_without l id)
  nonempty := fun x hx => (Ladder.mem_without l id x hx).1
  tagged := by
    intro x hx o ho
    obtain ⟨_, lv, hlv, he⟩ := Ladder.mem_without l id x hx
    rw [he] at ho
    exact h.tagged (x.1, lv) hlv o (List.mem_filter.mp ho).1

theorem Ladder.without_of_not_mem (l : Ladder) (id : OrderId) (hne : ∀ x ∈ l, x.2 ≠ [])
    (h : id ∉ l.all.map Order.orderId) : l.without id = l := by
  induction l with
  | nil => rfl
  | cons x t ih =>
    obtain ⟨q, lq⟩ := x
    simp only [Ladder.all, List.map_append, List.mem_append, not_or] at h
    have h1 : lq.filter (fun o => o.orderId != id) = lq := by
      rw [List.filter_eq_self]
      intro o ho
      simp only [bne_iff_ne, ne_eq]
      intro e; exact h.1 (List.mem_map.mpr ⟨o, ho, e⟩)
    have h2 : lq ≠ [] := hne (q, lq) (List.mem_cons_self _ _)
    have h3 := ih (fun x hx => hne x (List.mem_cons_of_mem _ hx)) h.2
    unfold Ladder.without at h3 ⊢
    rw [List.filterMap_cons]
    simp only [h1, h3]
    cases lq with
    | nil => exact absurd rfl h2
    | cons a r => rfl

theorem Level.eraseId_eq_filter (l : Level) (id : OrderId) (h : (l.map Order.orderId).Nodup) :
    Level.eraseId l id = l.filter (fun o => o.orderId != id) := by
  induction l with
  | nil => rfl
  | cons a r ih =>
    simp only [List.map_cons, List.nodup_cons] at h
    unfold Level.eraseId at ih ⊢
    by_cases ha : a.orderId = id
    · have hr : r.filter (fun o => o.orderId != id) = r := by
        rw [List.filter_eq_self]
        intro o ho
        simp only [bne_iff_ne, ne_eq]
        intro e; exact h.1 (List.mem_map.mpr ⟨o, ho, by rw [e, ha]⟩)
      simp [List.eraseP_cons, ha, hr]
    · simp [List.eraseP_cons, ha, ih h.2]

theorem Ladder.without_eq (before : Int → Int → Prop) (hirr : ∀ x, ¬ before x x)
    (l : Ladder) (id : OrderId) (hs : l.keys.Pairwise before) (hne : ∀ x ∈ l, x.2 ≠ [])
    (hnd : (l.all.map Order.orderId).Nodup) (p : Int) (lv : Level) (hmem : (p, lv) ∈ l)
    (hid : id ∈ lv.map Order.orderId) :
    l.without id =
      if (Level.eraseId lv id).isEmpty then l.erase p else l.set p (Level.eraseId lv id) := by
  induction l with
  | nil => simp at hmem
  | cons x t ih =>
    obtain ⟨q, lq⟩ := x
    simp only [Ladder.keys, List.map_cons, List.pairwise_cons] at hs
    simp only [Ladder.all, List.map_append] at hnd
    have hnd1 := (List.nodup_append.mp hnd).1
    have hnd2 := (List.nodup_append.mp hnd).2.1
    have hdis := (List.nodup_append.mp hnd).2.2
    rcases List.mem_cons.mp hmem with h | h
    · cases h
      have ht : Ladder.without t id = t := by
        apply Ladder.without_of_not_mem _ _ (fun x hx => hne x (List.mem_cons_of_mem _ hx))
        intro hin; exact hdis hid hin
      rw [Level.eraseId_eq_filter _ _ hnd1]
      unfold Ladder.without at ht ⊢
      rw [List.filterMap_cons, ht]
      by_cases he : (lv.filter (fun o => o.orderId != id)).isEmpty = true
      · simp [he, Ladder.erase]
      · simp [he, Ladder.set]
    · have hq : before q p := hs.1 p (List.mem_map.mpr ⟨(p, lv), h, rfl⟩)
      have hqp : q ≠ p := by intro e; rw [e] at hq; exact hirr _ hq
      have hin : id ∈ (Ladder.all t).map Order.orderId := by
        obtain ⟨o, ho, hoid⟩ := List.mem_map.mp hid
        exact List.mem_map.mpr ⟨o, (Ladder.mem_all t o).mpr ⟨(p, lv), h, ho⟩, hoid⟩
      have h1 : lq.filter (fun o => o.orderId != id) = lq := by
        rw [List.filter_eq_self]
        intro o ho
        simp only [bne_iff_ne, ne_eq]
        intro e; exact hdis (List.mem_map.mpr ⟨o, ho, e⟩) hin
      have h2 : lq ≠ [] := hne (q, lq) (List.mem_cons_self _ _)
      have h3 := ih hs.2 (fun x hx => hne x (List.mem_cons_of_mem _ hx)) hnd2 h
      have h4 : lq.isEmpty = false := by cases lq with
        | nil => exact absurd rfl h2
        | cons a r => rfl
      unfold Ladder.without at h3 ⊢
      rw [List.filterMap_cons]
      simp only [h1, h4, Bool.false_eq_true, if_false, h3, Ladder.erase, Ladder.set, hqp]
      split <;> rfl


theorem Order.entry_orderId (o : Order) : o.entry.orderId = o.orderId := rfl

theorem WellFormed.index_iff {b : OrderBook} (h : WellFormed b) (id : OrderId) :
    id ∈ b.orders.map OrderEntry.orderId ↔ id ∈ b.resting.map Order.orderId := by
  constructor
  · intro hin
    obtain ⟨e, he, hid⟩ := List.mem_map.mp hin
    obtain ⟨o, ho, hoe⟩ := List.mem_map.mp ((h.index e).mp he)
    exact List.mem_map.mpr ⟨o, ho, by rw [← hid, ← hoe]; rfl⟩
  · intro hin
    obtain ⟨o, ho, hid⟩ := List.mem_map.mp hin
    exact List.mem_map.mpr ⟨o.entry, (h.index _).mpr (List.mem_map.mpr ⟨o, ho, rfl⟩), hid⟩

theorem OrderBook.resting_without (b : OrderBook) (id : OrderId) :
    (b.without id).resting = b.resting.filter (fun o => o.orderId != id) := by
  simp [OrderBook.resting, OrderBook.without, Ladder.all_without, List.filter_append]

theorem WellFormed.without_wf {b : OrderBook} (h : WellFormed b) (id : OrderId) :
    WellFormed (b.without id) where
  bids := h.bids.without_ok id
  asks := h.asks.without_ok id
  uncrossed := fun x hx y hy =>
    h.uncrossed x ((Ladder.keys_without _ id).subset hx) y ((Ladder.keys_without _ id).subset hy)
  ids := by
    rw [OrderBook.resting_without]
    exact h.ids.sublist ((List.filter_sublist _).map _)
  index_ids := h.index_ids.sublist ((List.filter_sublist _).map _)
  index := by
    intro e
    rw [OrderBook.resting_without]
    simp only [OrderBook.without, List.mem_filter, List.mem_map, h.index e]
    constructor
    · rintro ⟨⟨o, ho, rfl⟩, hne⟩
      exact ⟨o, ⟨ho, hne⟩, rfl⟩
    · rintro ⟨o, ⟨ho, hne⟩, rfl⟩
      exact ⟨⟨o, ho, rfl⟩, hne⟩

theorem Inv.without_inv {b : OrderBook} (h : Inv b) (id : OrderId) : Inv (b.without id) where
  toWellFormed := h.toWellFormed.without_wf id
  gtc := by
    intro o ho
    rw [OrderBook.resting_without] at ho
    exact h.gtc o (List.mem_filter.mp ho).1

theorem CancelOrder_eq {b : OrderBook} (h : WellFormed b) (id : OrderId) :
    CancelOrder b id = (b.without id, .ok ()) := by
  unfold CancelOrder
  cases hl : b.orders.lookup id with
  | none =>
    have h1 : id ∉ b.orders.map OrderEntry.orderId := (Index.lookup_eq_none _ _).mp hl
    have h2 : id ∉ b.resting.map Order.orderId := fun hin => h1 ((h.index_iff id).mpr hin)
    simp only [OrderBook.resting, List.map_append, List.mem_append, not_or] at h2
    have h3 : b.orders.filter (fun e => e.orderId != id) = b.orders := Index.erase_of_not_mem _ _ h1
    simp only [OrderBook.without, Ladder.without_of_not_mem _ _ h.bids.nonempty h2.1,
      Ladder.without_of_not_mem _ _ h.asks.nonempty h2.2, h3]
  | some e =>
    obtain ⟨he, hid⟩ := Index.lookup_some _ _ _ hl
    obtain ⟨o, ho, hoe⟩ := List.mem_map.mp ((h.index e).mp he)
    have hoid : o.orderId = id := by rw [← hid, ← hoe]; rfl
    have hnd := h.ids
    simp only [OrderBook.resting, List.map_append] at hnd
    have hndb := (List.nodup_append.mp hnd).1
    have hnda := (List.nodup_append.mp hnd).2.1
    have hdis := (List.nodup_append.mp hnd).2.2
    simp only [OrderBook.resting, List.mem_append] at ho
    rcases ho with ho | ho
    · obtain ⟨x, hx, hox⟩ := (Ladder.mem_all _ _).mp ho
      obtain ⟨p, lv⟩ := x
      have htag := h.bids.tagged (p, lv) hx o hox
      have hside : e.side = Side.Buy := by rw [← hoe]; exact htag.2
      have hprice : e.price = p := by rw [← hoe]; exact htag.1
      have hat := Ladder.at_of_mem (fun x y => x > y) (fun x => lt_irrefl x) _ h.bids.sorted p lv hx
      have hidlv : id ∈ lv.map Order.orderId := List.mem_map.mpr ⟨o, hox, hoid⟩
      have hw := Ladder.without_eq (fun x y => x > y) (fun x => lt_irrefl x) _ id h.bids.sorted
        h.bids.nonempty hndb
        p lv hx hidlv
      have hnotin : id ∉ (Ladder.all b.asks).map Order.orderId := by
        intro hin
        exact hdis (List.mem_map.mpr ⟨o, ho, hoid⟩) hin
      have hwa := Ladder.without_of_not_mem _ id h.asks.nonempty hnotin
      simp only [hside, hprice, hat, OrderBook.without, hw, hwa, Index.erase, reduceCtorEq,
        if_false]
      split <;> rfl
    · obtain ⟨x, hx, hox⟩ := (Ladder.mem_all _ _).mp ho
      obtain ⟨p, lv⟩ := x
      have htag := h.asks.tagged (p, lv) hx o hox
      have hside : e.side = Side.Sell := by rw [← hoe]; exact htag.2
      have hprice : e.price = p := by rw [← hoe]; exact htag.1
      have hat := Ladder.at_of_mem (fun x y => x < y) (fun x => lt_irrefl x) _ h.asks.sorted p lv hx
      have hidlv : id ∈ lv.map Order.orderId := List.mem_map.mpr ⟨o, hox, hoid⟩
      have hw := Ladder.without_eq (fun x y => x < y) (fun x => lt_irrefl x) _ id h.asks.sorted
        h.asks.nonempty hnda
        p lv hx hidlv
      have hnotin : id ∉ (Ladder.all b.bids).map Order.orderId := by
        intro hin
        exact hdis hin (List.mem_map.mpr ⟨o, ho, hoid⟩)
      have hwb := Ladder.without_of_not_mem _ id h.bids.nonempty hnotin
      simp only [hside, hprice, hat, OrderBook.without, hw, hwb, Index.erase, if_true]
      split <;> rfl

theorem wrapInt32_zero : wrapInt32 0 = 0 := by decide

theorem Order.fill_le (o : Order) (q : Int) (h : q ≤ o.remainingQuantity) :
    o.fill q = .ok (o.filledBy q) := by
  simp [Order.fill, Order.filledBy, not_lt.mpr h]

theorem Order.filledBy_self (o : Order) : (o.filledBy o.remainingQuantity).isFilled = true := by
  simp [Order.filledBy, Order.isFilled, wrapInt32_zero]

theorem Order.filledBy_min (o a : Order)
    (h : (o.filledBy (min o.remainingQuantity a.remainingQuantity)).isFilled ≠ true) :
    (a.filledBy (min o.remainingQuantity a.remainingQuantity)).isFilled = true := by
  rcases min_choice o.remainingQuantity a.remainingQuantity with h1 | h1
  · rw [h1] at h; exact absurd (Order.filledBy_self o) h
  · rw [h1]; exact Order.filledBy_self a

theorem Order.entry_filledBy (o : Order) (q : Int) : (o.filledBy q).entry = o.entry := rfl

theorem Index.eraseAll_nil (idx : Index) : Index.eraseAll idx [] = idx := by
  simp [Index.eraseAll]

theorem Index.erase_eraseAll (idx : Index) (ids : List OrderId) (id : OrderId) :
    (Index.eraseAll idx ids).erase id = Index.eraseAll idx (ids ++ [id]) := by
  simp only [Index.eraseAll, Index.erase, List.filter_filter]
  apply List.filter_congr
  intro e _
  by_cases h : e.orderId = id <;> simp [h]

theorem Index.eraseAll_congr (idx : Index) (ids1 ids2 : List OrderId)
    (h : ∀ x, x ∈ ids1 ↔ x ∈ ids2) : Index.eraseAll idx ids1 = Index.eraseAll idx ids2 := by
  simp only [Index.eraseAll]
  apply List.filter_congr
  intro e _
  simp [h]

theorem sweepLevel_residual (l : Level) : ∀ (o o1 : Order),
    (sweepLevel o l).residual = some o1 →
      o1.entry = o.entry ∧ (sweepLevel o l).rest = [] := by
  induction l with
  | nil => intro o o1 h; simp [sweepLevel] at h; subst h; exact ⟨rfl, rfl⟩
  | cons a rest ih =>
    intro o o1 h
    simp only [sweepLevel] at h ⊢
    split at h
    · cases h
    · rename_i hf
      simp only [hf, if_false]
      obtain ⟨h1, h2⟩ := ih _ _ h
      exact ⟨h1, h2⟩

theorem matchLevel_buy (l : Level) : ∀ (o : Order) (idx : Index) (ids : List OrderId)
    (ts : List Trade) (fuel : Nat), o.side = Side.Buy → l.length ≤ fuel →
    matchLevel fuel [o] l (Index.eraseAll idx ids) ts =
      ((sweepLevel o l).residual.toList, (sweepLevel o l).rest,
        Index.eraseAll idx (ids ++ (sweepLevel o l).filled ++
          (if (sweepLevel o l).residual.isNone then [o.orderId] else [])),
        ts ++ (sweepLevel o l).trades, none) := by
  induction l with
  | nil => intro o idx ids ts fuel _ _; simp [matchLevel, sweepLevel]
  | cons a rest ih =>
    intro o idx ids ts fuel hs hf
    obtain ⟨f, rfl⟩ : ∃ f, fuel = f + 1 := ⟨fuel - 1, by simp at hf; omega⟩
    have hf2 : rest.length ≤ f := by simpa using hf
    have hs1 : ∀ q, (o.filledBy q).side = Side.Buy := fun q => hs
    have hi1 : ∀ q, (o.filledBy q).orderId = o.orderId := fun q => rfl
    have hi2 : ∀ q, (a.filledBy q).orderId = a.orderId := fun q => rfl
    simp only [matchLevel, sweepLevel]
    rw [Order.fill_le _ _ (min_le_left _ _), Order.fill_le _ _ (min_le_right _ _)]
    simp only []
    by_cases h1 : (o.filledBy (min o.remainingQuantity a.remainingQuantity)).isFilled = true
    · by_cases h2 : (a.filledBy (min o.remainingQuantity a.remainingQuantity)).isFilled = true
      · simp only [h1, h2, if_true, matchLevel, Index.erase_eraseAll, Trade.between, hs1, hi1, hi2,
          Option.toList, Option.isNone, List.append_assoc]
        refine Prod.ext rfl (Prod.ext rfl (Prod.ext ?_ rfl))
        apply Index.eraseAll_congr
        intro x; simp; tauto
      · simp only [h1, h2, if_true, matchLevel, Index.erase_eraseAll, Trade.between, hs1, hi1, hi2,
          Option.toList, Option.isNone, List.append_assoc, Bool.false_eq_true, if_false,
          List.nil_append]
    · have h2 := Order.filledBy_min o a h1
      simp only [h1, h2, if_true, Bool.false_eq_true, if_false]
      rw [Index.erase_eraseAll, ih _ _ _ _ _ (hs1 _) hf2]
      simp only [Trade.between, hs1, hi1, hi2, if_true, List.append_assoc, List.singleton_append,
        List.cons_append, List.nil_append]

theorem matchLevel_nil_right (fuel : Nat) (l : Level) (idx : Index) (ts : List Trade) :
    matchLevel fuel l [] idx ts = (l, [], idx, ts, none) := by
  cases l <;> simp [matchLevel]

theorem matchLevel_sell (l : Level) : ∀ (o : Order) (idx : Index) (ids : List OrderId)
    (ts : List Trade) (fuel : Nat), o.side = Side.Sell → l.length ≤ fuel →
    matchLevel fuel l [o] (Index.eraseAll idx ids) ts =
      ((sweepLevel o l).rest, (sweepLevel o l).residual.toList,
        Index.eraseAll idx (ids ++ (sweepLevel o l).filled ++
          (if (sweepLevel o l).residual.isNone then [o.orderId] else [])),
        ts ++ (sweepLevel o l).trades, none) := by
  induction l with
  | nil => intro o idx ids ts fuel _ _; simp [matchLevel, sweepLevel]
  | cons a rest ih =>
    intro o idx ids ts fuel hs hf
    obtain ⟨f, rfl⟩ : ∃ f, fuel = f + 1 := ⟨fuel - 1, by simp at hf; omega⟩
    have hf2 : rest.length ≤ f := by simpa using hf
    have hs1 : ∀ q, (o.filledBy q).side = Side.Sell := fun q => hs
    have hi1 : ∀ q, (o.filledBy q).orderId = o.orderId := fun q => rfl
    have hi2 : ∀ q, (a.filledBy q).orderId = a.orderId := fun q => rfl
    simp only [matchLevel, sweepLevel]
    rw [min_comm a.remainingQuantity o.remainingQuantity,
      Order.fill_le _ _ (min_le_left _ _), Order.fill_le _ _ (min_le_right _ _)]
    simp only []
    by_cases h1 : (o.filledBy (min o.remainingQuantity a.remainingQuantity)).isFilled = true
    · by_cases h2 : (a.filledBy (min o.remainingQuantity a.remainingQuantity)).isFilled = true
      · simp only [h1, h2, if_true, matchLevel_nil_right, Index.erase_eraseAll, Trade.between, hs1,
          hi1, hi2, Option.toList, Option.isNone, List.append_assoc, reduceCtorEq, if_false]
      · simp only [h1, h2, if_true, matchLevel_nil_right, Index.erase_eraseAll, Trade.between, hs1,
          hi1, hi2, Option.toList, Option.isNone, List.append_assoc, Bool.false_eq_true, if_false,
          List.nil_append, reduceCtorEq]
    · have h2 := Order.filledBy_min o a h1
      simp only [h1, h2, if_true, Bool.false_eq_true, if_false]
      rw [Index.erase_eraseAll, ih _ _ _ _ _ (hs1 _) hf2]
      simp only [Trade.between, hs1, hi1, hi2, if_true, List.append_assoc, List.singleton_append,
        List.cons_append, List.nil_append, reduceCtorEq, if_false]

theorem matchLoop_stop (fuel : Nat) (b : OrderBook) (ts : List Trade)
    (h : ∀ x ∈ b.bids.keys, ∀ y ∈ b.asks.keys, x < y) : matchLoop fuel b ts = (b, .ok ts) := by
  unfold matchLoop
  split
  · rfl
  · rfl
  · rename_i bp bl rb ap al ra hb ha
    have : bp < ap := h bp (by simp [hb, Ladder.keys]) ap (by simp [ha, Ladder.keys])
    simp [this]


theorem Order.crosses_buy (o : Order) (p : Int) (h : o.side = Side.Buy) :
    o.crosses p = true ↔ ¬ o.price < p := by
  simp [Order.crosses, h]

theorem Order.crosses_sell (o : Order) (p : Int) (h : o.side = Side.Sell) :
    o.crosses p = true ↔ ¬ p < o.price := by
  simp [Order.crosses, h]

theorem Order.crosses_congr (o o1 : Order) (p : Int) (h : o1.entry = o.entry) :
    o1.crosses p = o.crosses p := by
  have h1 : o1.side = o.side := congrArg OrderEntry.side h
  have h2 : o1.price = o.price := congrArg OrderEntry.price h
  simp [Order.crosses, h1, h2]

theorem matchLoop_buy (asks : Ladder) : ∀ (o : Order) (rb : Ladder) (idx : Index)
    (ids : List OrderId) (ts : List Trade) (fuel : Nat),
    o.side = Side.Buy → asks.length ≤ fuel →
    (∀ x ∈ rb.keys, ∀ y ∈ asks.keys, x < y) →
    matchLoop fuel { bids := (o.price, [o]) :: rb, asks := asks,
                     orders := Index.eraseAll idx ids } ts =
      ({ bids := (match (sweepLadder o asks).residual with
                  | none => rb
                  | some o1 => (o.price, [o1]) :: rb),
         asks := (sweepLadder o asks).rest,
         orders := Index.eraseAll idx (ids ++ (sweepLadder o asks).filled ++
            (if (sweepLadder o asks).residual.isNone then [o.orderId] else [])) },
       .ok (ts ++ (sweepLadder o asks).trades)) := by
  induction asks with
  | nil =>
    intro o rb idx ids ts fuel _ _ _
    unfold matchLoop
    simp [sweepLadder]
  | cons x R ih =>
    obtain ⟨p, l⟩ := x
    intro o rb idx ids ts fuel hs hf hrb
    by_cases hc : o.crosses p = true
    · have hlt : ¬ o.price < p := (Order.crosses_buy o p hs).mp hc
      obtain ⟨f, rfl⟩ : ∃ f, fuel = f + 1 := ⟨fuel - 1, by simp at hf; omega⟩
      have hf2 : R.length ≤ f := by simpa using hf
      unfold matchLoop
      simp only [hlt, if_false, List.length_singleton]
      rw [matchLevel_buy l o idx ids ts _ hs (by omega)]
      simp only [sweepLadder, hc, if_true]
      cases hres : (sweepLevel o l).residual with
      | none =>
        simp only [Option.toList, List.isEmpty_nil, if_true, Ladder.erase, Option.isNone]
        by_cases hemp : (sweepLevel o l).rest.isEmpty = true
        · simp only [hemp, if_true]
          rw [matchLoop_stop]
          intro x hx y hy
          exact hrb x hx y (by simp only [Ladder.keys, List.map_cons]; exact List.mem_cons_of_mem _ hy)
        · simp only [hemp, Bool.false_eq_true, if_false]
          rw [matchLoop_stop]
          intro x hx y hy
          exact hrb x hx y (by simpa [Ladder.keys] using hy)
      | some o1 =>
        obtain ⟨he, hrest⟩ := sweepLevel_residual l o o1 hres
        have hp1 : o1.price = o.price := congrArg OrderEntry.price he
        have hs1 : o1.side = Side.Buy := (congrArg OrderEntry.side he).trans hs
        have hi1 : o1.orderId = o.orderId := congrArg OrderEntry.orderId he
        simp only [hrest, Option.toList, List.isEmpty_nil, if_true, Ladder.erase,
          List.isEmpty_cons, Bool.false_eq_true, if_false, Option.isNone, List.append_nil]
        have := ih o1 rb idx (ids ++ (sweepLevel o l).filled) (ts ++ (sweepLevel o l).trades) f hs1
          hf2 (fun x hx y hy => hrb x hx y (by
            simp only [Ladder.keys, List.map_cons]; exact List.mem_cons_of_mem _ hy))
        rw [hp1] at this
        rw [this, hi1]
        simp only [List.append_assoc]
        rfl
    · have hlt : o.price < p := by
        by_contra hn; exact hc ((Order.crosses_buy o p hs).mpr hn)
      unfold matchLoop
      simp [hlt, sweepLadder, hc]


theorem matchLoop_sell (bids : Ladder) : ∀ (o : Order) (ra : Ladder) (idx : Index)
    (ids : List OrderId) (ts : List Trade) (fuel : Nat),
    o.side = Side.Sell → bids.length ≤ fuel →
    (∀ x ∈ bids.keys, ∀ y ∈ ra.keys, x < y) →
    matchLoop fuel { bids := bids, asks := (o.price, [o]) :: ra,
                     orders := Index.eraseAll idx ids } ts =
      ({ bids := (sweepLadder o bids).rest,
         asks := (match (sweepLadder o bids).residual with
                  | none => ra
                  | some o1 => (o.price, [o1]) :: ra),
         orders := Index.eraseAll idx (ids ++ (sweepLadder o bids).filled ++
            (if (sweepLadder o bids).residual.isNone then [o.orderId] else [])) },
       .ok (ts ++ (sweepLadder o bids).trades)) := by
  induction bids with
  | nil =>
    intro o ra idx ids ts fuel _ _ _
    unfold matchLoop
    simp [sweepLadder]
  | cons x R ih =>
    obtain ⟨p, l⟩ := x
    intro o ra idx ids ts fuel hs hf hra
    by_cases hc : o.crosses p = true
    · have hlt : ¬ p < o.price := (Order.crosses_sell o p hs).mp hc
      obtain ⟨f, rfl⟩ : ∃ f, fuel = f + 1 := ⟨fuel - 1, by simp at hf; omega⟩
      have hf2 : R.length ≤ f := by simpa using hf
      unfold matchLoop
      simp only [hlt, if_false, List.length_singleton]
      rw [matchLevel_sell l o idx ids ts _ hs (by omega)]
      simp only [sweepLadder, hc, if_true]
      cases hres : (sweepLevel o l).residual with
      | none =>
        simp only [Option.toList, List.isEmpty_nil, if_true, Ladder.erase, Option.isNone]
        by_cases hemp : (sweepLevel o l).rest.isEmpty = true
        · simp only [hemp, if_true]
          rw [matchLoop_stop]
          intro x hx y hy
          exact hra x (by simp only [Ladder.keys, List.map_cons]; exact List.mem_cons_of_mem _ hx) y hy
        · simp only [hemp, Bool.false_eq_true, if_false]
          rw [matchLoop_stop]
          intro x hx y hy
          exact hra x (by simpa [Ladder.keys] using hx) y hy
      | some o1 =>
        obtain ⟨he, hrest⟩ := sweepLevel_residual l o o1 hres
        have hp1 : o1.price = o.price := congrArg OrderEntry.price he
        have hs1 : o1.side = Side.Sell := (congrArg OrderEntry.side he).trans hs
        have hi1 : o1.orderId = o.orderId := congrArg OrderEntry.orderId he
        simp only [hrest, Option.toList, List.isEmpty_nil, if_true, Ladder.erase,
          List.isEmpty_cons, Bool.false_eq_true, if_false, Option.isNone, List.append_nil]
        have := ih o1 ra idx (ids ++ (sweepLevel o l).filled) (ts ++ (sweepLevel o l).trades) f hs1
          hf2 (fun x hx y hy => hra x (by
            simp only [Ladder.keys, List.map_cons]; exact List.mem_cons_of_mem _ hx) y hy)
        rw [hp1] at this
        rw [this, hi1]
        simp only [List.append_assoc]
        rfl
    · have hlt : p < o.price := by
        by_contra hn; exact hc ((Order.crosses_sell o p hs).mpr hn)
      unfold matchLoop
      simp [hlt, sweepLadder, hc]

theorem sweepLevel_split (l : Level) : ∀ (o : Order), ∃ gone kept : List Order,
    l = gone ++ kept ∧ (sweepLevel o l).filled = gone.map Order.orderId ∧
      (sweepLevel o l).rest.map Order.entry = kept.map Order.entry := by
  induction l with
  | nil => intro o; exact ⟨[], [], rfl, rfl, rfl⟩
  | cons a r ih =>
    intro o
    simp only [sweepLevel]
    split
    · split
      · exact ⟨[a], r, rfl, rfl, rfl⟩
      · exact ⟨[], a :: r, rfl, rfl, rfl⟩
    · obtain ⟨g, k, h1, h2, h3⟩ := ih (o.filledBy (min o.remainingQuantity a.remainingQuantity))
      refine ⟨a :: g, k, by rw [h1]; rfl, ?_, h3⟩
      simp only [h2, List.map_cons]

theorem sweepLadder_all_none (p : Int) (R : Ladder) (l : Level) :
    Ladder.all (if l.isEmpty then R else (p, l) :: R) = l ++ Ladder.all R := by
  cases l <;> simp [Ladder.all]

theorem sweepLadder_split (L : Ladder) : ∀ (o : Order), ∃ gone kept : List Order,
    Ladder.all L = gone ++ kept ∧ (sweepLadder o L).filled = gone.map Order.orderId ∧
      (Ladder.all (sweepLadder o L).rest).map Order.entry = kept.map Order.entry := by
  induction L with
  | nil => intro o; exact ⟨[], [], rfl, rfl, rfl⟩
  | cons x R ih =>
    obtain ⟨p, l⟩ := x
    intro o
    simp only [sweepLadder]
    split
    · obtain ⟨g, k, h1, h2, h3⟩ := sweepLevel_split l o
      cases hres : (sweepLevel o l).residual with
      | none =>
        refine ⟨g, k ++ Ladder.all R, by simp [Ladder.all, h1], h2, ?_⟩
        simp only [sweepLadder_all_none, List.map_append, h3]
      | some o1 =>
        have hrest := (sweepLevel_residual l o o1 hres).2
        rw [hrest] at h3
        have hk : k = [] := by
          cases k with
          | nil => rfl
          | cons _ _ => simp at h3
        subst hk
        obtain ⟨g2, k2, h4, h5, h6⟩ := ih o1
        refine ⟨g ++ g2, k2, by simp [Ladder.all, h1, h4], ?_, h6⟩
        simp only [h2, h5, List.map_append]
    · exact ⟨[], Ladder.all ((p, l) :: R), rfl, rfl, rfl⟩

theorem sweepLadder_residual (L : Ladder) : ∀ (o o1 : Order),
    (sweepLadder o L).residual = some o1 → o1.entry = o.entry := by
  induction L with
  | nil => intro o o1 h; simp [sweepLadder] at h; rw [h]
  | cons x R ih =>
    obtain ⟨p, l⟩ := x
    intro o o1 h
    simp only [sweepLadder] at h
    split at h
    · cases hres : (sweepLevel o l).residual with
      | none => rw [hres] at h; simp at h
      | some o2 =>
        rw [hres] at h
        exact (ih o2 o1 h).trans (sweepLevel_residual l o o2 hres).1
    · simp at h; rw [h]

theorem sweepLadder_keys (L : Ladder) : ∀ (o : Order),
    (sweepLadder o L).rest.keys.Sublist L.keys := by
  induction L with
  | nil => intro o; exact List.Sublist.slnil
  | cons x R ih =>
    obtain ⟨p, l⟩ := x
    intro o
    simp only [sweepLadder]
    split
    · cases hres : (sweepLevel o l).residual with
      | none =>
        simp only []
        split
        · exact List.sublist_cons_self _ _
        · exact List.Sublist.refl _
      | some o2 => exact (ih o2).trans (List.sublist_cons_self _ _)
    · exact List.Sublist.refl _

/-- Every level left by the sweep comes from a level of the ladder with the same key, and its
orders are orders of that level up to their remaining quantity. -/
theorem sweepLadder_mem (L : Ladder) : ∀ (o : Order) (x : Int × Level),
    x ∈ (sweepLadder o L).rest → x.2 ≠ [] ∨ x ∈ L := by
  induction L with
  | nil => intro o x h; simp [sweepLadder] at h
  | cons y R ih =>
    obtain ⟨p, l⟩ := y
    intro o x h
    simp only [sweepLadder] at h
    split at h
    · cases hres : (sweepLevel o l).residual with
      | none =>
        rw [hres] at h
        simp only [] at h
        split at h
        · exact Or.inr (List.mem_cons_of_mem _ h)
        · rename_i hne
          rcases List.mem_cons.mp h with h | h
          · left; rw [h]; intro h0; apply hne; simp only [] at h0; rw [h0]; rfl
          · exact Or.inr (List.mem_cons_of_mem _ h)
      | some o2 =>
        rw [hres] at h
        rcases ih o2 x h with h | h
        · exact Or.inl h
        · exact Or.inr (List.mem_cons_of_mem _ h)
    · exact Or.inr h

theorem sweepLevel_rest_mem (l : Level) (o a : Order) (h : a ∈ (sweepLevel o l).rest) :
    ∃ a0 ∈ l, a.entry = a0.entry := by
  obtain ⟨g, k, h1, _, h3⟩ := sweepLevel_split l o
  have : a.entry ∈ k.map Order.entry := by rw [← h3]; exact List.mem_map.mpr ⟨a, h, rfl⟩
  obtain ⟨a0, ha0, he⟩ := List.mem_map.mp this
  exact ⟨a0, by rw [h1]; exact List.mem_append_right _ ha0, he.symm⟩

theorem sweepLadder_tagged (L : Ladder) : ∀ (o : Order) (x : Int × Level),
    x ∈ (sweepLadder o L).rest → ∀ a ∈ x.2, ∃ lv a0, (x.1, lv) ∈ L ∧ a0 ∈ lv ∧ a.entry = a0.entry := by
  induction L with
  | nil => intro o x h; simp [sweepLadder] at h
  | cons y R ih =>
    obtain ⟨p, l⟩ := y
    intro o x h a ha
    simp only [sweepLadder] at h
    split at h
    · cases hres : (sweepLevel o l).residual with
      | none =>
        rw [hres] at h
        simp only [] at h
        split at h
        · exact ⟨x.2, a, List.mem_cons_of_mem _ h, ha, rfl⟩
        · rcases List.mem_cons.mp h with h | h
          · rw [h] at ha
            obtain ⟨a0, ha0, he⟩ := sweepLevel_rest_mem l o a ha
            exact ⟨l, a0, by rw [h]; exact List.mem_cons_self _ _, ha0, he⟩
          · exact ⟨x.2, a, List.mem_cons_of_mem _ h, ha, rfl⟩
      | some o2 =>
        rw [hres] at h
        obtain ⟨lv, a0, h1, h2, h3⟩ := ih o2 x h a ha
        exact ⟨lv, a0, List.mem_cons_of_mem _ h1, h2, h3⟩
    · exact ⟨x.2, a, h, ha, rfl⟩

theorem LadderOk.sweep {before : Int → Int → Prop} {side : Side} {L : Ladder}
    (h : LadderOk before side L) (o : Order) : LadderOk before side (sweepLadder o L).rest where
  sorted := h.sorted.sublist (sweepLadder_keys L o)
  nonempty := by
    intro x hx
    rcases sweepLadder_mem L o x hx with h1 | h1
    · exact h1
    · exact h.nonempty x h1
  tagged := by
    intro x hx a ha
    obtain ⟨lv, a0, h1, h2, h3⟩ := sweepLadder_tagged L o x hx a ha
    have := h.tagged (x.1, lv) h1 a0 h2
    have hp : a.price = a0.price := congrArg OrderEntry.price h3
    have hs : a.side = a0.side := congrArg OrderEntry.side h3
    rw [hp, hs]; exact this

/-- When something of the incoming order is left, the sweep has stopped in front of a level
that the order does not cross, and so it crosses none of the levels left. -/
theorem sweepLadder_stop (before : Int → Int → Prop) (L : Ladder) : ∀ (o o1 : Order),
    (∀ p y, before p y → o.crosses p = false → o.crosses y = false) →
    L.keys.Pairwise before →
    (sweepLadder o L).residual = some o1 → ∀ y ∈ (sweepLadder o L).rest.keys, o.crosses y = false := by
  induction L with
  | nil => intro o o1 _ _ _ y hy; simp [sweepLadder, Ladder.keys] at hy
  | cons x R ih =>
    obtain ⟨p, l⟩ := x
    intro o o1 hmono hs h y hy
    simp only [Ladder.keys, List.map_cons, List.pairwise_cons] at hs
    simp only [sweepLadder] at h hy
    split at h
    · rename_i hc
      simp only [hc, if_true] at hy
      cases hres : (sweepLevel o l).residual with
      | none => rw [hres] at h; simp at h
      | some o2 =>
        rw [hres] at h hy
        have he := (sweepLevel_residual l o o2 hres).1
        have := ih o2 o1 (fun p y hb hcr => by
          rw [Order.crosses_congr o o2 _ he] at hcr ⊢
          exact hmono p y hb hcr) hs.2 h y hy
        rw [Order.crosses_congr o o2 _ he] at this
        exact this
    · rename_i hc
      simp only [hc, Bool.false_eq_true, if_false, Ladder.keys, List.map_cons, List.mem_cons] at hy
      have hcp : o.crosses p = false := by simpa using hc
      rcases hy with hy | hy
      · rw [hy]; exact hcp
      · exact hmono p y (hs.1 y hy) hcp

theorem Ladder.push_cases (bf : Int → Int → Bool) (l : Ladder) (o : Order) (x : Int × Level)
    (h : x ∈ Ladder.push bf l o) :
    x ∈ l ∨ x = (o.price, [o]) ∨ ∃ lv, (o.price, lv) ∈ l ∧ x = (o.price, lv ++ [o]) := by
  induction l with
  | nil =>
    simp only [Ladder.push, List.mem_singleton] at h
    exact Or.inr (Or.inl h)
  | cons y t ih =>
    obtain ⟨p, lv⟩ := y
    simp only [Ladder.push] at h
    split at h
    · rename_i hp
      rcases List.mem_cons.mp h with h | h
      · exact Or.inr (Or.inr ⟨lv, by rw [hp]; exact List.mem_cons_self _ _, by rw [h, hp]⟩)
      · exact Or.inl (List.mem_cons_of_mem _ h)
    · split at h
      · rcases List.mem_cons.mp h with h | h
        · exact Or.inr (Or.inl h)
        · exact Or.inl h
      · rcases List.mem_cons.mp h with h | h
        · exact Or.inl (by rw [h]; exact List.mem_cons_self _ _)
        · rcases ih h with h | h | ⟨lv2, h1, h2⟩
          · exact Or.inl (List.mem_cons_of_mem _ h)
          · exact Or.inr (Or.inl h)
          · exact Or.inr (Or.inr ⟨lv2, List.mem_cons_of_mem _ h1, h2⟩)

theorem Ladder.push_keys (bf : Int → Int → Bool) (l : Ladder) (o : Order) (x : Int)
    (h : x ∈ (Ladder.push bf l o).keys) : x = o.price ∨ x ∈ l.keys := by
  obtain ⟨y, hy, hx⟩ := List.mem_map.mp h
  rcases Ladder.push_cases bf l o y hy with h1 | h1 | ⟨lv, _, h2⟩
  · exact Or.inr (List.mem_map.mpr ⟨y, h1, hx⟩)
  · left; rw [← hx, h1]
  · left; rw [← hx, h2]

theorem Ladder.push_all (bf : Int → Int → Bool) (l : Ladder) (o : Order) :
    (Ladder.all (Ladder.push bf l o)).Perm (o :: Ladder.all l) := by
  induction l with
  | nil => simp [Ladder.push, Ladder.all]
  | cons y t ih =>
    obtain ⟨p, lv⟩ := y
    simp only [Ladder.push]
    split
    · simp only [Ladder.all, List.append_assoc, List.singleton_append]
      exact (List.perm_middle).trans (List.Perm.refl _)
    · split
      · simp [Ladder.all]
      · simp only [Ladder.all]
        exact ((List.Perm.append_left lv ih).trans List.perm_middle)

theorem Ladder.push_sorted (R : Int → Int → Prop) (bf : Int → Int → Bool)
    (hbf : ∀ x y, bf x y = true ↔ R x y) (htri : ∀ x y, ¬ R x y → y ≠ x → R y x)
    (htrans : ∀ x y z, R x y → R y z → R x z) (l : Ladder) (o : Order)
    (h : l.keys.Pairwise R) : (Ladder.push bf l o).keys.Pairwise R := by
  induction l with
  | nil => simp [Ladder.push, Ladder.keys]
  | cons y t ih =>
    obtain ⟨p, lv⟩ := y
    simp only [Ladder.keys, List.map_cons, List.pairwise_cons] at h
    simp only [Ladder.push]
    split
    · simp only [Ladder.keys, List.map_cons, List.pairwise_cons]
      exact h
    · rename_i hne
      split
      · rename_i hb
        have hR : R o.price p := (hbf _ _).mp hb
        simp only [Ladder.keys, List.map_cons, List.pairwise_cons, List.mem_cons]
        refine ⟨?_, h⟩
        rintro z (hz | hz)
        · rw [hz]; exact hR
        · exact htrans _ _ _ hR (h.1 z hz)
      · rename_i hb
        have hR : R p o.price := htri _ _ (fun hr => hb ((hbf _ _).mpr hr)) hne
        simp only [Ladder.keys, List.map_cons, List.pairwise_cons]
        refine ⟨?_, ih h.2⟩
        intro z hz
        rcases Ladder.push_keys bf t o z hz with hz | hz
        · rw [hz]; exact hR
        · exact h.1 z hz

theorem LadderOk.push (R : Int → Int → Prop) (bf : Int → Int → Bool)
    (hbf : ∀ x y, bf x y = true ↔ R x y) (htri : ∀ x y, ¬ R x y → y ≠ x → R y x)
    (htrans : ∀ x y z, R x y → R y z → R x z) {side : Side} {l : Ladder}
    (h : LadderOk R side l) (o : Order) (ho : o.side = side) :
    LadderOk R side (Ladder.push bf l o) where
  sorted := Ladder.push_sorted R bf hbf htri htrans l o h.sorted
  nonempty := by
    intro x hx
    rcases Ladder.push_cases bf l o x hx with h1 | h1 | ⟨lv, _, h2⟩
    · exact h.nonempty x h1
    · rw [h1]; simp
    · rw [h2]; simp
  tagged := by
    intro x hx a ha
    rcases Ladder.push_cases bf l o x hx with h1 | h1 | ⟨lv, h2, h3⟩
    · exact h.tagged x h1 a ha
    · rw [h1] at ha ⊢
      simp only [List.mem_singleton] at ha
      rw [ha]; exact ⟨rfl, ho⟩
    · rw [h3] at ha ⊢
      rcases List.mem_append.mp ha with ha | ha
      · exact h.tagged _ h2 a ha
      · simp only [List.mem_singleton] at ha
        rw [ha]; exact ⟨rfl, ho⟩

theorem LadderOk.pushBid {l : Ladder} (h : LadderOk (fun x y => x > y) Side.Buy l) (o : Order)
    (ho : o.side = Side.Buy) :
    LadderOk (fun x y => x > y) Side.Buy (Ladder.push (fun x y => decide (x > y)) l o) :=
  LadderOk.push _ _ (fun x y => by simp) (fun x y h1 h2 => lt_of_le_of_ne (not_lt.mp h1) h2.symm)
    (fun x y z h1 h2 => lt_trans h2 h1) h o ho

theorem LadderOk.pushAsk {l : Ladder} (h : LadderOk (fun x y => x < y) Side.Sell l) (o : Order)
    (ho : o.side = Side.Sell) :
    LadderOk (fun x y => x < y) Side.Sell (Ladder.push (fun x y => decide (x < y)) l o) :=
  LadderOk.push _ _ (fun x y => by simp) (fun x y h1 h2 => lt_of_le_of_ne (not_lt.mp h1) h2)
    (fun x y z h1 h2 => lt_trans h1 h2) h o ho

theorem Ladder.push_head (bf : Int → Int → Bool) (l : Ladder) (o : Order)
    (h : ∀ x ∈ l.keys, bf o.price x = true ∧ x ≠ o.price) :
    Ladder.push bf l o = (o.price, [o]) :: l := by
  cases l with
  | nil => rfl
  | cons y t =>
    obtain ⟨p, lv⟩ := y
    have := h p (by simp [Ladder.keys])
    simp [Ladder.push, this.1, this.2]

theorem Index.mem_eraseAll (idx : Index) (ids : List OrderId) (e : OrderEntry) :
    e ∈ Index.eraseAll idx ids ↔ e ∈ idx ∧ e.orderId ∉ ids := by
  simp [Index.eraseAll]

theorem Order.ids_of_entries {l k : List Order} (h : l.map Order.entry = k.map Order.entry) :
    l.map Order.orderId = k.map Order.orderId := by
  have := congrArg (List.map OrderEntry.orderId) h
  simpa [List.map_map, Function.comp_def, Order.entry] using this

/-- The index after a sweep lists the orders left: those of the own side, what is left of
the incoming order, and the orders of the opposite side that were not filled. -/
theorem index_after_sweep (own gone kept left own1 : List Order) (orders : Index) (o : Order)
    (res : Option Order)
    (hnd : (own.map Order.orderId ++ (gone.map Order.orderId ++ kept.map Order.orderId)).Nodup)
    (hidx : ∀ e, e ∈ orders ↔
      e ∈ own.map Order.entry ∨ e ∈ gone.map Order.entry ∨ e ∈ kept.map Order.entry)
    (hfresh : o.orderId ∉ orders.map OrderEntry.orderId)
    (hleft : left.map Order.entry = kept.map Order.entry)
    (hres : ∀ o1, res = some o1 → o1.entry = o.entry)
    (hown : ∀ a, a ∈ own1 ↔ a ∈ own ∨ res = some a) (e : OrderEntry) :
    e ∈ Index.eraseAll (orders ++ [o.entry])
        (gone.map Order.orderId ++ if res.isNone then [o.orderId] else []) ↔
      e ∈ own1.map Order.entry ∨ e ∈ left.map Order.entry := by
  have hd1 := (List.nodup_append.mp hnd).2.2
  have hd2 := (List.nodup_append.mp (List.nodup_append.mp hnd).2.1).2.2
  have hin : ∀ a : Order, a.entry ∈ orders → a.orderId ≠ o.orderId := by
    intro a ha hc
    exact hfresh (List.mem_map.mpr ⟨a.entry, ha, hc⟩)
  rw [Index.mem_eraseAll, hleft]
  simp only [List.mem_append, List.mem_singleton, not_or]
  constructor
  · rintro ⟨h1 | h1, h2, h3⟩
    · rcases (hidx e).mp h1 with h4 | h4 | h4
      · obtain ⟨a, ha, rfl⟩ := List.mem_map.mp h4
        exact Or.inl (List.mem_map.mpr ⟨a, (hown a).mpr (Or.inl ha), rfl⟩)
      · obtain ⟨a, ha, rfl⟩ := List.mem_map.mp h4
        exact absurd (List.mem_map.mpr ⟨a, ha, rfl⟩) h2
      · exact Or.inr h4
    · cases res with
      | none => simp [h1, Order.entry] at h3
      | some o1 =>
        left
        exact List.mem_map.mpr ⟨o1, (hown o1).mpr (Or.inr rfl), by rw [h1]; exact hres o1 rfl⟩
  · rintro (h1 | h1)
    · obtain ⟨a, ha, rfl⟩ := List.mem_map.mp h1
      rcases (hown a).mp ha with h2 | h2
      · have hmem : a.entry ∈ orders := (hidx _).mpr (Or.inl (List.mem_map.mpr ⟨a, h2, rfl⟩))
        refine ⟨Or.inl hmem, ?_, ?_⟩
        · intro hc
          exact hd1 (List.mem_map.mpr ⟨a, h2, rfl⟩) (List.mem_append_left _ hc)
        · split
          · simp only [List.mem_singleton]; exact hin a hmem
          · simp
      · subst h2
        refine ⟨Or.inr (hres a rfl), ?_, by simp⟩
        intro hc
        obtain ⟨g, hg, hge⟩ := List.mem_map.mp hc
        have hmem : g.entry ∈ orders := (hidx _).mpr (Or.inr (Or.inl (List.mem_map.mpr ⟨g, hg, rfl⟩)))
        apply hin g hmem
        rw [hge]
        exact congrArg OrderEntry.orderId (hres a rfl)
    · obtain ⟨a, ha, rfl⟩ := List.mem_map.mp h1
      have hmem : a.entry ∈ orders := (hidx _).mpr (Or.inr (Or.inr (List.mem_map.mpr ⟨a, ha, rfl⟩)))
      refine ⟨Or.inl hmem, ?_, ?_⟩
      · intro hc
        exact hd2 hc (List.mem_map.mpr ⟨a, ha, rfl⟩)
      · split
        · simp only [List.mem_singleton]; exact hin a hmem
        · simp

/-- No id occurs twice among the orders left by a sweep. -/
theorem ids_after_sweep (own gone kept left own1 : List Order) (o : Order) (res : Option Order)
    (hnd : (own.map Order.orderId ++ (gone.map Order.orderId ++ kept.map Order.orderId)).Nodup)
    (hfresh : o.orderId ∉ own.map Order.orderId ++ (gone.map Order.orderId ++ kept.map Order.orderId))
    (hleft : left.map Order.entry = kept.map Order.entry)
    (hres : ∀ o1, res = some o1 → o1.entry = o.entry)
    (hown : own1.Perm (res.toList ++ own)) :
    (own1.map Order.orderId ++ left.map Order.orderId).Nodup := by
  rw [Order.ids_of_entries hleft]
  have hp : (own1.map Order.orderId ++ kept.map Order.orderId).Perm
      (res.toList.map Order.orderId ++ (own.map Order.orderId ++ kept.map Order.orderId)) := by
    have := (hown.map Order.orderId).append_right (kept.map Order.orderId)
    simpa [List.map_append, List.append_assoc] using this
  rw [hp.nodup_iff]
  have hsub : (own.map Order.orderId ++ kept.map Order.orderId).Sublist
      (own.map Order.orderId ++ (gone.map Order.orderId ++ kept.map Order.orderId)) :=
    (List.Sublist.refl _).append (List.sublist_append_right _ _)
  cases res with
  | none => simpa using hnd.sublist hsub
  | some o1 =>
    have hid : o1.orderId = o.orderId := congrArg OrderEntry.orderId (hres o1 rfl)
    simp only [Option.toList, List.map_cons, List.map_nil, List.singleton_append, List.nodup_cons]
    refine ⟨?_, hnd.sublist hsub⟩
    rw [hid]
    intro hc
    exact hfresh (hsub.subset hc)

theorem Ladder.all_push_residual (bf : Int → Int → Bool) (l : Ladder) (res : Option Order) :
    (Ladder.all (match res with
      | none => l
      | some o1 => Ladder.push bf l o1)).Perm (res.toList ++ Ladder.all l) := by
  cases res with
  | none => exact List.Perm.refl _
  | some o1 => exact Ladder.push_all bf l o1

theorem Option.mem_toList_iff (res : Option Order) (a : Order) : a ∈ res.toList ↔ res = some a := by
  cases res <;> simp [Option.toList, eq_comm]

theorem WellFormed.fresh {b : OrderBook} (h : WellFormed b) {id : OrderId}
    (hf : id ∉ b.orders.map OrderEntry.orderId) : id ∉ b.resting.map Order.orderId :=
  fun hin => hf ((h.index_iff id).mpr hin)

theorem Index.nodup_eraseAll_insert (idx : Index) (e : OrderEntry) (ids : List OrderId)
    (h : (idx.map OrderEntry.orderId).Nodup) (hf : e.orderId ∉ idx.map OrderEntry.orderId) :
    ((Index.eraseAll (idx ++ [e]) ids).map OrderEntry.orderId).Nodup := by
  have h1 : ((idx ++ [e]).map OrderEntry.orderId).Nodup := by
    rw [List.map_append, List.nodup_append]
    refine ⟨h, by simp, ?_⟩
    intro x hx hx2
    simp only [List.map_cons, List.map_nil, List.mem_singleton] at hx2
    exact hf (hx2 ▸ hx)
  exact h1.sublist ((List.filter_sublist _).map _)

theorem WellFormed.matched_buy {b : OrderBook} (h : WellFormed b) (o : Order)
    (hs : o.side = Side.Buy) (hf : o.orderId ∉ b.orders.map OrderEntry.orderId) :
    WellFormed (b.matched o).1 := by
  obtain ⟨gone, kept, h1, h2, h3⟩ := sweepLadder_split b.asks o
  have hres := sweepLadder_residual b.asks o
  have hfr := h.fresh hf
  have hnd := h.ids
  simp only [OrderBook.resting, h1, List.map_append] at hfr hnd
  have hperm := Ladder.all_push_residual (fun x y => decide (x > y)) b.bids
    (sweepLadder o b.asks).residual
  simp only [OrderBook.matched, hs, if_true]
  refine
    { bids := ?_, asks := h.asks.sweep o, uncrossed := ?_, ids := ?_, index_ids := ?_, index := ?_ }
  · cases hr : (sweepLadder o b.asks).residual with
    | none => exact h.bids
    | some o1 =>
      exact h.bids.pushBid o1 ((congrArg OrderEntry.side (hres o1 hr)).trans hs)
  · intro x hx y hy
    have hy2 : y ∈ b.asks.keys := (sweepLadder_keys b.asks o).subset hy
    cases hr : (sweepLadder o b.asks).residual with
    | none =>
      simp only [hr] at hx
      exact h.uncrossed x hx y hy2
    | some o1 =>
      simp only [hr] at hx
      rcases Ladder.push_keys _ _ _ _ hx with hx | hx
      · have hst := sweepLadder_stop (fun x y => x < y) b.asks o o1 (fun p y hb hc => by
          simp only [Order.crosses, hs, if_true, decide_eq_false_iff_not, not_le] at hc ⊢
          exact lt_trans hc hb) h.asks.sorted hr y hy
        have hp : o1.price = o.price := congrArg OrderEntry.price (hres o1 hr)
        simp only [Order.crosses, hs, if_true, decide_eq_false_iff_not, not_le] at hst
        rw [hx, hp]; exact hst
      · exact h.uncrossed x hx y hy2
  · simp only [OrderBook.resting, List.map_append]
    exact ids_after_sweep (Ladder.all b.bids) gone kept _ _ o _ hnd hfr h3 hres hperm
  · exact Index.nodup_eraseAll_insert _ _ _ h.index_ids hf
  · intro e
    simp only [OrderBook.resting, List.map_append, List.mem_append]
    rw [h2]
    refine index_after_sweep (Ladder.all b.bids) gone kept _ _ b.orders o _ hnd ?_ hf h3 hres ?_ e
    · intro e
      rw [h.index e]
      simp only [OrderBook.resting, h1, List.map_append, List.mem_append]
    · intro a
      have hm := hperm.mem_iff (a := a)
      rw [List.mem_append, Option.mem_toList_iff, or_comm] at hm
      exact hm

theorem WellFormed.matched_sell {b : OrderBook} (h : WellFormed b) (o : Order)
    (hs : o.side = Side.Sell) (hf : o.orderId ∉ b.orders.map OrderEntry.orderId) :
    WellFormed (b.matched o).1 := by
  obtain ⟨gone, kept, h1, h2, h3⟩ := sweepLadder_split b.bids o
  have hres := sweepLadder_residual b.bids o
  have hfr := h.fresh hf
  have hnd := h.ids
  simp only [OrderBook.resting, h1, List.map_append] at hfr hnd
  have hfr2 : o.orderId ∉ (Ladder.all b.asks).map Order.orderId ++
      (gone.map Order.orderId ++ kept.map Order.orderId) := by
    simp only [List.mem_append, not_or] at hfr ⊢
    tauto
  have hnd2 : ((Ladder.all b.asks).map Order.orderId ++
      (gone.map Order.orderId ++ kept.map Order.orderId)).Nodup :=
    (List.perm_append_comm.nodup_iff).mp hnd
  have hperm := Ladder.all_push_residual (fun x y => decide (x < y)) b.asks
    (sweepLadder o b.bids).residual
  have hsne : o.side ≠ Side.Buy := by rw [hs]; decide
  simp only [OrderBook.matched, hsne, if_false]
  refine
    { bids := h.bids.sweep o, asks := ?_, uncrossed := ?_, ids := ?_, index_ids := ?_, index := ?_ }
  · cases hr : (sweepLadder o b.bids).residual with
    | none => exact h.asks
    | some o1 =>
      exact h.asks.pushAsk o1 ((congrArg OrderEntry.side (hres o1 hr)).trans hs)
  · intro x hx y hy
    have hx2 : x ∈ b.bids.keys := (sweepLadder_keys b.bids o).subset hx
    cases hr : (sweepLadder o b.bids).residual with
    | none =>
      simp only [hr] at hy
      exact h.uncrossed x hx2 y hy
    | some o1 =>
      simp only [hr] at hy
      rcases Ladder.push_keys _ _ _ _ hy with hy | hy
      · have hst := sweepLadder_stop (fun x y => x > y) b.bids o o1 (fun p y hb hc => by
          simp only [Order.crosses, hsne, if_false, decide_eq_false_iff_not, not_le] at hc ⊢
          exact lt_trans hb hc) h.bids.sorted hr x hx
        have hp : o1.price = o.price := congrArg OrderEntry.price (hres o1 hr)
        simp only [Order.crosses, hsne, if_false, decide_eq_false_iff_not, not_le] at hst
        rw [hy, hp]; exact hst
      · exact h.uncrossed x hx2 y hy
  · simp only [OrderBook.resting, List.map_append]
    exact (List.perm_append_comm.nodup_iff).mp
      (ids_after_sweep (Ladder.all b.asks) gone kept _ _ o _ hnd2 hfr2 h3 hres hperm)
  · exact Index.nodup_eraseAll_insert _ _ _ h.index_ids hf
  · intro e
    simp only [OrderBook.resting, List.map_append, List.mem_append]
    rw [h2, or_comm]
    refine index_after_sweep (Ladder.all b.asks) gone kept _ _ b.orders o _ hnd2 ?_ hf h3 hres ?_ e
    · intro e
      rw [h.index e]
      simp only [OrderBook.resting, h1, List.map_append, List.mem_append]
      tauto
    · intro a
      have hm := hperm.mem_iff (a := a)
      rw [List.mem_append, Option.mem_toList_iff, or_comm] at hm
      exact hm

theorem sweepLadder_nocross (L : Ladder) (o : Order) (h : ∀ y ∈ L.keys, o.crosses y = false) :
    sweepLadder o L = { residual := some o, rest := L, trades := [], filled := [] } := by
  cases L with
  | nil => rfl
  | cons x R =>
    obtain ⟨p, l⟩ := x
    have := h p (by simp [Ladder.keys])
    simp [sweepLadder, this]

theorem Index.insert_fresh (idx : Index) (e : OrderEntry)
    (h : e.orderId ∉ idx.map OrderEntry.orderId) : idx.insert e = idx ++ [e] := by
  have : idx.contains e.orderId = false := by
    rw [← Bool.not_eq_true, Index.contains_iff]; exact h
  simp [Index.insert, this]

theorem canMatch_buy (b : OrderBook) (o : Order) (hs : o.side = Side.Buy) :
    canMatch b o.side o.price = o.marketable b.asks := by
  unfold canMatch Order.marketable
  cases b.asks with
  | nil => simp [hs]
  | cons x R => obtain ⟨p, l⟩ := x; simp [hs, Order.crosses]

theorem canMatch_sell (b : OrderBook) (o : Order) (hs : o.side = Side.Sell) :
    canMatch b o.side o.price = o.marketable b.bids := by
  unfold canMatch Order.marketable
  cases b.bids with
  | nil => simp [hs]
  | cons x R => obtain ⟨p, l⟩ := x; simp [hs, Order.crosses]

theorem Order.not_marketable (o : Order) (before : Int → Int → Prop) (L : Ladder)
    (hmono : ∀ p y, before p y → o.crosses p = false → o.crosses y = false)
    (hs : L.keys.Pairwise before) (h : o.marketable L = false) :
    ∀ y ∈ L.keys, o.crosses y = false := by
  cases L with
  | nil => intro y hy; simp [Ladder.keys] at hy
  | cons x R =>
    obtain ⟨p, l⟩ := x
    simp only [Order.marketable] at h
    simp only [Ladder.keys, List.map_cons, List.pairwise_cons] at hs
    intro y hy
    simp only [Ladder.keys, List.map_cons, List.mem_cons] at hy
    rcases hy with hy | hy
    · rw [hy]; exact h
    · exact hmono p y (hs.1 y hy) h

theorem Order.crosses_mono_buy (o : Order) (hs : o.side = Side.Buy) (p y : Int)
    (hb : p < y) (hc : o.crosses p = false) : o.crosses y = false := by
  simp only [Order.crosses, hs, if_true, decide_eq_false_iff_not, not_le] at hc ⊢
  exact lt_trans hc hb

theorem Order.crosses_mono_sell (o : Order) (hs : o.side = Side.Sell) (p y : Int)
    (hb : p > y) (hc : o.crosses p = false) : o.crosses y = false := by
  have hsne : o.side ≠ Side.Buy := by rw [hs]; decide
  simp only [Order.crosses, hsne, if_false, decide_eq_false_iff_not, not_le] at hc ⊢
  exact lt_trans hb hc

theorem matchLoop_insert_buy {b : OrderBook} (h : WellFormed b) (o : Order)
    (hs : o.side = Side.Buy) (hf : o.orderId ∉ b.orders.map OrderEntry.orderId) (fuel : Nat)
    (hfuel : b.asks.length ≤ fuel) :
    matchLoop fuel (insertOrder b o) [] = ((b.matched o).1, .ok (b.matched o).2) := by
  have hins : insertOrder b o =
      { bids := b.bids.push (fun x y => decide (x > y)) o,
        asks := b.asks, orders := Index.eraseAll (b.orders ++ [o.entry]) [] } := by
    simp only [insertOrder, hs, if_true, Index.eraseAll_nil]
    rw [Index.insert_fresh _ _ hf]
  rw [hins]
  by_cases hm : o.marketable b.asks = true
  · obtain ⟨p, l, R, hasks⟩ : ∃ p l R, b.asks = (p, l) :: R := by
      cases hb : b.asks with
      | nil => rw [hb] at hm; simp [Order.marketable] at hm
      | cons x R => exact ⟨x.1, x.2, R, rfl⟩
    have hc : o.crosses p = true := by rw [hasks] at hm; exact hm
    have hle : p ≤ o.price := by simpa [Order.crosses, hs] using hc
    have hhead : ∀ (o1 : Order), o1.price = o.price →
        b.bids.push (fun x y => decide (x > y)) o1 = (o.price, [o1]) :: b.bids := by
      intro o1 hp
      rw [← hp]
      apply Ladder.push_head
      intro x hx
      have hxp : x < p := h.uncrossed x hx p (by simp [hasks, Ladder.keys])
      have hlt : x < o1.price := by rw [hp]; exact lt_of_lt_of_le hxp hle
      exact ⟨by simpa using hlt, ne_of_lt hlt⟩
    rw [hhead o rfl, matchLoop_buy b.asks o b.bids _ _ _ fuel hs hfuel h.uncrossed]
    simp only [OrderBook.matched, hs, if_true, List.nil_append]
    cases hr : (sweepLadder o b.asks).residual with
    | none => rfl
    | some o1 =>
      simp only []
      rw [hhead o1 (congrArg OrderEntry.price (sweepLadder_residual _ _ _ hr))]
  · have hm2 : o.marketable b.asks = false := by simpa using hm
    have hnc := Order.not_marketable o (fun x y => x < y) b.asks (Order.crosses_mono_buy o hs)
      h.asks.sorted hm2
    rw [matchLoop_stop]
    · simp only [OrderBook.matched, hs, if_true, sweepLadder_nocross _ _ hnc, List.nil_append,
        Option.isNone, Bool.false_eq_true, if_false]
    · intro x hx y hy
      rcases Ladder.push_keys _ _ _ _ hx with hx | hx
      · have := hnc y hy
        simp only [Order.crosses, hs, if_true, decide_eq_false_iff_not, not_le] at this
        rw [hx]; exact this
      · exact h.uncrossed x hx y hy

theorem matchLoop_insert_sell {b : OrderBook} (h : WellFormed b) (o : Order)
    (hs : o.side = Side.Sell) (hf : o.orderId ∉ b.orders.map OrderEntry.orderId) (fuel : Nat)
    (hfuel : b.bids.length ≤ fuel) :
    matchLoop fuel (insertOrder b o) [] = ((b.matched o).1, .ok (b.matched o).2) := by
  have hsne : o.side ≠ Side.Buy := by rw [hs]; decide
  have hins : insertOrder b o =
      { bids := b.bids,
        asks := b.asks.push (fun x y => decide (x < y)) o,
        orders := Index.eraseAll (b.orders ++ [o.entry]) [] } := by
    simp only [insertOrder, hsne, if_false, Index.eraseAll_nil]
    rw [Index.insert_fresh _ _ hf]
  rw [hins]
  by_cases hm : o.marketable b.bids = true
  · obtain ⟨p, l, R, hbids⟩ : ∃ p l R, b.bids = (p, l) :: R := by
      cases hb : b.bids with
      | nil => rw [hb] at hm; simp [Order.marketable] at hm
      | cons x R => exact ⟨x.1, x.2, R, rfl⟩
    have hc : o.crosses p = true := by rw [hbids] at hm; exact hm
    have hle : o.price ≤ p := by simpa [Order.crosses, hsne] using hc
    have hhead : ∀ (o1 : Order), o1.price = o.price →
        b.asks.push (fun x y => decide (x < y)) o1 = (o.price, [o1]) :: b.asks := by
      intro o1 hp
      rw [← hp]
      apply Ladder.push_head
      intro x hx
      have hxp : p < x := h.uncrossed p (by simp [hbids, Ladder.keys]) x hx
      have hlt : o1.price < x := by rw [hp]; exact lt_of_le_of_lt hle hxp
      exact ⟨by simpa using hlt, ne_of_gt hlt⟩
    rw [hhead o rfl, matchLoop_sell b.bids o b.asks _ _ _ fuel hs hfuel h.uncrossed]
    simp only [OrderBook.matched, hsne, if_false, List.nil_append]
    cases hr : (sweepLadder o b.bids).residual with
    | none => rfl
    | some o1 =>
      simp only []
      rw [hhead o1 (congrArg OrderEntry.price (sweepLadder_residual _ _ _ hr))]
  · have hm2 : o.marketable b.bids = false := by simpa using hm
    have hnc := Order.not_marketable o (fun x y => x > y) b.bids (Order.crosses_mono_sell o hs)
      h.bids.sorted hm2
    rw [matchLoop_stop]
    · simp only [OrderBook.matched, hsne, if_false, sweepLadder_nocross _ _ hnc, List.nil_append,
        Option.isNone, Bool.false_eq_true]
    · intro x hx y hy
      rcases Ladder.push_keys _ _ _ _ hy with hy | hy
      · have := hnc x hx
        simp only [Order.crosses, hsne, if_false, decide_eq_false_iff_not, not_le] at this
        rw [hy]; exact this
      · exact h.uncrossed x hx y hy

theorem sweepFillAndKill_skip (b : OrderBook) (ladder : Ladder)
    (h : ∀ a ∈ Ladder.all ladder, a.orderType ≠ OrderType.FillAndKill) :
    sweepFillAndKill b ladder = (b, .ok ()) := by
  unfold sweepFillAndKill
  split
  · rename_i p order rest R
    have := h order (by simp [Ladder.all])
    simp [this]
  · rfl

theorem OrderBook.without_of_fresh {b : OrderBook} (h : WellFormed b) (id : OrderId)
    (hn : id ∉ b.orders.map OrderEntry.orderId) : b.without id = b := by
  have h2 : id ∉ b.resting.map Order.orderId := h.fresh hn
  simp only [OrderBook.resting, List.map_append, List.mem_append, not_or] at h2
  have h3 : b.orders.filter (fun e => e.orderId != id) = b.orders := Index.erase_of_not_mem _ _ hn
  simp only [OrderBook.without, Ladder.without_of_not_mem _ _ h.bids.nonempty h2.1,
    Ladder.without_of_not_mem _ _ h.asks.nonempty h2.2, h3]

theorem OrderBook.matched_orders (b : OrderBook) (o : Order) :
    (b.matched o).1.orders = Index.eraseAll (b.orders ++ [o.entry])
      ((sweepLadder o (if o.side = Side.Buy then b.asks else b.bids)).filled ++
        if (sweepLadder o (if o.side = Side.Buy then b.asks else b.bids)).residual.isNone
        then [o.orderId] else []) := by
  unfold OrderBook.matched
  split <;> rfl

theorem OrderBook.matched_trades (b : OrderBook) (o : Order) :
    (b.matched o).2 = (sweepLadder o (if o.side = Side.Buy then b.asks else b.bids)).trades := by
  unfold OrderBook.matched
  split <;> rfl

theorem WellFormed.matched_wf {b : OrderBook} (h : WellFormed b) (o : Order)
    (hf : o.orderId ∉ b.orders.map OrderEntry.orderId) : WellFormed (b.matched o).1 := by
  cases hs : o.side with
  | Buy => exact h.matched_buy o hs hf
  | Sell => exact h.matched_sell o hs hf

theorem Inv.entry_gtc {b : OrderBook} (h : Inv b) (e : OrderEntry) (he : e ∈ b.orders) :
    e.orderType = OrderType.GoodTillCancel := by
  obtain ⟨a, ha, rfl⟩ := List.mem_map.mp ((h.index e).mp he)
  exact h.gtc a ha

/-- After the matching loop a resting order is an order that was resting before, up to its
remaining quantity, or what is left of the incoming order. -/
theorem OrderBook.matched_resting {b : OrderBook} (h : WellFormed b) (o : Order)
    (hf : o.orderId ∉ b.orders.map OrderEntry.orderId) (a : Order)
    (ha : a ∈ (b.matched o).1.resting) :
    a.entry ∈ b.orders ∨ (a.entry = o.entry ∧
      (sweepLadder o (if o.side = Side.Buy then b.asks else b.bids)).residual.isNone = false) := by
  have hw := h.matched_wf o hf
  have h1 : a.entry ∈ (b.matched o).1.orders := (hw.index _).mpr (List.mem_map.mpr ⟨a, ha, rfl⟩)
  rw [OrderBook.matched_orders, Index.mem_eraseAll] at h1
  obtain ⟨h2, h3⟩ := h1
  rcases List.mem_append.mp h2 with h2 | h2
  · exact Or.inl h2
  · right
    simp only [List.mem_singleton] at h2
    refine ⟨h2, ?_⟩
    by_contra hc
    simp only [Bool.not_eq_false] at hc
    apply h3
    rw [hc, if_pos rfl]
    exact List.mem_append_right _ (List.mem_singleton.mpr (congrArg OrderEntry.orderId h2))

/-- After the matching loop and the deletion of what is left of the incoming order, the
invariant holds again. -/
theorem Inv.matched_without {b : OrderBook} (h : Inv b) (o : Order)
    (hf : o.orderId ∉ b.orders.map OrderEntry.orderId) :
    Inv ((b.matched o).1.without o.orderId) where
  toWellFormed := (h.toWellFormed.matched_wf o hf).without_wf o.orderId
  gtc := by
    intro a ha
    rw [OrderBook.resting_without] at ha
    obtain ⟨ha1, ha2⟩ := List.mem_filter.mp ha
    rcases OrderBook.matched_resting h.toWellFormed o hf a ha1 with h1 | ⟨h1, _⟩
    · exact h.entry_gtc _ h1
    · have : a.orderId = o.orderId := congrArg OrderEntry.orderId h1
      simp [this] at ha2

/-- After the matching loop of an order that is not FillAndKill the invariant holds again. -/
theorem Inv.matched_inv {b : OrderBook} (h : Inv b) (o : Order)
    (hf : o.orderId ∉ b.orders.map OrderEntry.orderId)
    (ht : o.orderType = OrderType.GoodTillCancel) : Inv (b.matched o).1 where
  toWellFormed := h.toWellFormed.matched_wf o hf
  gtc := by
    intro a ha
    rcases OrderBook.matched_resting h.toWellFormed o hf a ha with h1 | ⟨h1, _⟩
    · exact h.entry_gtc _ h1
    · exact (congrArg OrderEntry.orderType h1).trans ht

theorem Ladder.push_marketable_buy {b : OrderBook} (h : WellFormed b) (o o1 : Order)
    (hs : o.side = Side.Buy) (hm : o.marketable b.asks = true) (hp : o1.price = o.price) :
    b.bids.push (fun x y => decide (x > y)) o1 = (o.price, [o1]) :: b.bids := by
  obtain ⟨p, l, R, hasks⟩ : ∃ p l R, b.asks = (p, l) :: R := by
    cases hb : b.asks with
    | nil => rw [hb] at hm; simp [Order.marketable] at hm
    | cons x R => exact ⟨x.1, x.2, R, rfl⟩
  have hc : o.crosses p = true := by rw [hasks] at hm; exact hm
  have hle : p ≤ o.price := by simpa [Order.crosses, hs] using hc
  rw [← hp]
  apply Ladder.push_head
  intro x hx
  have hxp : x < p := h.uncrossed x hx p (by simp [hasks, Ladder.keys])
  have hlt : x < o1.price := by rw [hp]; exact lt_of_lt_of_le hxp hle
  exact ⟨by simpa using hlt, ne_of_lt hlt⟩

theorem Ladder.push_marketable_sell {b : OrderBook} (h : WellFormed b) (o o1 : Order)
    (hs : o.side = Side.Sell) (hm : o.marketable b.bids = true) (hp : o1.price = o.price) :
    b.asks.push (fun x y => decide (x < y)) o1 = (o.price, [o1]) :: b.asks := by
  have hsne : o.side ≠ Side.Buy := by rw [hs]; decide
  obtain ⟨p, l, R, hbids⟩ : ∃ p l R, b.bids = (p, l) :: R := by
    cases hb : b.bids with
    | nil => rw [hb] at hm; simp [Order.marketable] at hm
    | cons x R => exact ⟨x.1, x.2, R, rfl⟩
  have hc : o.crosses p = true := by rw [hbids] at hm; exact hm
  have hle : o.price ≤ p := by simpa [Order.crosses, hsne] using hc
  rw [← hp]
  apply Ladder.push_head
  intro x hx
  have hxp : p < x := h.uncrossed p (by simp [hbids, Ladder.keys]) x hx
  have hlt : o1.price < x := by rw [hp]; exact lt_of_le_of_lt hle hxp
  exact ⟨by simpa using hlt, ne_of_gt hlt⟩

theorem Inv.no_fak {b : OrderBook} (h : Inv b) (a : Order) (ha : a ∈ b.resting) :
    a.orderType ≠ OrderType.FillAndKill := by
  rw [h.gtc a ha]; decide

theorem Inv.entry_no_fak {b : OrderBook} (h : Inv b) (a : Order) (ha : a.entry ∈ b.orders) :
    a.orderType ≠ OrderType.FillAndKill := by
  have h1 : a.orderType = OrderType.GoodTillCancel := h.entry_gtc _ ha
  rw [h1]; decide

theorem sweepFillAndKill_front (b : OrderBook) (p : Int) (a : Order) (l : Level) (R : Ladder) :
    sweepFillAndKill b ((p, a :: l) :: R) =
      if a.orderType = OrderType.FillAndKill then CancelOrder b a.orderId else (b, .ok ()) := rfl

/-- The two blocks that close `MatchOrders`, on the book left by the matching loop. -/
theorem sweeps_after_match {b : OrderBook} (h : Inv b) (o : Order)
    (hf : o.orderId ∉ b.orders.map OrderEntry.orderId)
    (hnm : o.orderType ≠ OrderType.Market)
    (hm : o.orderType = OrderType.FillAndKill →
      o.marketable (if o.side = Side.Buy then b.asks else b.bids) = true) (ts : List Trade) :
    (match sweepFillAndKill (b.matched o).1 (b.matched o).1.bids with
      | (b2, .error e) => (b2, Except.error e)
      | (b2, .ok _) =>
        match sweepFillAndKill b2 b2.asks with
        | (b3, .error e) => (b3, Except.error e)
        | (b3, .ok _) => (b3, Except.ok ts)) = ((b.admitted o).1, .ok ts) := by
  have hw := h.toWellFormed.matched_wf o hf
  by_cases ht : o.orderType = OrderType.FillAndKill
  · have hinv := h.matched_without o hf
    have hm2 := hm ht
    simp only [OrderBook.admitted, ht, if_true]
    cases hr : (sweepLadder o (if o.side = Side.Buy then b.asks else b.bids)).residual with
    | none =>
      have hno : ∀ a ∈ (b.matched o).1.resting, a.orderType ≠ OrderType.FillAndKill := by
        intro a ha
        rcases OrderBook.matched_resting h.toWellFormed o hf a ha with h1 | ⟨_, h1⟩
        · exact h.entry_no_fak a h1
        · rw [hr] at h1; simp at h1
      have hid : o.orderId ∉ (b.matched o).1.orders.map OrderEntry.orderId := by
        rw [OrderBook.matched_orders, hr]
        intro hc
        obtain ⟨e, he, hid⟩ := List.mem_map.mp hc
        rw [Index.mem_eraseAll] at he
        apply he.2
        simp [hid]
      rw [OrderBook.without_of_fresh hw _ hid,
        sweepFillAndKill_skip _ _ (fun a ha => hno a (List.mem_append_left _ ha))]
      simp only []
      rw [sweepFillAndKill_skip _ _ (fun a ha => hno a (List.mem_append_right _ ha))]
    | some o1 =>
      have he := sweepLadder_residual _ _ _ hr
      have hid1 : o1.orderId = o.orderId := congrArg OrderEntry.orderId he
      have ht1 : o1.orderType = OrderType.FillAndKill := (congrArg OrderEntry.orderType he).trans ht
      have hp1 : o1.price = o.price := congrArg OrderEntry.price he
      cases hs : o.side with
      | Buy =>
        simp only [hs, if_true] at hr hm2
        have hb : (b.matched o).1.bids = (o.price, [o1]) :: b.bids := by
          simp only [OrderBook.matched, hs, if_true, hr]
          exact Ladder.push_marketable_buy h.toWellFormed o o1 hs hm2 hp1
        rw [hb, sweepFillAndKill_front, if_pos ht1, hid1, CancelOrder_eq hw]
        simp only []
        rw [sweepFillAndKill_skip _ _ (fun a ha => hinv.no_fak a (List.mem_append_right _ ha))]
      | Sell =>
        have hsne : ¬ (Side.Sell = Side.Buy) := by decide
        simp only [hs, hsne, if_false] at hr hm2
        have ha : (b.matched o).1.asks = (o.price, [o1]) :: b.asks := by
          simp only [OrderBook.matched, hs, hsne, if_false, hr]
          exact Ladder.push_marketable_sell h.toWellFormed o o1 hs hm2 hp1
        have hbno : ∀ a ∈ Ladder.all (b.matched o).1.bids, a.orderType ≠ OrderType.FillAndKill := by
          intro a ha2
          have hmem : a ∈ (b.matched o).1.resting := List.mem_append_left _ ha2
          rcases OrderBook.matched_resting h.toWellFormed o hf a hmem with h1 | ⟨h1, _⟩
          · exact h.entry_no_fak a h1
          · exfalso
            have hida : a.orderId = o1.orderId := (congrArg OrderEntry.orderId h1).trans hid1.symm
            have hnd := hw.ids
            simp only [OrderBook.resting, ha, Ladder.all, List.map_append, List.map_cons,
              List.map_nil, List.singleton_append] at hnd
            have hdis := (List.nodup_append.mp hnd).2.2
            exact hdis (List.mem_map.mpr ⟨a, ha2, hida⟩) (List.mem_cons_self _ _)
        rw [sweepFillAndKill_skip _ _ hbno]
        simp only []
        rw [ha, sweepFillAndKill_front, if_pos ht1, hid1, CancelOrder_eq hw]
  · have htg : o.orderType = OrderType.GoodTillCancel := by
      cases hty : o.orderType with
      | Market => exact absurd hty hnm
      | GoodTillCancel => rfl
      | FillAndKill => exact absurd hty ht
    have hinv := h.matched_inv o hf htg
    simp only [OrderBook.admitted, ht, if_false]
    rw [sweepFillAndKill_skip _ _ (fun a ha => hinv.no_fak a (List.mem_append_left _ ha))]
    simp only []
    rw [sweepFillAndKill_skip _ _ (fun a ha => hinv.no_fak a (List.mem_append_right _ ha))]

theorem MatchOrders_insert {b : OrderBook} (h : Inv b) (o : Order)
    (hf : o.orderId ∉ b.orders.map OrderEntry.orderId)
    (hnm : o.orderType ≠ OrderType.Market)
    (hm : o.orderType = OrderType.FillAndKill →
      o.marketable (if o.side = Side.Buy then b.asks else b.bids) = true) :
    MatchOrders (insertOrder b o) = ((b.admitted o).1, .ok (b.admitted o).2) := by
  have hloop : matchLoop ((insertOrder b o).bids.length + (insertOrder b o).asks.length)
      (insertOrder b o) [] = ((b.matched o).1, .ok (b.matched o).2) := by
    cases hs : o.side with
    | Buy =>
      apply matchLoop_insert_buy h.toWellFormed o hs hf
      simp [insertOrder, hs]
    | Sell =>
      apply matchLoop_insert_sell h.toWellFormed o hs hf
      simp [insertOrder, hs]
  unfold MatchOrders
  rw [hloop]
  refine (sweeps_after_match h o hf hnm hm (b.matched o).2).trans ?_
  unfold OrderBook.admitted
  split <;> rfl

theorem canMatch_marketable (b : OrderBook) (o : Order) :
    canMatch b o.side o.price = o.marketable (if o.side = Side.Buy then b.asks else b.bids) := by
  cases hs : o.side with
  | Buy => rw [← hs, canMatch_buy b o hs]; simp [hs]
  | Sell => rw [← hs, canMatch_sell b o hs]; simp [hs]

theorem rewriteMarket_of_ne (b : OrderBook) (o : Order) (h : o.orderType ≠ OrderType.Market) :
    rewriteMarket b o = .ok o := by
  simp [rewriteMarket, h]

/-- `AddOrder` of an order that is not a Market order, with a new id, on a book that
satisfies the invariant. -/
theorem AddOrder_admitted {b : OrderBook} (h : Inv b) (o : Order)
    (hf : o.orderId ∉ b.orders.map OrderEntry.orderId)
    (hnm : o.orderType ≠ OrderType.Market)
    (hm : o.orderType = OrderType.FillAndKill → canMatch b o.side o.price = true) :
    AddOrder b o = ((b.admitted o).1, .ok (b.admitted o).2) := by
  have hc : b.orders.contains o.orderId = false := by
    rw [← Bool.not_eq_true, Index.contains_iff]; exact hf
  have hreject : ¬ (o.orderType = OrderType.FillAndKill ∧ ¬ canMatch b o.side o.price = true) := by
    rintro ⟨h1, h2⟩; exact h2 (hm h1)
  unfold AddOrder
  simp only [hc, Bool.false_eq_true, if_false, hreject, rewriteMarket_of_ne b o hnm]
  exact MatchOrders_insert h o hf hnm (fun ht => by rw [← canMatch_marketable]; exact hm ht)

theorem Order.ToGoodTillCancel_market (o : Order) (p : Int) (h : o.orderType = OrderType.Market) :
    o.ToGoodTillCancel p = .ok (o.pegged p) := by
  simp [Order.ToGoodTillCancel, h, Order.pegged]

theorem Inv.admitted_inv {b : OrderBook} (h : Inv b) (o : Order)
    (hf : o.orderId ∉ b.orders.map OrderEntry.orderId)
    (hnm : o.orderType ≠ OrderType.Market) : Inv (b.admitted o).1 := by
  unfold OrderBook.admitted
  split
  · exact h.matched_without o hf
  · rename_i ht
    apply h.matched_inv o hf
    cases hty : o.orderType with
    | Market => exact absurd hty hnm
    | GoodTillCancel => rfl
    | FillAndKill => exact absurd hty ht

/-- The outcomes of `AddOrder` on a book that satisfies the invariant: the book is left as it
was (the id is in use, a FillAndKill order does not cross, a Market order finds the opposite
ladder empty), or the order, a Market order rewritten, is admitted. -/
theorem AddOrder_cases {b : OrderBook} (h : Inv b) (o : Order) :
    (AddOrder b o = (b, .ok []) ∨ AddOrder b o = (b, .error Fault.noLiquidity)) ∨
    ∃ o1 : Order, o1.orderId = o.orderId ∧ o1.side = o.side ∧
      o1.orderId ∉ b.orders.map OrderEntry.orderId ∧ o1.orderType ≠ OrderType.Market ∧
      (o.orderType ≠ OrderType.Market → o1 = o) ∧
      AddOrder b o = ((b.admitted o1).1, .ok (b.admitted o1).2) := by
  by_cases hc : b.orders.contains o.orderId = true
  · left; left; simp [AddOrder, hc]
  have hf : o.orderId ∉ b.orders.map OrderEntry.orderId := by
    rw [← Index.contains_iff]; exact hc
  by_cases hrej : o.orderType = OrderType.FillAndKill ∧ ¬ canMatch b o.side o.price = true
  · left; left; simp [AddOrder, hc, hrej]
  by_cases hmk : o.orderType = OrderType.Market
  · have hgtc : ∀ p, (o.pegged p).orderType ≠ OrderType.Market := by
      intro p; simp [Order.pegged]
    have hnf : ∀ p, (o.pegged p).orderType = OrderType.FillAndKill →
        (o.pegged p).marketable (if (o.pegged p).side = Side.Buy then b.asks else b.bids) = true := by
      intro p hh; simp [Order.pegged] at hh
    cases hs : o.side with
    | Buy =>
      cases ha : b.asks with
      | nil => left; right; simp [AddOrder, hc, hrej, rewriteMarket, hmk, hs, ha]
      | cons x R =>
        right
        refine ⟨o.pegged x.1, rfl, hs, hf, hgtc _, fun hn => absurd hmk hn, ?_⟩
        rw [← MatchOrders_insert h (o.pegged x.1) hf (hgtc _) (hnf _)]
        simp [AddOrder, hc, hrej, rewriteMarket, hmk, hs, ha, Order.ToGoodTillCancel_market]
    | Sell =>
      cases ha : b.bids with
      | nil => left; right; simp [AddOrder, hc, hrej, rewriteMarket, hmk, hs, ha]
      | cons x R =>
        right
        refine ⟨o.pegged x.1, rfl, hs, hf, hgtc _, fun hn => absurd hmk hn, ?_⟩
        rw [← MatchOrders_insert h (o.pegged x.1) hf (hgtc _) (hnf _)]
        simp [AddOrder, hc, hrej, rewriteMarket, hmk, hs, ha, Order.ToGoodTillCancel_market]
  · right
    refine ⟨o, rfl, rfl, hf, hmk, fun _ => rfl, ?_⟩
    apply AddOrder_admitted h o hf hmk
    intro ht
    by_contra hcm
    exact hrej ⟨ht, hcm⟩

theorem Inv.after_add {b : OrderBook} (h : Inv b) (o : Order) : Inv (AddOrder b o).1 := by
  rcases AddOrder_cases h o with (h1 | h1) | ⟨o1, _, _, hf, hnm, _, h1⟩
  · rw [h1]; exact h
  · rw [h1]; exact h
  · rw [h1]; exact h.admitted_inv o1 hf hnm

theorem Inv.after_cancel {b : OrderBook} (h : Inv b) (id : OrderId) : Inv (CancelOrder b id).1 := by
  rw [CancelOrder_eq h.toWellFormed]; exact h.without_inv id

theorem Inv.after_modify {b : OrderBook} (h : Inv b) (m : OrderModify) (t : OrderType) :
    Inv (MatchOrder b m t).1 := by
  unfold MatchOrder
  split
  · exact h
  · rw [CancelOrder_eq h.toWellFormed]
    exact (h.without_inv _).after_add _

theorem Inv.empty : Inv OrderBook.empty where
  bids := ⟨List.Pairwise.nil, fun x hx => by simp [OrderBook.empty] at hx,
    fun x hx => by simp [OrderBook.empty] at hx⟩
  asks := ⟨List.Pairwise.nil, fun x hx => by simp [OrderBook.empty] at hx,
    fun x hx => by simp [OrderBook.empty] at hx⟩
  uncrossed := fun x hx => by simp [OrderBook.empty, Ladder.keys] at hx
  ids := List.nodup_nil
  index_ids := List.nodup_nil
  index := fun e => by simp [OrderBook.empty, OrderBook.resting, Ladder.all]
  gtc := fun o ho => by simp [OrderBook.empty, OrderBook.resting, Ladder.all] at ho

theorem Reachable.inv {b : OrderBook} (h : Reachable b) : Inv b := by
  induction h with
  | empty => exact Inv.empty
  | add b o _ ih => exact ih.after_add o
  | cancel b id _ ih => exact ih.after_cancel id
  | modify b m t _ ih => exact ih.after_modify m t

theorem Trade.between_congr (o o1 a a1 : Order) (q : Int) (ho : o1.entry = o.entry)
    (ha : a1.entry = a.entry) : Trade.between o1 a1 q = Trade.between o a q := by
  have h1 : o1.side = o.side := congrArg OrderEntry.side ho
  have h2 : o1.price = o.price := congrArg OrderEntry.price ho
  have h3 : o1.orderId = o.orderId := congrArg OrderEntry.orderId ho
  have h4 : a1.price = a.price := congrArg OrderEntry.price ha
  have h5 : a1.orderId = a.orderId := congrArg OrderEntry.orderId ha
  simp only [Trade.between, Trade.of, h1, h2, h3, h4, h5]

theorem Trade.between_filledBy (o a : Order) (q1 q2 q : Int) :
    Trade.between (o.filledBy q1) (a.filledBy q2) q = Trade.between o a q := rfl

theorem Trade.between_filledBy_left (o a : Order) (q1 q : Int) :
    Trade.between (o.filledBy q1) a q = Trade.between o a q := rfl

theorem Trade.between_filledBy_right (o a : Order) (q2 q : Int) :
    Trade.between o (a.filledBy q2) q = Trade.between o a q := rfl

theorem Order.min_of_not_filled (o a : Order)
    (h : (o.filledBy (min o.remainingQuantity a.remainingQuantity)).isFilled ≠ true) :
    min o.remainingQuantity a.remainingQuantity = a.remainingQuantity := by
  rcases min_choice o.remainingQuantity a.remainingQuantity with h1 | h1
  · rw [h1] at h; exact absurd (Order.filledBy_self o) h
  · exact h1

/-- The trades of a sweep of one level: the orders in front are filled in full, one after the
other, and a last trade, if the incoming order is used up, is with the next order. -/
theorem sweepLevel_trades (l : Level) : ∀ (o : Order), ∃ done tail : List Order,
    l = done ++ tail ∧ (∀ a ∈ done, a.orderId ∈ (sweepLevel o l).filled) ∧
    (((sweepLevel o l).residual.isSome = true ∧ tail = [] ∧
        (sweepLevel o l).trades = done.map (fun a => Trade.between o a a.remainingQuantity)) ∨
      ∃ a tl q, tail = a :: tl ∧ (sweepLevel o l).residual = none ∧
        (sweepLevel o l).trades =
          done.map (fun a => Trade.between o a a.remainingQuantity) ++ [Trade.between o a q]) := by
  induction l with
  | nil => intro o; exact ⟨[], [], rfl, by simp, Or.inl ⟨rfl, rfl, rfl⟩⟩
  | cons a r ih =>
    intro o
    simp only [sweepLevel]
    split
    · refine ⟨[], a :: r, rfl, by simp, Or.inr ⟨a, r, min o.remainingQuantity a.remainingQuantity,
        rfl, rfl, ?_⟩⟩
      simp only [List.map_nil, List.nil_append, Trade.between_filledBy]
    · rename_i hnf
      have hq := Order.min_of_not_filled o a hnf
      obtain ⟨done, tail, h1, h2, h3⟩ := ih (o.filledBy (min o.remainingQuantity a.remainingQuantity))
      rw [hq] at h2 h3
      simp only [hq]
      have hmap : ∀ d : List Order,
          d.map (fun a2 => Trade.between (o.filledBy a.remainingQuantity)
            a2 a2.remainingQuantity) = d.map (fun a2 => Trade.between o a2 a2.remainingQuantity) := by
        intro d
        apply List.map_congr_left
        intro a2 _
        rfl
      refine ⟨a :: done, tail, by rw [h1]; rfl, ?_, ?_⟩
      · intro x hx
        rcases List.mem_cons.mp hx with hx | hx
        · rw [hx]; exact List.mem_cons_self _ _
        · exact List.mem_cons_of_mem _ (h2 x hx)
      · rcases h3 with ⟨h4, h5, h6⟩ | ⟨a2, tl, q, h4, h5, h6⟩
        · left
          refine ⟨h4, h5, ?_⟩
          simp only [h6, List.map_cons, hmap, Trade.between_filledBy, hq]
        · right
          refine ⟨a2, tl, q, h4, h5, ?_⟩
          simp only [h6, List.map_cons, hmap, List.cons_append, Trade.between_filledBy,
            Trade.between_filledBy_left, Trade.between_filledBy_right]

/-- The trades of a sweep of the ladder, in the priority order of the ladder. -/
theorem sweepLadder_trades (L : Ladder) : ∀ (o : Order), ∃ done tail : List Order,
    Ladder.all L = done ++ tail ∧ (∀ a ∈ done, a.orderId ∈ (sweepLadder o L).filled) ∧
    (((sweepLadder o L).residual.isSome = true ∧
        (sweepLadder o L).trades = done.map (fun a => Trade.between o a a.remainingQuantity)) ∨
      ∃ a tl q, tail = a :: tl ∧ (sweepLadder o L).residual = none ∧
        (sweepLadder o L).trades =
          done.map (fun a => Trade.between o a a.remainingQuantity) ++ [Trade.between o a q]) := by
  induction L with
  | nil => intro o; exact ⟨[], [], rfl, by simp, Or.inl ⟨rfl, rfl⟩⟩
  | cons x R ih =>
    obtain ⟨p, l⟩ := x
    intro o
    simp only [sweepLadder]
    split
    · obtain ⟨done, tail, h1, h2, h3⟩ := sweepLevel_trades l o
      cases hres : (sweepLevel o l).residual with
      | none =>
        rcases h3 with ⟨h4, _, _⟩ | ⟨a, tl, q, h4, _, h6⟩
        · rw [hres] at h4; simp at h4
        · refine ⟨done, tail ++ Ladder.all R, by simp [Ladder.all, h1], h2,
            Or.inr ⟨a, tl ++ Ladder.all R, q, by rw [h4]; rfl, rfl, h6⟩⟩
      | some o1 =>
        have he := (sweepLevel_residual l o o1 hres).1
        rcases h3 with ⟨_, h5, h6⟩ | ⟨a, tl, q, _, h5, _⟩
        · obtain ⟨done2, tail2, k1, k2, k3⟩ := ih o1
          have hmap : ∀ d : List Order,
              d.map (fun a2 => Trade.between o1 a2 a2.remainingQuantity) =
                d.map (fun a2 => Trade.between o a2 a2.remainingQuantity) := by
            intro d
            apply List.map_congr_left
            intro a2 _
            exact Trade.between_congr o o1 a2 a2 _ he rfl
          refine ⟨done ++ done2, tail2, by simp [Ladder.all, h1, h5, k1], ?_, ?_⟩
          · intro a ha
            rcases List.mem_append.mp ha with ha | ha
            · exact List.mem_append_left _ (h2 a ha)
            · exact List.mem_append_right _ (k2 a ha)
          · rcases k3 with ⟨k4, k5⟩ | ⟨a2, tl, q, k4, k5, k6⟩
            · left
              refine ⟨k4, ?_⟩
              simp only [h6, k5, hmap, List.map_append]
            · right
              refine ⟨a2, tl, q, k4, k5, ?_⟩
              simp only [h6, k6, hmap, List.map_append, List.append_assoc]
              rw [Trade.between_congr o o1 a2 a2 _ he rfl]
        · rw [hres] at h5; simp at h5
    · exact ⟨[], Ladder.all ((p, l) :: R), rfl, by simp, Or.inl ⟨rfl, rfl⟩⟩

theorem wrapInt32_of_range (x : Int) (h0 : 0 ≤ x) (h1 : x < 2147483648) : wrapInt32 x = x := by
  unfold wrapInt32; omega

theorem volume_nil : volume [] = 0 := rfl

theorem volume_cons (a : Order) (l : List Order) :
    volume (a :: l) = a.remainingQuantity + volume l := by
  simp [volume]

theorem volume_append (l k : List Order) : volume (l ++ k) = volume l + volume k := by
  simp [volume]

theorem volume_nonneg (l : List Order) (h : ∀ a ∈ l, validQuantity a.remainingQuantity) :
    0 ≤ volume l := by
  induction l with
  | nil => simp [volume]
  | cons a r ih =>
    rw [volume_cons]
    have h1 := (h a (List.mem_cons_self _ _)).1
    have h2 := ih (fun x hx => h x (List.mem_cons_of_mem _ hx))
    omega

theorem tradedQuantity_nil : tradedQuantity [] = 0 := rfl

theorem tradedQuantity_cons (t : Trade) (ts : List Trade) :
    tradedQuantity (t :: ts) = t.bidTrade.quantity + tradedQuantity ts := by
  simp [tradedQuantity]

theorem tradedQuantity_append (ts us : List Trade) :
    tradedQuantity (ts ++ us) = tradedQuantity ts + tradedQuantity us := by
  simp [tradedQuantity]

theorem Trade.between_quantity (o a : Order) (q : Int) :
    (Trade.between o a q).bidTrade.quantity = q := by
  unfold Trade.between
  split <;> rfl

/-- The quantity traded in a sweep of one level, for quantities that are positive and fit
32 bits. -/
theorem sweepLevel_volume (l : Level) : ∀ (o : Order), validQuantity o.remainingQuantity →
    (∀ a ∈ l, validQuantity a.remainingQuantity) →
    tradedQuantity (sweepLevel o l).trades = min o.remainingQuantity (volume l) ∧
    (volume l < o.remainingQuantity → (sweepLevel o l).residual =
        some (o.withRemaining (o.remainingQuantity - volume l))) ∧
    (o.remainingQuantity ≤ volume l → (sweepLevel o l).residual = none) ∧
    (∀ a ∈ (sweepLevel o l).rest, validQuantity a.remainingQuantity) := by
  induction l with
  | nil =>
    intro o ho _
    have := ho.1
    simp only [sweepLevel, tradedQuantity_nil, volume_nil]
    refine ⟨by omega, fun _ => by simp [Order.withRemaining], fun h => by omega, by simp⟩
  | cons a r ih =>
    intro o ho hl
    have ha := hl a (List.mem_cons_self _ _)
    have hr : ∀ x ∈ r, validQuantity x.remainingQuantity :=
      fun x hx => hl x (List.mem_cons_of_mem _ hx)
    have hv := volume_nonneg r hr
    obtain ⟨ho0, ho1⟩ := ho
    obtain ⟨ha0, ha1⟩ := ha
    rw [volume_cons]
    by_cases hle : o.remainingQuantity ≤ a.remainingQuantity
    · have hq : min o.remainingQuantity a.remainingQuantity = o.remainingQuantity := min_eq_left hle
      have hfill : (o.filledBy o.remainingQuantity).isFilled = true := Order.filledBy_self o
      simp only [sweepLevel, hq, hfill, if_true, tradedQuantity_cons, tradedQuantity_nil,
        Trade.between_quantity]
      refine ⟨by omega, fun h => by omega, fun _ => trivial, ?_⟩
      intro x hx
      split at hx
      · exact hr x hx
      · rename_i hnf
        rcases List.mem_cons.mp hx with hx | hx
        · rw [hx]
          have hw : wrapInt32 (a.remainingQuantity - o.remainingQuantity) =
              a.remainingQuantity - o.remainingQuantity := wrapInt32_of_range _ (by omega) (by omega)
          simp only [Order.filledBy, Order.isFilled, hw, beq_iff_eq] at hnf ⊢
          exact ⟨by omega, by omega⟩
        · exact hr x hx
    · have hlt : a.remainingQuantity < o.remainingQuantity := not_le.mp hle
      have hq : min o.remainingQuantity a.remainingQuantity = a.remainingQuantity :=
        min_eq_right (le_of_lt hlt)
      have hw : wrapInt32 (o.remainingQuantity - a.remainingQuantity) =
          o.remainingQuantity - a.remainingQuantity := wrapInt32_of_range _ (by omega) (by omega)
      have hnf : (o.filledBy a.remainingQuantity).isFilled = false := by
        simp only [Order.filledBy, Order.isFilled, hw, beq_eq_false_iff_ne, ne_eq]
        omega
      have hrem : (o.filledBy a.remainingQuantity).remainingQuantity =
          o.remainingQuantity - a.remainingQuantity := hw
      obtain ⟨k1, k2, k3, k4⟩ := ih (o.filledBy a.remainingQuantity)
        (by rw [hrem]; exact ⟨by omega, by omega⟩) hr
      rw [hrem] at k1 k2 k3
      simp only [sweepLevel, hq, hnf, Bool.false_eq_true, if_false, tradedQuantity_cons,
        Trade.between_quantity, k1]
      refine ⟨by omega, ?_, ?_, k4⟩
      · intro h
        rw [k2 (by omega)]
        simp only [Order.filledBy, Order.withRemaining, Option.some.injEq, Order.mk.injEq, true_and]
        omega
      · intro h
        exact k3 (by omega)

theorem Ladder.filter_all_of_not_crossing (before : Int → Int → Prop) (side : Side) (L : Ladder)
    (hok : LadderOk before side L) (o : Order)
    (hmono : ∀ p y, before p y → o.crosses p = false → o.crosses y = false)
    (h : o.marketable L = false) :
    (Ladder.all L).filter (fun a => o.crosses a.price) = [] := by
  rw [List.filter_eq_nil_iff]
  intro a ha
  obtain ⟨x, hx, hax⟩ := (Ladder.mem_all L a).mp ha
  have hp := (hok.tagged x hx a hax).1
  have := Order.not_marketable o before L hmono hok.sorted h x.1 (List.mem_map.mpr ⟨x, hx, rfl⟩)
  rw [hp, this]; simp

theorem LadderOk.tail {before : Int → Int → Prop} {side : Side} {x : Int × Level} {R : Ladder}
    (h : LadderOk before side (x :: R)) : LadderOk before side R where
  sorted := by
    have := h.sorted
    simp only [Ladder.keys, List.map_cons, List.pairwise_cons] at this
    exact this.2
  nonempty := fun y hy => h.nonempty y (List.mem_cons_of_mem _ hy)
  tagged := fun y hy => h.tagged y (List.mem_cons_of_mem _ hy)

theorem Order.crosses_residual (o : Order) (q : Int) :
    (fun a : Order => (o.withRemaining q).crosses a.price) =
      (fun a : Order => o.crosses a.price) := rfl

/-- The quantity traded in a sweep of the ladder is the smaller of the quantity of the
incoming order and the quantity resting at the prices it crosses. -/
theorem sweepLadder_volume (before : Int → Int → Prop) (side : Side) (L : Ladder) :
    ∀ (o : Order), LadderOk before side L →
    (∀ p y, before p y → o.crosses p = false → o.crosses y = false) →
    validQuantity o.remainingQuantity →
    (∀ a ∈ Ladder.all L, validQuantity a.remainingQuantity) →
    tradedQuantity (sweepLadder o L).trades =
      min o.remainingQuantity (volume ((Ladder.all L).filter (fun a => o.crosses a.price))) ∧
    (volume ((Ladder.all L).filter (fun a => o.crosses a.price)) < o.remainingQuantity →
      (sweepLadder o L).residual = some (o.withRemaining
        (o.remainingQuantity - volume ((Ladder.all L).filter (fun a => o.crosses a.price))))) ∧
    (o.remainingQuantity ≤ volume ((Ladder.all L).filter (fun a => o.crosses a.price)) →
      (sweepLadder o L).residual = none) ∧
    (∀ a ∈ Ladder.all (sweepLadder o L).rest, validQuantity a.remainingQuantity) := by
  induction L with
  | nil =>
    intro o _ _ ho _
    have := ho.1
    simp only [sweepLadder, Ladder.all, List.filter_nil, volume_nil, tradedQuantity_nil]
    refine ⟨by omega, fun _ => by simp [Order.withRemaining], fun h => by omega, by simp⟩
  | cons x R ih =>
    obtain ⟨p, l⟩ := x
    intro o hok hmono ho hL
    have hl : ∀ a ∈ l, validQuantity a.remainingQuantity :=
      fun a ha => hL a (by simp [Ladder.all, ha])
    have hR : ∀ a ∈ Ladder.all R, validQuantity a.remainingQuantity :=
      fun a ha => hL a (by simp [Ladder.all, ha])
    by_cases hc : o.crosses p = true
    · have hfl : l.filter (fun a => o.crosses a.price) = l := by
        rw [List.filter_eq_self]
        intro a ha
        rw [(hok.tagged (p, l) (List.mem_cons_self _ _) a ha).1]; exact hc
      have hVR : 0 ≤ volume ((Ladder.all R).filter (fun a => o.crosses a.price)) :=
        volume_nonneg _ (fun a ha => hR a (List.mem_filter.mp ha).1)
      have hVl : 0 ≤ volume l := volume_nonneg _ hl
      obtain ⟨k1, k2, k3, k4⟩ := sweepLevel_volume l o ho hl
      simp only [Ladder.all, List.filter_append, hfl, volume_append, sweepLadder, hc, if_true]
      by_cases hle : o.remainingQuantity ≤ volume l
      · have hres := k3 hle
        simp only [hres, sweepLadder_all_none]
        refine ⟨by rw [k1]; omega, fun h => by omega, fun _ => trivial, ?_⟩
        intro a ha
        rcases List.mem_append.mp ha with ha | ha
        · exact k4 a ha
        · exact hR a ha
      · have hres := k2 (by omega)
        simp only [hres]
        obtain ⟨m1, m2, m3, m4⟩ := ih (o.withRemaining (o.remainingQuantity - volume l))
          hok.tail hmono ⟨by simp only [Order.withRemaining]; omega,
            by simp only [Order.withRemaining]; have := ho.2; omega⟩ hR
        have hrem : (o.withRemaining (o.remainingQuantity - volume l)).remainingQuantity =
            o.remainingQuantity - volume l := rfl
        rw [hrem] at m1 m2 m3
        simp only [Order.crosses_residual] at m1 m2 m3
        simp only [tradedQuantity_append, k1, m1]
        refine ⟨by omega, ?_, ?_, m4⟩
        · intro h
          rw [m2 (by omega)]
          simp only [Order.withRemaining, Option.some.injEq, Order.mk.injEq, true_and]
          omega
        · intro h
          exact m3 (by omega)
    · have hc2 : o.crosses p = false := by simpa using hc
      have hfil := Ladder.filter_all_of_not_crossing before side ((p, l) :: R) hok o hmono hc2
      have := ho.1
      simp only [hfil, volume_nil, sweepLadder, hc2, Bool.false_eq_true, if_false,
        tradedQuantity_nil]
      refine ⟨by omega, fun _ => by simp [Order.withRemaining], fun h => by omega, hL⟩

theorem Reachable.sample : Reachable sampleBook :=
  Reachable.add _ _ (Reachable.add _ _ (Reachable.add _ _ Reachable.empty))

theorem Ladder.head_best (R : Int → Int → Prop) (p : Int) (l : Level) (rest : Ladder)
    (h : Ladder.keys ((p, l) :: rest) |>.Pairwise R) (q : Int)
    (hq : q ∈ Ladder.keys ((p, l) :: rest)) : q = p ∨ R p q := by
  simp only [Ladder.keys, List.map_cons, List.pairwise_cons, List.mem_cons] at h hq
  rcases hq with hq | hq
  · exact Or.inl hq
  · exact Or.inr (h.1 q hq)

/-- C1. Uncrossed book: in every book reachable from the empty book by `AddOrder`,
`CancelOrder` and `MatchOrder` calls, the bid ladder is empty, or the ask ladder is empty,
or the highest bid price is strictly less than the lowest ask price. -/
theorem uncrossed_book (b : OrderBook) (h : Reachable b) :
    b.bids = [] ∨ b.asks = [] ∨
      ∃ bestBid bestAsk, bestBid ∈ b.bids.keys ∧ (∀ p ∈ b.bids.keys, p ≤ bestBid) ∧
        bestAsk ∈ b.asks.keys ∧ (∀ p ∈ b.asks.keys, bestAsk ≤ p) ∧ bestBid < bestAsk := by
  have hinv := h.inv
  cases hb : b.bids with
  | nil => exact Or.inl rfl
  | cons x rb =>
    cases ha : b.asks with
    | nil => exact Or.inr (Or.inl rfl)
    | cons y ra =>
      right; right
      obtain ⟨pb, lb⟩ := x
      obtain ⟨pa, la⟩ := y
      have hsb := hinv.bids.sorted
      have hsa := hinv.asks.sorted
      have hun := hinv.uncrossed
      rw [hb] at hsb hun
      rw [ha] at hsa hun
      refine ⟨pb, pa, by simp [Ladder.keys], ?_, by simp [Ladder.keys], ?_,
        hun pb (by simp [Ladder.keys]) pa (by simp [Ladder.keys])⟩
      · intro p hp
        rcases Ladder.head_best _ pb lb rb hsb p hp with h1 | h1
        · exact le_of_eq h1
        · exact le_of_lt h1
      · intro p hp
        rcases Ladder.head_best _ pa la ra hsa p hp with h1 | h1
        · exact le_of_eq h1.symm
        · exact le_of_lt h1

/-- The book `sampleBook`, reached by three calls of `AddOrder`, is uncrossed. -/
theorem uncrossed_book_witness :
    sampleBook.bids = [] ∨ sampleBook.asks = [] ∨
      ∃ bestBid bestAsk, bestBid ∈ sampleBook.bids.keys ∧
        (∀ p ∈ sampleBook.bids.keys, p ≤ bestBid) ∧
        bestAsk ∈ sampleBook.asks.keys ∧ (∀ p ∈ sampleBook.asks.keys, bestAsk ≤ p) ∧
        bestBid < bestAsk :=
  uncrossed_book sampleBook Reachable.sample

/-- C5. FillAndKill fast reject: for every book and every FillAndKill order whose id is not
in the index, if the order does not cross the opposite top of book (a buy priced below every
ask, a sell priced above every bid, an empty opposite ladder included), `AddOrder` returns
an empty trade list and leaves bids, asks and index as they were; the id is not indexed. -/
theorem fak_fast_reject (b : OrderBook) (o : Order)
    (ht : o.orderType = OrderType.FillAndKill) (hf : b.orders.contains o.orderId = false)
    (hno : (o.side = Side.Buy ∧ ∀ p ∈ b.asks.keys, o.price < p) ∨
      (o.side = Side.Sell ∧ ∀ p ∈ b.bids.keys, p < o.price)) :
    AddOrder b o = (b, .ok []) ∧ (AddOrder b o).1.orders.contains o.orderId = false := by
  have hcm : canMatch b o.side o.price = false := by
    rcases hno with ⟨hs, hp⟩ | ⟨hs, hp⟩
    · unfold canMatch
      cases ha : b.asks with
      | nil => simp [hs]
      | cons x R =>
        have := hp x.1 (by simp [ha, Ladder.keys])
        simp [hs, not_le.mpr this]
    · unfold canMatch
      cases hb : b.bids with
      | nil => simp [hs]
      | cons x R =>
        have := hp x.1 (by simp [hb, Ladder.keys])
        simp [hs, not_le.mpr this]
  have h1 : AddOrder b o = (b, .ok []) := by simp [AddOrder, hf, ht, hcm]
  exact ⟨h1, by rw [h1]; exact hf⟩

/-- A FillAndKill sell at 100 against the only bid, at 99: nothing happens. -/
theorem fak_fast_reject_witness :
    AddOrder sampleBook (Order.new OrderType.FillAndKill 7 Side.Sell 100 5) =
        (sampleBook, .ok []) ∧
      (AddOrder sampleBook (Order.new OrderType.FillAndKill 7 Side.Sell 100 5)).1.orders.contains
        (Order.new OrderType.FillAndKill 7 Side.Sell 100 5).orderId = false :=
  fak_fast_reject sampleBook (Order.new OrderType.FillAndKill 7 Side.Sell 100 5) rfl (by decide)
    (Or.inr ⟨rfl, by decide⟩)

/-- C6. Market order without liquidity: for every book and every Market order whose id is
not in the index, if it is a buy and the ask ladder is empty, or a sell and the bid ladder is
empty, `AddOrder` ends by the exception `noLiquidity` and bids, asks and index are as they
were. -/
theorem market_without_liquidity (b : OrderBook) (o : Order)
    (ht : o.orderType = OrderType.Market) (hf : b.orders.contains o.orderId = false)
    (hno : (o.side = Side.Buy ∧ b.asks = []) ∨ (o.side = Side.Sell ∧ b.bids = [])) :
    AddOrder b o = (b, .error Fault.noLiquidity) := by
  rcases hno with ⟨hs, he⟩ | ⟨hs, he⟩
  · simp [AddOrder, hf, ht, rewriteMarket, hs, he]
  · simp [AddOrder, hf, ht, rewriteMarket, hs, he]

/-- A Market buy on the empty book ends by `noLiquidity`. -/
theorem market_without_liquidity_witness :
    AddOrder OrderBook.empty (Order.new OrderType.Market 2 Side.Buy 0 5) =
      (OrderBook.empty, .error Fault.noLiquidity) :=
  market_without_liquidity OrderBook.empty (Order.new OrderType.Market 2 Side.Buy 0 5) rfl
    (by decide) (Or.inl ⟨rfl, rfl⟩)

/-- C8. Duplicate-id add is a no-op: for every book and every order whose id is in the
index, `AddOrder` returns an empty trade list and leaves bids, asks and index as they
were. -/
theorem duplicate_id_add (b : OrderBook) (o : Order)
    (h : b.orders.contains o.orderId = true) : AddOrder b o = (b, .ok []) := by
  unfold AddOrder
  rw [if_pos h]

/-- An order with the id 2, which is resting in `sampleBook`, is turned away. -/
theorem duplicate_id_add_witness :
    AddOrder sampleBook (Order.new OrderType.Market 2 Side.Buy 0 50) = (sampleBook, .ok []) :=
  duplicate_id_add sampleBook (Order.new OrderType.Market 2 Side.Buy 0 50) (by decide)

theorem WellFormed.size {b : OrderBook} (h : WellFormed b) : b.orders.length = b.resting.length := by
  have h1 : b.orders.Nodup := List.Nodup.of_map _ h.index_ids
  have h2 : (b.resting.map Order.entry).Nodup := by
    apply List.Nodup.of_map OrderEntry.orderId
    rw [List.map_map]
    exact h.ids
  have hp : b.orders.Perm (b.resting.map Order.entry) :=
    (List.perm_ext_iff_of_nodup h1 h2).mpr h.index
  rw [hp.length_eq, List.length_map]

theorem erase_eq_filter_id (l : List Order) (a : Order) (ha : a ∈ l)
    (hnd : (l.map Order.orderId).Nodup) :
    l.filter (fun o => o.orderId != a.orderId) = l.erase a := by
  have hl : l.Nodup := List.Nodup.of_map _ hnd
  rw [hl.erase_eq_filter]
  apply List.filter_congr
  intro o ho
  by_cases hoa : o = a
  · rw [hoa]; simp
  · have : o.orderId ≠ a.orderId := by
      intro he
      exact hoa (List.inj_on_of_nodup_map hnd ho ha he)
    rw [bne_iff_ne.mpr this, bne_iff_ne.mpr hoa]

/-- C9. Cancel removes exactly one order: for every reachable book and every id,
`CancelOrder` returns normally and yields the book in which the order with that id is deleted
from its price level and from the index, its level is dropped from the ladder when it held
no other order, and every other order keeps its level, its remaining quantity and its place
in the queue (`OrderBook.without`); if the id is not in the index the book is unchanged, and
if it is, exactly one order leaves the ladders and the index. -/
theorem cancel_removes_one (b : OrderBook) (id : OrderId) (h : Reachable b) :
    CancelOrder b id = (b.without id, .ok ()) ∧
    (b.orders.contains id = false → (CancelOrder b id).1 = b) ∧
    (b.orders.contains id = true →
      ∃ a, a ∈ b.resting ∧ a.orderId = id ∧
        (CancelOrder b id).1.resting = b.resting.erase a ∧
        (CancelOrder b id).1.orders = List.erase b.orders a.entry ∧
        (CancelOrder b id).1.Size + 1 = b.Size) := by
  have hw := h.inv.toWellFormed
  have heq := CancelOrder_eq hw id
  refine ⟨heq, ?_, ?_⟩
  · intro hc
    rw [heq]
    apply OrderBook.without_of_fresh hw
    rw [← Index.contains_iff, hc]; simp
  · intro hc
    have hin : id ∈ b.resting.map Order.orderId :=
      (hw.index_iff id).mp ((Index.contains_iff _ _).mp hc)
    obtain ⟨a, ha, hid⟩ := List.mem_map.mp hin
    have hres : (b.without id).resting = b.resting.erase a := by
      rw [OrderBook.resting_without, ← hid]
      exact erase_eq_filter_id _ a ha hw.ids
    have hord : (b.without id).orders = List.erase b.orders a.entry := by
      have h1 : b.orders.Nodup := List.Nodup.of_map _ hw.index_ids
      have hmem : a.entry ∈ b.orders := (hw.index _).mpr (List.mem_map.mpr ⟨a, ha, rfl⟩)
      rw [h1.erase_eq_filter]
      simp only [OrderBook.without]
      apply List.filter_congr
      intro e he
      by_cases hea : e = a.entry
      · rw [hea]
        have h2 : a.entry.orderId = id := hid
        simp [h2]
      · have : e.orderId ≠ id := by
          intro hc2
          apply hea
          apply List.inj_on_of_nodup_map hw.index_ids he hmem
          rw [hc2, ← hid]; rfl
        rw [bne_iff_ne.mpr this, bne_iff_ne.mpr hea]
    refine ⟨a, ha, hid, by rw [heq]; exact hres, by rw [heq]; exact hord, ?_⟩
    rw [heq]
    simp only [OrderBook.Size]
    rw [(hw.without_wf id).size, hw.size, hres, List.length_erase_of_mem ha]
    have : 0 < b.resting.length := List.length_pos_of_mem ha
    omega

/-- Cancel of the order 2 of `sampleBook`. -/
theorem cancel_removes_one_witness :
    CancelOrder sampleBook 2 = (sampleBook.without 2, .ok ()) ∧
    (sampleBook.orders.contains 2 = false → (CancelOrder sampleBook 2).1 = sampleBook) ∧
    (sampleBook.orders.contains 2 = true →
      ∃ a, a ∈ sampleBook.resting ∧ a.orderId = 2 ∧
        (CancelOrder sampleBook 2).1.resting = sampleBook.resting.erase a ∧
        (CancelOrder sampleBook 2).1.orders = List.erase sampleBook.orders a.entry ∧
        (CancelOrder sampleBook 2).1.Size + 1 = sampleBook.Size) :=
  cancel_removes_one sampleBook 2 Reachable.sample

/-- C10. Cancel is idempotent: for every reachable book and every id, a second
`CancelOrder` of the same id returns normally and leaves the book of the first. -/
theorem cancel_idempotent (b : OrderBook) (id : OrderId) (h : Reachable b) :
    CancelOrder (CancelOrder b id).1 id = CancelOrder b id := by
  have hw := h.inv.toWellFormed
  rw [CancelOrder_eq hw id]
  simp only []
  rw [CancelOrder_eq (hw.without_wf id) id]
  congr 1
  apply OrderBook.without_of_fresh (hw.without_wf id)
  simp [OrderBook.without]

/-- Two cancels of the order 1 of `sampleBook`. -/
theorem cancel_idempotent_witness :
    CancelOrder (CancelOrder sampleBook 1).1 1 = CancelOrder sampleBook 1 :=
  cancel_idempotent sampleBook 1 Reachable.sample

/-- C4, as the claim is written, fails: a FillAndKill order that reuses the id of a resting
order is turned away by the duplicate-id guard, and that id stays in the index. -/
theorem fak_duplicate_id_stays_indexed :
    ¬ (∀ (b : OrderBook) (o : Order), Reachable b → o.orderType = OrderType.FillAndKill →
        (AddOrder b o).1.orders.contains o.orderId = false ∧
        ∀ a ∈ (AddOrder b o).1.resting, a.orderType ≠ OrderType.FillAndKill) := by
  intro hall
  have := (hall sampleBook (Order.new OrderType.FillAndKill 1 Side.Buy 100 5)
    Reachable.sample rfl).1
  revert this
  decide

/-- C4, amended. FillAndKill never rests: for every reachable book and every FillAndKill
order, `AddOrder` returns normally, afterwards no order of type FillAndKill is held in either
ladder or listed in the index, and if the id of the order was not in the index before the
call it is not in the index after it. -/
theorem fak_never_rests (b : OrderBook) (o : Order) (h : Reachable b)
    (ht : o.orderType = OrderType.FillAndKill) :
    (∃ ts, (AddOrder b o).2 = .ok ts) ∧
    (∀ a ∈ (AddOrder b o).1.resting, a.orderType ≠ OrderType.FillAndKill) ∧
    (∀ e ∈ (AddOrder b o).1.orders, e.orderType ≠ OrderType.FillAndKill) ∧
    (b.orders.contains o.orderId = false →
      (AddOrder b o).1.orders.contains o.orderId = false ∧
      o.orderId ∉ (AddOrder b o).1.resting.map Order.orderId) := by
  have hinv := h.inv
  have hafter := hinv.after_add o
  have hnm : o.orderType ≠ OrderType.Market := by rw [ht]; decide
  refine ⟨?_, fun a ha => hafter.no_fak a ha, ?_, ?_⟩
  · rcases AddOrder_cases hinv o with (h1 | h1) | ⟨o1, _, _, _, _, _, h1⟩
    · exact ⟨[], by rw [h1]⟩
    · exfalso
      have : (AddOrder b o).2 ≠ .error Fault.noLiquidity := by
        unfold AddOrder
        split
        · simp
        · split
          · simp
          · rw [rewriteMarket_of_ne b o hnm]
            simp only []
            intro hc
            rename_i hcont hrej
            have hf : o.orderId ∉ b.orders.map OrderEntry.orderId := by
              rw [← Index.contains_iff]; exact hcont
            rw [MatchOrders_insert hinv o hf hnm (fun _ => by
              rw [← canMatch_marketable]
              by_contra hcm
              exact hrej ⟨ht, hcm⟩)] at hc
            simp at hc
      exact this (by rw [h1])
    · exact ⟨_, by rw [h1]⟩
  · intro e he
    rw [hafter.entry_gtc e he]; decide
  · intro hc
    have hf : o.orderId ∉ b.orders.map OrderEntry.orderId := by
      rw [← Index.contains_iff, hc]; simp
    have hidx : (AddOrder b o).1.orders.contains o.orderId = false := by
      by_cases hcm : canMatch b o.side o.price = true
      · rw [AddOrder_admitted hinv o hf hnm (fun _ => hcm)]
        simp only [OrderBook.admitted, ht, if_true, OrderBook.without]
        rw [← Bool.not_eq_true, Index.contains_iff]
        simp
      · have h1 : AddOrder b o = (b, .ok []) := by simp [AddOrder, hc, ht, hcm]
        rw [h1]; exact hc
    refine ⟨hidx, ?_⟩
    intro hin
    have := (hafter.toWellFormed.index_iff o.orderId).mpr hin
    rw [← Index.contains_iff, hidx] at this
    simp at this

/-- A FillAndKill buy of 8 at 100 on `sampleBook`: 5 are filled, 3 are cancelled. -/
theorem fak_never_rests_witness :
    (∃ ts, (AddOrder sampleBook (Order.new OrderType.FillAndKill 9 Side.Buy 100 8)).2 = .ok ts) ∧
    (∀ a ∈ (AddOrder sampleBook (Order.new OrderType.FillAndKill 9 Side.Buy 100 8)).1.resting,
      a.orderType ≠ OrderType.FillAndKill) ∧
    (∀ e ∈ (AddOrder sampleBook (Order.new OrderType.FillAndKill 9 Side.Buy 100 8)).1.orders,
      e.orderType ≠ OrderType.FillAndKill) ∧
    (sampleBook.orders.contains (Order.new OrderType.FillAndKill 9 Side.Buy 100 8).orderId = false →
      (AddOrder sampleBook (Order.new OrderType.FillAndKill 9 Side.Buy 100 8)).1.orders.contains
        (Order.new OrderType.FillAndKill 9 Side.Buy 100 8).orderId = false ∧
      (Order.new OrderType.FillAndKill 9 Side.Buy 100 8).orderId ∉
        (AddOrder sampleBook (Order.new OrderType.FillAndKill 9 Side.Buy 100 8)).1.resting.map
          Order.orderId) :=
  fak_never_rests sampleBook (Order.new OrderType.FillAndKill 9 Side.Buy 100 8)
    Reachable.sample rfl

theorem Ladder.at_push (bf : Int → Int → Bool) (l : Ladder) (o : Order) :
    ∃ lv, Ladder.at (Ladder.push bf l o) o.price = some (lv ++ [o]) := by
  induction l with
  | nil => exact ⟨[], by simp [Ladder.push, Ladder.at]⟩
  | cons x t ih =>
    obtain ⟨p, lv⟩ := x
    simp only [Ladder.push]
    split
    · rename_i hp
      exact ⟨lv, by simp [Ladder.at, hp]⟩
    · rename_i hp
      split
      · exact ⟨[], by simp [Ladder.at]⟩
      · obtain ⟨lv2, h2⟩ := ih
        exact ⟨lv2, by simp [Ladder.at, hp, h2]⟩

/-- What is left of the incoming order rests at the tail of the level of its price. -/
theorem OrderBook.matched_rests (b : OrderBook) (o o1 : Order)
    (hres : (sweepLadder o (b.opposite o.side)).residual = some o1) :
    ∃ lv, Ladder.at ((b.matched o).1.own o.side) o1.price = some (lv ++ [o1]) := by
  cases hs : o.side with
  | Buy =>
    simp only [OrderBook.opposite, hs, if_true] at hres
    simp only [OrderBook.matched, OrderBook.own, hs, if_true, hres]
    exact Ladder.at_push _ _ _
  | Sell =>
    have hsne : ¬ (Side.Sell = Side.Buy) := by decide
    simp only [OrderBook.opposite, hs, hsne, if_false] at hres
    simp only [OrderBook.matched, OrderBook.own, hs, hsne, if_false, hres]
    exact Ladder.at_push _ _ _

theorem OrderBook.matched_mem_own (b : OrderBook) (o o1 : Order)
    (hres : (sweepLadder o (b.opposite o.side)).residual = some o1) :
    o1 ∈ (b.matched o).1.resting := by
  obtain ⟨lv, hlv⟩ := OrderBook.matched_rests b o o1 hres
  have hmem := Ladder.at_some_mem _ _ _ hlv
  have hall : o1 ∈ Ladder.all ((b.matched o).1.own o.side) :=
    (Ladder.mem_all _ _).mpr ⟨_, hmem, by simp⟩
  unfold OrderBook.own at hall
  unfold OrderBook.resting
  split at hall
  · exact List.mem_append_left _ hall
  · exact List.mem_append_right _ hall

/-- An incoming order that is used up is not in the index after the matching loop. -/
theorem OrderBook.matched_used_up (b : OrderBook) (o : Order)
    (hres : (sweepLadder o (b.opposite o.side)).residual = none) :
    (b.matched o).1.orders.contains o.orderId = false := by
  rw [← Bool.not_eq_true, Index.contains_iff, OrderBook.matched_orders]
  unfold OrderBook.opposite at hres
  rw [hres]
  intro hc
  obtain ⟨e, he, hid⟩ := List.mem_map.mp hc
  rw [Index.mem_eraseAll] at he
  apply he.2
  simp [hid]

theorem LadderOk.opposite_buy_or_sell {b : OrderBook} (h : WellFormed b) (o : Order) :
    ∃ (before : Int → Int → Prop) (side : Side), LadderOk before side (b.opposite o.side) ∧
      (∀ p y, before p y → o.crosses p = false → o.crosses y = false) ∧
      (∀ p y, before p y → o.crosses y = true → y ≠ p) := by
  cases hs : o.side with
  | Buy =>
    refine ⟨fun x y => x < y, Side.Sell, by simpa [OrderBook.opposite] using h.asks,
      Order.crosses_mono_buy o hs, fun p y hb _ => ne_of_gt hb⟩
  | Sell =>
    refine ⟨fun x y => x > y, Side.Buy, by simpa [OrderBook.opposite] using h.bids,
      Order.crosses_mono_sell o hs, fun p y hb _ => ne_of_lt hb⟩

/-- The fill of an admitted GoodTillCancel order, for quantities that are positive and fit
32 bits: the trades sum to the smaller of its quantity and the quantity it crosses; what is
left rests at the tail of the level of its price; a used-up order is not in the book. -/
theorem OrderBook.admitted_fill {b : OrderBook} (h : Inv b) (o : Order)
    (hf : o.orderId ∉ b.orders.map OrderEntry.orderId)
    (ht : o.orderType = OrderType.GoodTillCancel)
    (hq : ∀ a ∈ b.resting, validQuantity a.remainingQuantity)
    (hQ : validQuantity o.remainingQuantity) :
    tradedQuantity (b.admitted o).2 =
      min o.remainingQuantity (crossingVolume o (b.opposite o.side)) ∧
    (crossingVolume o (b.opposite o.side) < o.remainingQuantity →
      (∃ lv, Ladder.at ((b.admitted o).1.own o.side) o.price = some (lv ++
        [o.withRemaining (o.remainingQuantity - crossingVolume o (b.opposite o.side))])) ∧
      o.entry ∈ (b.admitted o).1.orders) ∧
    (o.remainingQuantity ≤ crossingVolume o (b.opposite o.side) →
      (b.admitted o).1.orders.contains o.orderId = false ∧
      o.orderId ∉ (b.admitted o).1.resting.map Order.orderId) := by
  have hnf : o.orderType ≠ OrderType.FillAndKill := by rw [ht]; decide
  have hadm : b.admitted o = b.matched o := by simp [OrderBook.admitted, hnf]
  have hw := h.toWellFormed.matched_wf o hf
  obtain ⟨before, side, hok, hmono, _⟩ := LadderOk.opposite_buy_or_sell h.toWellFormed o
  have hvalid : ∀ a ∈ Ladder.all (b.opposite o.side), validQuantity a.remainingQuantity := by
    intro a ha
    apply hq
    unfold OrderBook.opposite at ha
    unfold OrderBook.resting
    split at ha
    · exact List.mem_append_right _ ha
    · exact List.mem_append_left _ ha
  obtain ⟨v1, v2, v3, _⟩ := sweepLadder_volume before side _ o hok hmono hQ hvalid
  rw [hadm]
  refine ⟨?_, ?_, ?_⟩
  · rw [OrderBook.matched_trades]
    exact v1
  · intro hlt
    have hres := v2 hlt
    constructor
    · exact OrderBook.matched_rests b o _ hres
    · have := OrderBook.matched_mem_own b o _ hres
      exact (hw.index _).mpr (List.mem_map.mpr ⟨_, this, rfl⟩)
  · intro hle
    have hres := v3 hle
    have hc := OrderBook.matched_used_up b o hres
    refine ⟨hc, ?_⟩
    intro hin
    have := (hw.index_iff o.orderId).mpr hin
    rw [← Index.contains_iff, hc] at this
    simp at this

/-- C3. Fill amount of a limit order: for every reachable book whose resting orders have
positive remaining quantities (values of a 32-bit integer), and every GoodTillCancel order
with an id not in the index, limit price P and quantity Q > 0, `AddOrder` returns trades
whose quantities sum to min(Q, L), L being the total remaining quantity of the opposite
orders whose price crosses P; if Q > L the order then rests at the tail of level P of its
own side with remaining quantity Q - L and is indexed, and if Q <= L it is not in the book. -/
theorem limit_order_fill (b : OrderBook) (o : Order) (h : Reachable b)
    (hq : ∀ a ∈ b.resting, validQuantity a.remainingQuantity)
    (ht : o.orderType = OrderType.GoodTillCancel)
    (hf : b.orders.contains o.orderId = false)
    (hQ : validQuantity o.remainingQuantity) :
    ∃ ts, (AddOrder b o).2 = .ok ts ∧
      tradedQuantity ts = min o.remainingQuantity (crossingVolume o (b.opposite o.side)) ∧
      (crossingVolume o (b.opposite o.side) < o.remainingQuantity →
        (∃ lv, Ladder.at ((AddOrder b o).1.own o.side) o.price = some (lv ++
          [o.withRemaining (o.remainingQuantity - crossingVolume o (b.opposite o.side))])) ∧
        o.entry ∈ (AddOrder b o).1.orders) ∧
      (o.remainingQuantity ≤ crossingVolume o (b.opposite o.side) →
        (AddOrder b o).1.orders.contains o.orderId = false ∧
        o.orderId ∉ (AddOrder b o).1.resting.map Order.orderId) := by
  have hinv := h.inv
  have hf2 : o.orderId ∉ b.orders.map OrderEntry.orderId := by
    rw [← Index.contains_iff, hf]; simp
  have hadd := AddOrder_admitted hinv o hf2 (by rw [ht]; decide) (fun hc => by
    rw [ht] at hc; exact absurd hc (by decide))
  rw [hadd]
  exact ⟨_, rfl, OrderBook.admitted_fill hinv o hf2 ht hq hQ⟩

/-- The buy `sampleBuy` of 8 at 100 on `sampleBook`: 5 are filled and 3 rest at 100. -/
theorem limit_order_fill_witness :
    ∃ ts, (AddOrder sampleBook sampleBuy).2 = .ok ts ∧
      tradedQuantity ts = min sampleBuy.remainingQuantity
        (crossingVolume sampleBuy (sampleBook.opposite sampleBuy.side)) ∧
      (crossingVolume sampleBuy (sampleBook.opposite sampleBuy.side) < sampleBuy.remainingQuantity →
        (∃ lv, Ladder.at ((AddOrder sampleBook sampleBuy).1.own sampleBuy.side) sampleBuy.price =
          some (lv ++ [sampleBuy.withRemaining (sampleBuy.remainingQuantity -
            crossingVolume sampleBuy (sampleBook.opposite sampleBuy.side))])) ∧
        sampleBuy.entry ∈ (AddOrder sampleBook sampleBuy).1.orders) ∧
      (sampleBuy.remainingQuantity ≤ crossingVolume sampleBuy (sampleBook.opposite sampleBuy.side) →
        (AddOrder sampleBook sampleBuy).1.orders.contains sampleBuy.orderId = false ∧
        sampleBuy.orderId ∉ (AddOrder sampleBook sampleBuy).1.resting.map Order.orderId) :=
  limit_order_fill sampleBook sampleBuy Reachable.sample (by decide) rfl (by decide) (by decide)

theorem AddOrder_market {b : OrderBook} (h : Inv b) (o : Order)
    (hf : o.orderId ∉ b.orders.map OrderEntry.orderId) (ht : o.orderType = OrderType.Market)
    (A : Int) (lvl : Level) (R : Ladder) (hopp : b.opposite o.side = (A, lvl) :: R) :
    AddOrder b o = ((b.admitted (o.pegged A)).1, .ok (b.admitted (o.pegged A)).2) := by
  have hc : b.orders.contains o.orderId = false := by
    rw [← Bool.not_eq_true, Index.contains_iff]; exact hf
  have hgtc : (o.pegged A).orderType ≠ OrderType.Market := by simp [Order.pegged]
  have hnf : (o.pegged A).orderType = OrderType.FillAndKill →
      (o.pegged A).marketable (if (o.pegged A).side = Side.Buy then b.asks else b.bids) = true := by
    intro hh; simp [Order.pegged] at hh
  rw [← MatchOrders_insert h (o.pegged A) hf hgtc hnf]
  unfold OrderBook.opposite at hopp
  cases hs : o.side with
  | Buy =>
    simp only [hs, if_true] at hopp
    simp [AddOrder, hc, ht, rewriteMarket, hs, hopp, Order.ToGoodTillCancel_market]
  | Sell =>
    simp only [hs, reduceCtorEq, if_false] at hopp
    simp [AddOrder, hc, ht, rewriteMarket, hs, hopp, Order.ToGoodTillCancel_market]

theorem sweepLevel_trade_mem (l : Level) (o : Order) (t : Trade)
    (ht : t ∈ (sweepLevel o l).trades) : ∃ a ∈ l, ∃ q, t = Trade.between o a q := by
  obtain ⟨done, tail, h1, _, h3⟩ := sweepLevel_trades l o
  rcases h3 with ⟨_, _, h4⟩ | ⟨a, tl, q, h5, _, h4⟩
  · rw [h4] at ht
    obtain ⟨a, ha, rfl⟩ := List.mem_map.mp ht
    exact ⟨a, by rw [h1]; exact List.mem_append_left _ ha, _, rfl⟩
  · rw [h4] at ht
    rcases List.mem_append.mp ht with ht | ht
    · obtain ⟨a2, ha, rfl⟩ := List.mem_map.mp ht
      exact ⟨a2, by rw [h1]; exact List.mem_append_left _ ha, _, rfl⟩
    · simp only [List.mem_singleton] at ht
      exact ⟨a, by rw [h1, h5]; simp, q, ht⟩

/-- Every trade of a sweep is with a resting order whose price the incoming order crosses. -/
theorem sweepLadder_trade_mem (before : Int → Int → Prop) (side : Side) (L : Ladder) :
    ∀ (o : Order) (t : Trade), LadderOk before side L → t ∈ (sweepLadder o L).trades →
      ∃ a ∈ Ladder.all L, ∃ q, t = Trade.between o a q ∧ o.crosses a.price = true := by
  induction L with
  | nil => intro o t _ ht; simp [sweepLadder] at ht
  | cons x R ih =>
    obtain ⟨p, l⟩ := x
    intro o t hok ht
    simp only [sweepLadder] at ht
    split at ht
    · rename_i hc
      have hlevel : ∀ t ∈ (sweepLevel o l).trades,
          ∃ a ∈ Ladder.all ((p, l) :: R), ∃ q, t = Trade.between o a q ∧ o.crosses a.price = true := by
        intro t ht
        obtain ⟨a, ha, q, hq⟩ := sweepLevel_trade_mem l o t ht
        refine ⟨a, by simp [Ladder.all, ha], q, hq, ?_⟩
        rw [(hok.tagged (p, l) (List.mem_cons_self _ _) a ha).1]; exact hc
      cases hres : (sweepLevel o l).residual with
      | none =>
        rw [hres] at ht
        exact hlevel t ht
      | some o1 =>
        rw [hres] at ht
        have he := (sweepLevel_residual l o o1 hres).1
        simp only [List.mem_append] at ht
        rcases ht with ht | ht
        · exact hlevel t ht
        · obtain ⟨a, ha, q, hq, hcr⟩ := ih o1 t hok.tail ht
          refine ⟨a, by simp [Ladder.all, ha], q, ?_, ?_⟩
          · rw [hq]; exact Trade.between_congr o o1 a a q he rfl
          · rw [← Order.crosses_congr o o1 _ he]; exact hcr
    · simp at ht

theorem Ladder.first_level_only (before : Int → Int → Prop) (side : Side) (A : Int) (lvl : Level)
    (R : Ladder) (hok : LadderOk before side ((A, lvl) :: R)) (c : Int → Bool) (hA : c A = true)
    (hlater : ∀ y, before A y → c y = false) :
    (∀ a ∈ Ladder.all ((A, lvl) :: R), c a.price = true → a.price = A) ∧
    (Ladder.all ((A, lvl) :: R)).filter (fun a => c a.price) = lvl := by
  have hlvl : ∀ a ∈ lvl, a.price = A := fun a ha => (hok.tagged (A, lvl) (List.mem_cons_self _ _) a ha).1
  have hR : ∀ a ∈ Ladder.all R, c a.price = false := by
    intro a ha
    obtain ⟨x, hx, hax⟩ := (Ladder.mem_all R a).mp ha
    have hp := (hok.tagged x (List.mem_cons_of_mem _ hx) a hax).1
    have hs := hok.sorted
    simp only [Ladder.keys, List.map_cons, List.pairwise_cons] at hs
    rw [hp]
    exact hlater x.1 (hs.1 x.1 (List.mem_map.mpr ⟨x, hx, rfl⟩))
  constructor
  · intro a ha hc
    simp only [Ladder.all, List.mem_append] at ha
    rcases ha with ha | ha
    · exact hlvl a ha
    · rw [hR a ha] at hc; simp at hc
  · simp only [Ladder.all, List.filter_append]
    have h1 : lvl.filter (fun a => c a.price) = lvl := by
      rw [List.filter_eq_self]
      intro a ha
      rw [hlvl a ha]; exact hA
    have h2 : (Ladder.all R).filter (fun a => c a.price) = [] := by
      rw [List.filter_eq_nil_iff]
      intro a ha
      rw [hR a ha]; simp
    rw [h1, h2, List.append_nil]

/-- A Market order pegged at the first price of the opposite ladder crosses that level only. -/
theorem Order.pegged_crosses {b : OrderBook} (h : WellFormed b) (o : Order) (A : Int)
    (lvl : Level) (R : Ladder) (hopp : b.opposite o.side = (A, lvl) :: R) :
    (∀ a ∈ Ladder.all (b.opposite o.side), (o.pegged A).crosses a.price = true → a.price = A) ∧
    crossingVolume (o.pegged A) (b.opposite o.side) = volume lvl := by
  unfold crossingVolume
  rw [hopp]
  unfold OrderBook.opposite at hopp
  cases hs : o.side with
  | Buy =>
    simp only [hs, if_true] at hopp
    have hok := h.asks
    rw [hopp] at hok
    have := Ladder.first_level_only _ _ A lvl R hok (fun p => (o.pegged A).crosses p)
      (by simp [Order.crosses, Order.pegged]) (fun y hy => by
        simp only [Order.crosses, Order.pegged, hs, if_true, decide_eq_false_iff_not, not_le]
        exact hy)
    exact ⟨this.1, by rw [this.2]⟩
  | Sell =>
    simp only [hs, reduceCtorEq, if_false] at hopp
    have hok := h.bids
    rw [hopp] at hok
    have := Ladder.first_level_only _ _ A lvl R hok (fun p => (o.pegged A).crosses p)
      (by simp [Order.crosses, Order.pegged]) (fun y hy => by
        simp only [Order.crosses, Order.pegged, hs, reduceCtorEq, if_false,
          decide_eq_false_iff_not, not_le]
        exact hy)
    exact ⟨this.1, by rw [this.2]⟩

theorem OrderBook.admitted_trades (b : OrderBook) (o : Order) :
    (b.admitted o).2 = (sweepLadder o (b.opposite o.side)).trades := by
  unfold OrderBook.admitted OrderBook.opposite
  split <;> exact OrderBook.matched_trades b o

/-- C7. Market rewrite: for every reachable book with positive resting quantities (values of
a 32-bit integer) and every Market order with an id not in the index and quantity Q > 0
whose opposite ladder starts with the level of price A holding the total quantity T,
`AddOrder` admits the order as the GoodTillCancel order `o.pegged A`: every trade has bid
price and ask price A, the trade quantities sum to min(Q, T), and if Q > T what is left,
Q - T, rests at the tail of level A of the own side as a GoodTillCancel order and is indexed
as such, whatever further levels the opposite ladder holds. -/
theorem market_rewrite (b : OrderBook) (o : Order) (A : Int) (lvl : Level) (R : Ladder)
    (h : Reachable b) (hq : ∀ a ∈ b.resting, validQuantity a.remainingQuantity)
    (ht : o.orderType = OrderType.Market) (hf : b.orders.contains o.orderId = false)
    (hQ : validQuantity o.remainingQuantity) (hopp : b.opposite o.side = (A, lvl) :: R) :
    ∃ ts, (AddOrder b o).2 = .ok ts ∧
      (∀ t ∈ ts, t.bidTrade.price = A ∧ t.askTrade.price = A) ∧
      tradedQuantity ts = min o.remainingQuantity (volume lvl) ∧
      (volume lvl < o.remainingQuantity →
        (∃ lv, Ladder.at ((AddOrder b o).1.own o.side) A = some (lv ++
          [(o.pegged A).withRemaining (o.remainingQuantity - volume lvl)])) ∧
        ((o.pegged A).withRemaining (o.remainingQuantity - volume lvl)).orderType =
          OrderType.GoodTillCancel ∧
        (o.pegged A).entry ∈ (AddOrder b o).1.orders) := by
  have hinv := h.inv
  have hf2 : o.orderId ∉ b.orders.map OrderEntry.orderId := by
    rw [← Index.contains_iff, hf]; simp
  obtain ⟨hprice, hvol⟩ := Order.pegged_crosses hinv.toWellFormed o A lvl R hopp
  obtain ⟨f1, f2, _⟩ := OrderBook.admitted_fill hinv (o.pegged A) hf2 rfl hq hQ
  have hside : (o.pegged A).side = o.side := rfl
  have hrem : (o.pegged A).remainingQuantity = o.remainingQuantity := rfl
  have hpr : (o.pegged A).price = A := rfl
  rw [hside, hvol, hrem] at f1 f2
  rw [hpr] at f2
  rw [AddOrder_market hinv o hf2 ht A lvl R hopp]
  refine ⟨_, rfl, ?_, f1, fun hlt => ⟨(f2 hlt).1, rfl, (f2 hlt).2⟩⟩
  intro t htm
  rw [OrderBook.admitted_trades, hside] at htm
  obtain ⟨before, side, hok, _, _⟩ := LadderOk.opposite_buy_or_sell hinv.toWellFormed o
  obtain ⟨a, ha, q, rfl, hc⟩ := sweepLadder_trade_mem before side _ (o.pegged A) t hok htm
  have hpa := hprice a ha hc
  unfold Trade.between Trade.of
  split <;> simp [hpa, Order.pegged]

/-- The Market buy `sampleMarket` of 8 on `sampleBook`: pegged at 100, 5 filled, 3 rest at 100. -/
theorem market_rewrite_witness :
    ∃ ts, (AddOrder sampleBook sampleMarket).2 = .ok ts ∧
      (∀ t ∈ ts, t.bidTrade.price = 100 ∧ t.askTrade.price = 100) ∧
      tradedQuantity ts = min sampleMarket.remainingQuantity
        (volume [Order.new OrderType.GoodTillCancel 1 Side.Sell 100 5]) ∧
      (volume [Order.new OrderType.GoodTillCancel 1 Side.Sell 100 5] <
          sampleMarket.remainingQuantity →
        (∃ lv, Ladder.at ((AddOrder sampleBook sampleMarket).1.own sampleMarket.side) 100 =
          some (lv ++ [(sampleMarket.pegged 100).withRemaining (sampleMarket.remainingQuantity -
            volume [Order.new OrderType.GoodTillCancel 1 Side.Sell 100 5])])) ∧
        ((sampleMarket.pegged 100).withRemaining (sampleMarket.remainingQuantity -
          volume [Order.new OrderType.GoodTillCancel 1 Side.Sell 100 5])).orderType =
          OrderType.GoodTillCancel ∧
        (sampleMarket.pegged 100).entry ∈ (AddOrder sampleBook sampleMarket).1.orders) :=
  market_rewrite sampleBook sampleMarket 100 [Order.new OrderType.GoodTillCancel 1 Side.Sell 100 5]
    [(101, [Order.new OrderType.GoodTillCancel 2 Side.Sell 101 5])]
    Reachable.sample (by decide) rfl (by decide) (by decide) (by decide)

theorem Trade.resting_between (o a : Order) (q : Int) :
    Trade.resting o.side (Trade.between o a q) =
      { orderId := a.orderId, price := a.price, quantity := q } := by
  unfold Trade.resting Trade.between Trade.of
  split <;> rfl

theorem matchLevel_nil_left (fuel : Nat) (l : Level) (idx : Index) (ts : List Trade) :
    matchLevel fuel [] l idx ts = ([], l, idx, ts, none) := by
  cases fuel <;> simp [matchLevel]

theorem Order.fill_min_left (bid ask : Order) :
    bid.fill (min bid.remainingQuantity ask.remainingQuantity) =
      .ok (bid.filledBy (min bid.remainingQuantity ask.remainingQuantity)) := by
  unfold Order.fill Order.filledBy
  rw [if_neg (by have := min_le_left bid.remainingQuantity ask.remainingQuantity; omega)]

theorem Order.fill_min_right (bid ask : Order) :
    ask.fill (min bid.remainingQuantity ask.remainingQuantity) =
      .ok (ask.filledBy (min bid.remainingQuantity ask.remainingQuantity)) := by
  unfold Order.fill Order.filledBy
  rw [if_neg (by have := min_le_right bid.remainingQuantity ask.remainingQuantity; omega)]

theorem matchLevel_step (fuel : Nat) (bid : Order) (bids : Level) (ask : Order) (asks : Level)
    (idx : Index) (ts : List Trade) :
    matchLevel (fuel + 1) (bid :: bids) (ask :: asks) idx ts =
      matchLevel fuel (matchStep bid bids ask asks idx).1 (matchStep bid bids ask asks idx).2.1
        (matchStep bid bids ask asks idx).2.2.1 (ts ++ [(matchStep bid bids ask asks idx).2.2.2]) := by
  rw [matchLevel]
  simp only [Order.fill_min_left, Order.fill_min_right]
  rfl

theorem Order.one_filled (bid ask : Order) :
    (bid.filledBy (min bid.remainingQuantity ask.remainingQuantity)).isFilled = true ∨
    (ask.filledBy (min bid.remainingQuantity ask.remainingQuantity)).isFilled = true := by
  by_cases h : (bid.filledBy (min bid.remainingQuantity ask.remainingQuantity)).isFilled = true
  · exact Or.inl h
  · exact Or.inr (Order.filledBy_min bid ask h)

/-- An iteration of the inner loop pops the front of one of the two queues. -/
theorem matchStep_pops (bid : Order) (bids : Level) (ask : Order) (asks : Level) (idx : Index) :
    ((matchStep bid bids ask asks idx).1 = bids ∨ (matchStep bid bids ask asks idx).2.1 = asks) ∧
    (matchStep bid bids ask asks idx).1.length ≤ bids.length + 1 ∧
    (matchStep bid bids ask asks idx).2.1.length ≤ asks.length + 1 ∧
    (matchStep bid bids ask asks idx).1.length + (matchStep bid bids ask asks idx).2.1.length
      < (bid :: bids).length + (ask :: asks).length := by
  simp only [matchStep, List.length_cons]
  rcases Order.one_filled bid ask with h | h
  · rw [if_pos h]
    refine ⟨Or.inl rfl, by omega, ?_, ?_⟩ <;> split <;> first | omega | (simp only [List.length_cons]; omega)
  · rw [if_pos h]
    refine ⟨Or.inr rfl, ?_, by omega, ?_⟩ <;> split <;> first | omega | (simp only [List.length_cons]; omega)

/-- With as much fuel as there are orders in the two queues the inner loop ends without a
fault, one of the queues is then empty, and more fuel does not change the result. -/
theorem matchLevel_total : ∀ (fuel : Nat) (bids asks : Level) (idx : Index) (ts : List Trade),
    bids.length + asks.length ≤ fuel →
    (matchLevel fuel bids asks idx ts).2.2.2.2 = none ∧
    ((matchLevel fuel bids asks idx ts).1 = [] ∨ (matchLevel fuel bids asks idx ts).2.1 = []) ∧
    (matchLevel fuel bids asks idx ts).1.length ≤ bids.length ∧
    (matchLevel fuel bids asks idx ts).2.1.length ≤ asks.length ∧
    ∀ fuel2, bids.length + asks.length ≤ fuel2 →
      matchLevel fuel2 bids asks idx ts = matchLevel fuel bids asks idx ts := by
  intro fuel
  induction fuel with
  | zero =>
    intro bids asks idx ts h
    have hb : bids = [] := List.length_eq_zero.mp (by omega)
    subst hb
    simp [matchLevel_nil_left]
  | succ n ih =>
    intro bids asks idx ts h
    cases bids with
    | nil => simp [matchLevel_nil_left]
    | cons bid bids =>
      cases asks with
      | nil => simp [matchLevel_nil_right]
      | cons ask asks =>
        have hp := matchStep_pops bid bids ask asks idx
        rw [matchLevel_step]
        have hn : (matchStep bid bids ask asks idx).1.length +
            (matchStep bid bids ask asks idx).2.1.length ≤ n := by
          have := hp.2.2.2; simp only [List.length_cons] at this h; omega
        obtain ⟨i1, i2, i3, i4, i5⟩ := ih _ _ (matchStep bid bids ask asks idx).2.2.1
          (ts ++ [(matchStep bid bids ask asks idx).2.2.2]) hn
        refine ⟨i1, i2, ?_, ?_, ?_⟩
        · simp only [List.length_cons]; exact i3.trans hp.2.1
        · simp only [List.length_cons]; exact i4.trans hp.2.2.1
        · intro fuel2 h2
          cases fuel2 with
          | zero => simp at h2
          | succ m =>
            rw [matchLevel_step]
            exact i5 m (by have := hp.2.2.2; simp only [List.length_cons] at this h2; omega)

theorem matchLoop_stop_left (fuel : Nat) (asks : Ladder) (idx : Index) (ts : List Trade) :
    matchLoop fuel { bids := [], asks := asks, orders := idx } ts =
      ({ bids := [], asks := asks, orders := idx }, .ok ts) := by
  unfold matchLoop; rfl

theorem matchLoop_stop_right (fuel : Nat) (bids : Ladder) (idx : Index) (ts : List Trade) :
    matchLoop fuel { bids := bids, asks := [], orders := idx } ts =
      ({ bids := bids, asks := [], orders := idx }, .ok ts) := by
  unfold matchLoop; cases bids <;> rfl

theorem matchLoop_stop_price (fuel : Nat) (bp ap : Int) (bids asks : Level) (rb ra : Ladder)
    (idx : Index) (ts : List Trade) (h : bp < ap) :
    matchLoop fuel { bids := (bp, bids) :: rb, asks := (ap, asks) :: ra, orders := idx } ts =
      ({ bids := (bp, bids) :: rb, asks := (ap, asks) :: ra, orders := idx }, .ok ts) := by
  unfold matchLoop; simp only [if_pos h]

theorem matchLoop_step (fuel : Nat) (bp ap : Int) (bids asks : Level) (rb ra : Ladder)
    (idx : Index) (ts : List Trade) (h : ¬ bp < ap) :
    matchLoop (fuel + 1)
        { bids := (bp, bids) :: rb, asks := (ap, asks) :: ra, orders := idx } ts =
      matchLoop fuel (loopStep bp ap bids asks rb ra idx ts).1
        (loopStep bp ap bids asks rb ra idx ts).2 := by
  have ht := (matchLevel_total (bids.length + asks.length) bids asks idx ts (le_refl _)).1
  rw [matchLoop]
  simp only [if_neg h]
  generalize hr : matchLevel (bids.length + asks.length) bids asks idx ts = r at ht
  obtain ⟨r1, r2, r3, r4, r5⟩ := r
  simp only at ht
  subst ht
  simp only [loopStep, hr]

theorem loopStep_shrinks (bp ap : Int) (bids asks : Level) (rb ra : Ladder) (idx : Index)
    (ts : List Trade) :
    (loopStep bp ap bids asks rb ra idx ts).1.bids.length +
      (loopStep bp ap bids asks rb ra idx ts).1.asks.length < rb.length + 1 + (ra.length + 1) := by
  have ht := (matchLevel_total (bids.length + asks.length) bids asks idx ts (le_refl _)).2.1
  simp only [loopStep]
  generalize matchLevel (bids.length + asks.length) bids asks idx ts = r at ht
  by_cases h1 : r.1.isEmpty = true <;> by_cases h2 : r.2.1.isEmpty = true
  · simp only [h1, h2, if_true, Ladder.erase]; omega
  · simp only [h1, h2, if_true, Ladder.erase, List.length_cons]; simp
  · simp only [h1, h2, if_true, Ladder.erase, List.length_cons]; simp
  · rcases ht with h | h
    · rw [h] at h1; simp at h1
    · rw [h] at h2; simp at h2

/-- With as much fuel as there are levels in the two ladders the outer loop returns its
trades, and more fuel does not change the result. -/
theorem matchLoop_total : ∀ (fuel : Nat) (b : OrderBook) (ts : List Trade),
    b.bids.length + b.asks.length ≤ fuel →
    (∃ trades, (matchLoop fuel b ts).2 = .ok trades) ∧
    ∀ fuel2, b.bids.length + b.asks.length ≤ fuel2 → matchLoop fuel2 b ts = matchLoop fuel b ts := by
  intro fuel
  induction fuel with
  | zero =>
    intro b ts h
    obtain ⟨bids, asks, idx⟩ := b
    have hb : bids = [] := List.length_eq_zero.mp (by simp only at h; omega)
    subst hb
    simp [matchLoop_stop_left]
  | succ n ih =>
    intro b ts h
    obtain ⟨bids, asks, idx⟩ := b
    cases bids with
    | nil => simp [matchLoop_stop_left]
    | cons x rb =>
      cases asks with
      | nil => simp [matchLoop_stop_right]
      | cons y ra =>
        obtain ⟨bp, bids⟩ := x
        obtain ⟨ap, asks⟩ := y
        by_cases hc : bp < ap
        · simp [matchLoop_stop_price _ _ _ _ _ _ _ _ _ hc]
        · have hs := loopStep_shrinks bp ap bids asks rb ra idx ts
          simp only [List.length_cons] at h
          rw [matchLoop_step _ _ _ _ _ _ _ _ _ hc]
          obtain ⟨i1, i2⟩ := ih (loopStep bp ap bids asks rb ra idx ts).1
            (loopStep bp ap bids asks rb ra idx ts).2 (by omega)
          refine ⟨i1, ?_⟩
          intro fuel2 h2
          simp only [List.length_cons] at h2
          cases fuel2 with
          | zero => omega
          | succ m =>
            rw [matchLoop_step _ _ _ _ _ _ _ _ _ hc]
            exact i2 m (by omega)

theorem CancelOrder_no_fuel (b : OrderBook) (id : OrderId) :
    (CancelOrder b id).2 = .ok () ∨ (CancelOrder b id).2 = .error Fault.outOfRange := by
  unfold CancelOrder
  cases b.orders.lookup id with
  | none => exact Or.inl rfl
  | some e =>
    simp only
    by_cases hs : e.side = Side.Sell
    · rw [if_pos hs]
      cases Ladder.at b.asks e.price with
      | none => exact Or.inr rfl
      | some l => simp only; split <;> exact Or.inl rfl
    · rw [if_neg hs]
      cases Ladder.at b.bids e.price with
      | none => exact Or.inr rfl
      | some l => simp only; split <;> exact Or.inl rfl

theorem sweepFillAndKill_no_fuel (b : OrderBook) (l : Ladder) :
    (sweepFillAndKill b l).2 = .ok () ∨ (sweepFillAndKill b l).2 = .error Fault.outOfRange := by
  unfold sweepFillAndKill
  split
  · split
    · exact CancelOrder_no_fuel _ _
    · exact Or.inl rfl
  · exact Or.inl rfl

theorem MatchOrders_no_fuel (b : OrderBook) : (MatchOrders b).2 ≠ .error Fault.fuel := by
  obtain ⟨ts, hts⟩ := (matchLoop_total _ b [] (le_refl _)).1
  unfold MatchOrders
  generalize hr : matchLoop (b.bids.length + b.asks.length) b [] = r at hts
  obtain ⟨b1, r1⟩ := r
  simp only at hts
  subst hts
  simp only
  have h1 := sweepFillAndKill_no_fuel b1 b1.bids
  generalize sweepFillAndKill b1 b1.bids = r2 at h1
  obtain ⟨b2, r2⟩ := r2
  rcases h1 with h1 | h1
  · simp only at h1; subst h1
    simp only
    have h3 := sweepFillAndKill_no_fuel b2 b2.asks
    generalize sweepFillAndKill b2 b2.asks = r3 at h3
    obtain ⟨b3, r3⟩ := r3
    rcases h3 with h3 | h3
    · simp only at h3; subst h3; simp
    · simp only at h3; subst h3; simp
  · simp only at h1; subst h1; simp

/-- A property of every trade the matcher writes holds of every trade the inner loop returns. -/
theorem matchLevel_trades_all (P : Trade → Prop) (hP : ∀ bid ask q, P (Trade.of bid ask q)) :
    ∀ (fuel : Nat) (bids asks : Level) (idx : Index) (ts : List Trade),
    (∀ t ∈ ts, P t) → ∀ t ∈ (matchLevel fuel bids asks idx ts).2.2.2.1, P t := by
  intro fuel
  induction fuel with
  | zero =>
    intro bids asks idx ts h
    cases bids with
    | nil => simpa [matchLevel_nil_left] using h
    | cons bid bids =>
      cases asks with
      | nil => simpa [matchLevel_nil_right] using h
      | cons ask asks => simpa [matchLevel] using h
  | succ n ih =>
    intro bids asks idx ts h
    cases bids with
    | nil => simpa [matchLevel_nil_left] using h
    | cons bid bids =>
      cases asks with
      | nil => simpa [matchLevel_nil_right] using h
      | cons ask asks =>
        rw [matchLevel_step]
        apply ih
        intro t ht
        rcases List.mem_append.mp ht with h1 | h1
        · exact h t h1
        · rw [List.mem_singleton] at h1
          subst h1
          exact hP _ _ _

theorem matchLoop_trades_all (P : Trade → Prop) (hP : ∀ bid ask q, P (Trade.of bid ask q)) :
    ∀ (fuel : Nat) (b : OrderBook) (ts : List Trade),
    (∀ t ∈ ts, P t) → ∀ trades, (matchLoop fuel b ts).2 = .ok trades → ∀ t ∈ trades, P t := by
  intro fuel
  induction fuel with
  | zero =>
    intro b ts h trades hr
    obtain ⟨bids, asks, idx⟩ := b
    cases bids with
    | nil => rw [matchLoop_stop_left] at hr; cases hr; exact h
    | cons x rb =>
      cases asks with
      | nil => rw [matchLoop_stop_right] at hr; cases hr; exact h
      | cons y ra =>
        obtain ⟨bp, bids⟩ := x
        obtain ⟨ap, asks⟩ := y
        by_cases hc : bp < ap
        · rw [matchLoop_stop_price _ _ _ _ _ _ _ _ _ hc] at hr; cases hr; exact h
        · rw [matchLoop] at hr; simp only [if_neg hc] at hr; cases hr
  | succ n ih =>
    intro b ts h trades hr
    obtain ⟨bids, asks, idx⟩ := b
    cases bids with
    | nil => rw [matchLoop_stop_left] at hr; cases hr; exact h
    | cons x rb =>
      cases asks with
      | nil => rw [matchLoop_stop_right] at hr; cases hr; exact h
      | cons y ra =>
        obtain ⟨bp, bids⟩ := x
        obtain ⟨ap, asks⟩ := y
        by_cases hc : bp < ap
        · rw [matchLoop_stop_price _ _ _ _ _ _ _ _ _ hc] at hr; cases hr; exact h
        · rw [matchLoop_step _ _ _ _ _ _ _ _ _ hc] at hr
          exact ih _ _ (matchLevel_trades_all P hP _ _ _ _ _ h) trades hr

/-- The trades `MatchOrders` returns are those of its outer loop. -/
theorem MatchOrders_trades (b : OrderBook) (ts : List Trade) (h : (MatchOrders b).2 = .ok ts) :
    (matchLoop (b.bids.length + b.asks.length) b []).2 = .ok ts := by
  unfold MatchOrders at h
  generalize matchLoop (b.bids.length + b.asks.length) b [] = r at h
  obtain ⟨b1, r1⟩ := r
  cases r1 with
  | error e => simp at h
  | ok trades =>
    simp only at h
    generalize sweepFillAndKill b1 b1.bids = r2 at h
    obtain ⟨b2, r2⟩ := r2
    cases r2 with
    | error e => simp at h
    | ok u =>
      simp only at h
      generalize sweepFillAndKill b2 b2.asks = r3 at h
      obtain ⟨b3, r3⟩ := r3
      cases r3 with
      | error e => simp at h
      | ok u => simpa using h

theorem AddOrder_trades_all (P : Trade → Prop) (hP : ∀ bid ask q, P (Trade.of bid ask q))
    (b : OrderBook) (o : Order) (ts : List Trade) (h : (AddOrder b o).2 = .ok ts) :
    ∀ t ∈ ts, P t := by
  unfold AddOrder at h
  split at h
  · cases h; simp
  · split at h
    · cases h; simp
    · split at h
      · simp at h
      · exact matchLoop_trades_all P hP _ _ [] (by simp) ts (MatchOrders_trades _ _ h)

theorem MatchOrder_trades_all (P : Trade → Prop) (hP : ∀ bid ask q, P (Trade.of bid ask q))
    (b : OrderBook) (m : OrderModify) (ty : OrderType) (ts : List Trade)
    (h : (MatchOrder b m ty).2 = .ok ts) : ∀ t ∈ ts, P t := by
  unfold MatchOrder at h
  split at h
  · cases h; simp
  · split at h
    · simp at h
    · exact AddOrder_trades_all P hP _ _ ts h

/-- C20 (matcher termination): for every book, whatever its quantities, `MatchOrders` ends:
its outer loop returns a trade list with the budget of one iteration per level, its inner
loop ends without a fault with the budget of one iteration per order of the two front
levels, a larger budget changes neither result, and every iteration of the inner loop on
two non-empty queues pops the front of the bid queue or the front of the ask queue, so that
the number of queued orders goes down. -/
theorem matcher_terminates (b : OrderBook) :
    (MatchOrders b).2 ≠ .error Fault.fuel ∧
    (∃ trades, (matchLoop (b.bids.length + b.asks.length) b []).2 = .ok trades) ∧
    (∀ fuel, b.bids.length + b.asks.length ≤ fuel →
      matchLoop fuel b [] = matchLoop (b.bids.length + b.asks.length) b []) ∧
    (∀ (bids asks : Level) (idx : Index) (ts : List Trade) (fuel : Nat),
      bids.length + asks.length ≤ fuel →
      matchLevel fuel bids asks idx ts = matchLevel (bids.length + asks.length) bids asks idx ts ∧
      (matchLevel fuel bids asks idx ts).2.2.2.2 = none) ∧
    (∀ (bid : Order) (bids : Level) (ask : Order) (asks : Level) (idx : Index)
        (ts : List Trade) (fuel : Nat),
      matchLevel (fuel + 1) (bid :: bids) (ask :: asks) idx ts =
        matchLevel fuel (matchStep bid bids ask asks idx).1 (matchStep bid bids ask asks idx).2.1
          (matchStep bid bids ask asks idx).2.2.1
          (ts ++ [(matchStep bid bids ask asks idx).2.2.2]) ∧
      ((matchStep bid bids ask asks idx).1 = bids ∨ (matchStep bid bids ask asks idx).2.1 = asks) ∧
      (matchStep bid bids ask asks idx).1.length + (matchStep bid bids ask asks idx).2.1.length
        < (bid :: bids).length + (ask :: asks).length) := by
  refine ⟨MatchOrders_no_fuel b, (matchLoop_total _ b [] (le_refl _)).1,
    fun fuel h => (matchLoop_total _ b [] (le_refl _)).2 fuel h, ?_, ?_⟩
  · intro bids asks idx ts fuel h
    have h1 := matchLevel_total _ bids asks idx ts (le_refl _)
    have h2 := h1.2.2.2.2 fuel h
    exact ⟨h2, by rw [h2]; exact h1.1⟩
  · intro bid bids ask asks idx ts fuel
    have hp := matchStep_pops bid bids ask asks idx
    exact ⟨matchLevel_step _ _ _ _ _ _ _, hp.1, hp.2.2.2⟩

/-- C17 (no empty levels): in every reachable book each price level of the bid ladder and of
the ask ladder holds at least one order. -/
theorem no_empty_level (b : OrderBook) (h : Reachable b) :
    (∀ x ∈ b.bids, x.2 ≠ []) ∧ (∀ x ∈ b.asks, x.2 ≠ []) :=
  ⟨h.inv.bids.nonempty, h.inv.asks.nonempty⟩

theorem no_empty_level_witness :
    Reachable sampleBook ∧ (∀ x ∈ sampleBook.bids, x.2 ≠ []) ∧ (∀ x ∈ sampleBook.asks, x.2 ≠ []) :=
  ⟨Reachable.sample, no_empty_level sampleBook Reachable.sample⟩

theorem Ladder.level_sublist (l : Ladder) (x : Int × Level) (hx : x ∈ l) :
    x.2.Sublist (Ladder.all l) := by
  induction l with
  | nil => simp at hx
  | cons y t ih =>
    obtain ⟨q, lq⟩ := y
    rcases List.mem_cons.mp hx with h | h
    · subst h; exact List.sublist_append_left _ _
    · exact (ih h).trans (List.sublist_append_right _ _)

/-- In a well-formed book a resting order is found at the level of its price in the ladder of
its side, once. -/
theorem WellFormed.located {b : OrderBook} (h : WellFormed b) (o : Order) (ho : o ∈ b.resting) :
    ∃ lv, Ladder.at (b.own o.side) o.price = some lv ∧ lv.count o = 1 ∧ b.resting.count o = 1 := by
  have hnd : b.resting.Nodup := List.Nodup.of_map _ h.ids
  have hc : b.resting.count o = 1 := List.count_eq_one_of_mem hnd ho
  have key : ∀ lv : List Order, lv.Sublist b.resting → o ∈ lv → lv.count o = 1 := by
    intro lv hsub hmem
    have h1 : lv.count o ≤ 1 := hc ▸ hsub.count_le o
    have h2 : 0 < lv.count o := List.count_pos_iff.mpr hmem
    omega
  simp only [OrderBook.resting, List.mem_append] at ho
  rcases ho with ho | ho
  · obtain ⟨x, hx, hox⟩ := (Ladder.mem_all _ _).mp ho
    obtain ⟨hp, hs⟩ := h.bids.tagged x hx o hox
    refine ⟨x.2, ?_, key _ ((Ladder.level_sublist _ x hx).trans (List.sublist_append_left _ _)) hox, hc⟩
    simp only [OrderBook.own, hs, if_true, hp]
    exact Ladder.at_of_mem (fun x y => x > y) (fun x => lt_irrefl x) _ h.bids.sorted x.1 x.2 hx
  · obtain ⟨x, hx, hox⟩ := (Ladder.mem_all _ _).mp ho
    obtain ⟨hp, hs⟩ := h.asks.tagged x hx o hox
    refine ⟨x.2, ?_, key _ ((Ladder.level_sublist _ x hx).trans (List.sublist_append_right _ _)) hox, hc⟩
    simp only [OrderBook.own, hs, hp]
    exact Ladder.at_of_mem (fun x y => x < y) (fun x => lt_irrefl x) _ h.asks.sorted x.1 x.2 hx

/-- C16 (index-ladder consistency): in every reachable book the ids of the orders held in
the ladders are the ids of the index; every index entry is the entry of a held order with
that id, which lies at the level keyed by its own price in the ladder of its own side, once
in that level and once in the whole book; and `Size` is the number of orders held in the
levels of the two ladders. -/
theorem index_ladder_consistent (b : OrderBook) (h : Reachable b) :
    (∀ id, (∃ o ∈ b.resting, o.orderId = id) ↔ b.orders.contains id = true) ∧
    (∀ e ∈ b.orders, ∃ o lv, o.entry = e ∧ o.orderId = e.orderId ∧
      Ladder.at (b.own o.side) o.price = some lv ∧ lv.count o = 1 ∧ b.resting.count o = 1 ∧
      (b.resting.map Order.orderId).count e.orderId = 1 ∧
      (b.orders.map OrderEntry.orderId).count e.orderId = 1) ∧
    b.Size = b.bids.all.length + b.asks.all.length := by
  have hw := h.inv.toWellFormed
  refine ⟨?_, ?_, ?_⟩
  · intro id
    rw [Index.contains_iff, hw.index_iff]
    simp only [List.mem_map]
  · intro e he
    obtain ⟨o, ho, hoe⟩ := List.mem_map.mp ((hw.index e).mp he)
    obtain ⟨lv, h1, h2, h3⟩ := hw.located o ho
    have hid : o.orderId = e.orderId := by rw [← hoe]; rfl
    refine ⟨o, lv, hoe, hid, h1, h2, h3, ?_, ?_⟩
    · exact List.count_eq_one_of_mem hw.ids (List.mem_map.mpr ⟨o, ho, hid⟩)
    · exact List.count_eq_one_of_mem hw.index_ids (List.mem_map.mpr ⟨e, he, rfl⟩)
  · have := hw.size
    simp only [OrderBook.resting, List.length_append] at this
    exact this

theorem index_ladder_consistent_witness :
    Reachable sampleBook ∧ sampleBook.Size = sampleBook.bids.all.length + sampleBook.asks.all.length :=
  ⟨Reachable.sample, (index_ladder_consistent sampleBook Reachable.sample).2.2⟩

/-- The modify of an order that is resting, on a well-formed book, when the type `t` is
read for the new order. -/
theorem MatchOrder_eq {b : OrderBook} (h : WellFormed b) (m : OrderModify) (t : OrderType)
    (a : Order) (ha : a ∈ b.resting) (hid : a.orderId = m.orderId) :
    b.orders.lookup m.orderId = some a.entry ∧
    MatchOrder b m t = AddOrder (b.without m.orderId)
      (Order.new t m.orderId m.side m.price m.quantity) := by
  have hae : a.entry ∈ b.orders := (h.index _).mpr (List.mem_map.mpr ⟨a, ha, rfl⟩)
  have hl : b.orders.lookup m.orderId = some a.entry := by
    cases hlk : b.orders.lookup m.orderId with
    | none =>
      exact absurd (List.mem_map.mpr ⟨a.entry, hae, hid⟩) ((Index.lookup_eq_none _ _).mp hlk)
    | some e =>
      obtain ⟨he, heid⟩ := Index.lookup_some _ _ _ hlk
      have : e = a.entry :=
        List.inj_on_of_nodup_map h.index_ids he hae (by rw [heid]; exact hid.symm)
      rw [this]
  refine ⟨hl, ?_⟩
  unfold MatchOrder
  rw [hl, CancelOrder_eq h]
  rfl

/-- The modify of the embedding on a reachable book, when the type `t` is read for the new
order: if the id is not in the index the book is unchanged and the trade list is empty; if
the id is that of a resting order, the cancel of the id returns normally and the book and
the outcome of the modify are those of `AddOrder`, on the book the cancel leaves, of the new
order that has the type `t` and the id, side, price and quantity of the request, its initial
and remaining quantity both being the quantity of the request. -/
theorem modify_cancel_then_add (b : OrderBook) (m : OrderModify) (t : OrderType)
    (h : Reachable b) :
    (b.orders.contains m.orderId = false → MatchOrder b m t = (b, .ok [])) ∧
    (b.orders.contains m.orderId = true → ∃ a ∈ b.resting, a.orderId = m.orderId) ∧
    (∀ a ∈ b.resting, a.orderId = m.orderId →
      (CancelOrder b m.orderId).2 = .ok () ∧
      MatchOrder b m t = AddOrder (CancelOrder b m.orderId).1
        { orderType := t, orderId := m.orderId, side := m.side, price := m.price,
          initialQuantity := m.quantity, remainingQuantity := m.quantity }) := by
  have hw := h.inv.toWellFormed
  refine ⟨?_, ?_, ?_⟩
  · intro hc
    have hn : m.orderId ∉ b.orders.map OrderEntry.orderId := by
      rw [← Index.contains_iff, hc]; simp
    unfold MatchOrder
    rw [(Index.lookup_eq_none _ _).mpr hn]
  · intro hc
    have := (hw.index_iff _).mp ((Index.contains_iff _ _).mp hc)
    obtain ⟨a, ha, hid⟩ := List.mem_map.mp this
    exact ⟨a, ha, hid⟩
  · intro a ha hid
    rw [CancelOrder_eq hw]
    exact ⟨rfl, (MatchOrder_eq hw m t a ha hid).2⟩

/-- The order 1 of `sampleBook`, a sell of 5 at 100, is modified into a buy of 7 at 98, the
type read being GoodTillCancel. -/
theorem modify_cancel_then_add_sample :
    MatchOrder sampleBook (OrderModify.mk 1 Side.Buy 98 7) OrderType.GoodTillCancel =
      AddOrder (CancelOrder sampleBook 1).1
        (Order.new OrderType.GoodTillCancel 1 Side.Buy 98 7) :=
  ((modify_cancel_then_add sampleBook (OrderModify.mk 1 Side.Buy 98 7)
    OrderType.GoodTillCancel Reachable.sample).2.2
    (Order.new OrderType.GoodTillCancel 1 Side.Sell 100 5) (by decide) rfl).2

theorem Ladder.at_without (l : Ladder) (id : OrderId) (p : Int) (lv : Level)
    (h : Ladder.at l p = some lv) (hne : lv.filter (fun o => o.orderId != id) ≠ []) :
    Ladder.at (Ladder.without l id) p = some (lv.filter (fun o => o.orderId != id)) := by
  induction l with
  | nil => simp [Ladder.at] at h
  | cons x t ih =>
    obtain ⟨q, lq⟩ := x
    unfold Ladder.without at ih ⊢
    rw [List.filterMap_cons]
    simp only [Ladder.at] at h
    by_cases hq : q = p
    · rw [if_pos hq] at h
      have hlq : lq = lv := Option.some.inj h
      rw [hlq]
      have : ¬ (lv.filter (fun o => o.orderId != id)).isEmpty = true := by
        rw [List.isEmpty_iff]; exact hne
      simp only [this, if_false, Ladder.at, hq, if_true]
    · rw [if_neg hq] at h
      by_cases he : (lq.filter (fun o => o.orderId != id)).isEmpty = true
      · simp only [he, if_true]
        exact ih h
      · simp only [he, if_false, Ladder.at, hq]
        exact ih h

theorem Ladder.at_push_at (R : Int → Int → Prop) (bf : Int → Int → Bool)
    (hbf : ∀ x y, bf x y = true ↔ R x y) (hasym : ∀ x y, R x y → ¬ R y x)
    (l : Ladder) (hs : l.keys.Pairwise R) (o : Order) (lv : Level)
    (h : Ladder.at l o.price = some lv) :
    Ladder.at (Ladder.push bf l o) o.price = some (lv ++ [o]) := by
  induction l with
  | nil => simp [Ladder.at] at h
  | cons x t ih =>
    obtain ⟨q, lq⟩ := x
    simp only [Ladder.keys, List.map_cons, List.pairwise_cons] at hs
    simp only [Ladder.at] at h
    by_cases hq : q = o.price
    · rw [if_pos hq] at h
      cases h
      simp only [Ladder.push, hq, if_true, Ladder.at]
    · rw [if_neg hq] at h
      have hmem : o.price ∈ Ladder.keys t :=
        List.mem_map.mpr ⟨(o.price, lv), Ladder.at_some_mem _ _ _ h, rfl⟩
      have hR : R q o.price := hs.1 _ hmem
      have hnb : ¬ bf o.price q = true := fun hb => hasym _ _ hR ((hbf _ _).mp hb)
      simp only [Ladder.push, hq, if_false, hnb, Ladder.at]
      exact ih hs.2 h

/-- The ladder of the own side after an order that does not cross has been admitted. -/
theorem OrderBook.matched_nocross (b : OrderBook) (o : Order)
    (h : ∀ y ∈ (b.opposite o.side).keys, o.crosses y = false) :
    (b.matched o).2 = [] ∧
    (b.matched o).1.own o.side =
      Ladder.push (if o.side = Side.Buy then (fun x y => decide (x > y))
        else (fun x y => decide (x < y))) (b.own o.side) o ∧
    (b.matched o).1.opposite o.side = b.opposite o.side := by
  cases hs : o.side with
  | Buy =>
    simp only [OrderBook.opposite, hs, if_true] at h
    simp only [OrderBook.matched, hs, if_true, sweepLadder_nocross _ _ h, OrderBook.own,
      OrderBook.opposite]
    exact ⟨trivial, trivial, trivial⟩
  | Sell =>
    have hsne : ¬ (Side.Sell = Side.Buy) := by decide
    simp only [OrderBook.opposite, hs, hsne, if_false] at h
    simp only [OrderBook.matched, hs, hsne, if_false, sweepLadder_nocross _ _ h, OrderBook.own,
      OrderBook.opposite]
    exact ⟨trivial, trivial, trivial⟩

theorem OrderBook.own_without (b : OrderBook) (id : OrderId) (side : Side) :
    (b.without id).own side = Ladder.without (b.own side) id := by
  unfold OrderBook.own OrderBook.without; split <;> rfl

theorem OrderBook.opposite_without (b : OrderBook) (id : OrderId) (side : Side) :
    (b.without id).opposite side = Ladder.without (b.opposite side) id := by
  unfold OrderBook.opposite OrderBook.without; split <;> rfl

theorem OrderBook.own_sublist (b : OrderBook) (side : Side) :
    (Ladder.all (b.own side)).Sublist b.resting := by
  unfold OrderBook.own OrderBook.resting
  split
  · exact List.sublist_append_left _ _
  · exact List.sublist_append_right _ _

/-- The order `a`, resting in a level that holds other orders, is modified at its own side
and price, and the type read for the new order is GoodTillCancel, the type of every resting
order: nothing trades and the new order stands behind the other orders of the level. -/
theorem MatchOrder_requeue {b : OrderBook} (h : Inv b) (a : Order) (lv : Level) (qty : Int)
    (hat : Ladder.at (b.own a.side) a.price = some lv) (ha : a ∈ lv) (hne : lv.erase a ≠ []) :
    (MatchOrder b (OrderModify.mk a.orderId a.side a.price qty)
      OrderType.GoodTillCancel).2
      = .ok [] ∧
    Ladder.at ((MatchOrder b (OrderModify.mk a.orderId a.side a.price qty)
      OrderType.GoodTillCancel).1.own a.side) a.price =
      some (lv.erase a ++ [Order.new OrderType.GoodTillCancel a.orderId a.side a.price qty]) := by
  have hw := h.toWellFormed
  have hlvmem := Ladder.at_some_mem _ _ _ hat
  have hsub : lv.Sublist b.resting :=
    (Ladder.level_sublist _ _ hlvmem).trans (OrderBook.own_sublist b a.side)
  have har : a ∈ b.resting := hsub.subset ha
  have hnd : (lv.map Order.orderId).Nodup := (hw.ids).sublist (hsub.map _)
  have hfilter : lv.filter (fun o => o.orderId != a.orderId) = lv.erase a :=
    erase_eq_filter_id lv a ha hnd
  have hkey : a.price ∈ Ladder.keys (b.own a.side) := List.mem_map.mpr ⟨_, hlvmem, rfl⟩
  have hinv1 := h.without_inv a.orderId
  set o1 := Order.new OrderType.GoodTillCancel a.orderId a.side a.price qty with ho1
  have hm := (MatchOrder_eq hw (OrderModify.mk a.orderId a.side a.price qty)
    OrderType.GoodTillCancel a har rfl).2
  have hf : o1.orderId ∉ (b.without a.orderId).orders.map OrderEntry.orderId := by
    simp [ho1, Order.new, OrderBook.without]
  have hadd := AddOrder_admitted hinv1 o1 hf (by simp [ho1, Order.new]) (by simp [ho1, Order.new])
  have hadm : (b.without a.orderId).admitted o1 = (b.without a.orderId).matched o1 := by
    unfold OrderBook.admitted; rw [if_neg (by simp [ho1, Order.new])]
  have hnc : ∀ y ∈ ((b.without a.orderId).opposite o1.side).keys, o1.crosses y = false := by
    intro y hy
    rw [OrderBook.opposite_without] at hy
    have hy2 := (Ladder.keys_without _ _).subset hy
    have hs1 : o1.side = a.side := rfl
    have hp1 : o1.price = a.price := rfl
    rw [hs1] at hy2
    cases hs : a.side with
    | Buy =>
      simp only [OrderBook.opposite, OrderBook.own, hs, if_true] at hy2 hkey
      have := hw.uncrossed _ hkey _ hy2
      simp only [Order.crosses, hs1, hs, if_true, hp1, decide_eq_false_iff_not]; omega
    | Sell =>
      have hsne : ¬ (Side.Sell = Side.Buy) := by decide
      simp only [OrderBook.opposite, OrderBook.own, hs, hsne, if_false] at hy2 hkey
      have := hw.uncrossed _ hy2 _ hkey
      simp only [Order.crosses, hs1, hs, hsne, if_false, hp1, decide_eq_false_iff_not]; omega
  obtain ⟨n1, n2, _⟩ := OrderBook.matched_nocross _ o1 hnc
  rw [hm, hadd, hadm]
  refine ⟨by rw [n1], ?_⟩
  have hs1 : o1.side = a.side := rfl
  have hp1 : o1.price = a.price := rfl
  rw [hs1] at n2
  rw [n2, OrderBook.own_without, ← hp1]
  have hat2 : Ladder.at (Ladder.without (b.own a.side) a.orderId) o1.price =
      some (lv.erase a) := by
    rw [← hfilter, hp1]
    exact Ladder.at_without _ _ _ _ hat (by rw [hfilter]; exact hne)
  cases hs : a.side with
  | Buy =>
    simp only [OrderBook.own, hs, if_true] at hat2 ⊢
    exact Ladder.at_push_at (fun x y => x > y) _ (fun x y => by simp)
      (fun x y hxy => by simp only [gt_iff_lt] at hxy ⊢; omega) _
      (h.bids.without_ok a.orderId).sorted o1 _ hat2
  | Sell =>
    have hsne : ¬ (Side.Sell = Side.Buy) := by decide
    simp only [OrderBook.own, hs, hsne, if_false] at hat2 ⊢
    exact Ladder.at_push_at (fun x y => x < y) _ (fun x y => by simp)
      (fun x y hxy => by omega) _
      (h.asks.without_ok a.orderId).sorted o1 _ hat2

theorem Ladder.all_split_level (L : Ladder) (x : Int × Level) (hx : x ∈ L) :
    ∃ A B, Ladder.all L = A ++ x.2 ++ B := by
  induction L with
  | nil => simp at hx
  | cons y t ih =>
    obtain ⟨q, lq⟩ := y
    rcases List.mem_cons.mp hx with h | h
    · subst h; exact ⟨[], Ladder.all t, by simp [Ladder.all]⟩
    · obtain ⟨A, B, hAB⟩ := ih h
      exact ⟨lq ++ A, B, by simp [Ladder.all, hAB]⟩

/-- The resting orders named by the trades of a sweep, in the order of the trades, are the
first orders of the ladder in priority order. -/
theorem sweepLadder_ids_initial (L : Ladder) (o : Order) :
    ((sweepLadder o L).trades.map (fun t => (Trade.resting o.side t).orderId)) <+:
      (Ladder.all L).map Order.orderId := by
  obtain ⟨done, tail, h1, _, h3⟩ := sweepLadder_trades L o
  have hmap : ∀ d : List Order,
      (d.map (fun a => Trade.between o a a.remainingQuantity)).map
        (fun t => (Trade.resting o.side t).orderId) = d.map Order.orderId := by
    intro d
    rw [List.map_map]
    apply List.map_congr_left
    intro a _
    simp only [Function.comp, Trade.resting_between]
  rcases h3 with ⟨_, h4⟩ | ⟨a, tl, q, h5, _, h4⟩
  · rw [h4, hmap, h1, List.map_append]
    exact List.prefix_append _ _
  · rw [h4, List.map_append, hmap, h1, h5, List.map_append, List.map_cons, List.map_cons,
      List.map_nil, Trade.resting_between]
    exact ⟨tl.map Order.orderId, by simp⟩

theorem List.split_unique_of_nodup {α : Type} (pre post u w : List α) (v : α)
    (hp : (pre ++ v :: post) <+: (u ++ v :: w)) (hnd : (u ++ v :: w).Nodup) : pre = u := by
  obtain ⟨r, hr⟩ := hp
  rw [List.append_assoc, List.cons_append] at hr
  have hvu : v ∉ u := by
    intro hv
    have := (List.nodup_append.mp hnd).2.2
    exact this hv (List.mem_cons_self _ _) 
  have hvw : v ∉ w := by
    have := (List.nodup_append.mp hnd).2.1
    exact (List.nodup_cons.mp this).1
  rcases List.append_eq_append_iff.mp hr with ⟨a1, h1, h2⟩ | ⟨c1, h1, h2⟩
  · cases a1 with
    | nil => simpa using h1.symm
    | cons x a2 =>
      simp only [List.cons_append, List.cons.injEq] at h2
      exact absurd (by rw [h1, h2.1]; simp) hvu
  · cases c1 with
    | nil => simpa using h1
    | cons x c2 =>
      simp only [List.cons_append, List.cons.injEq] at h2
      exact absurd (by rw [h2.2]; simp) hvw

theorem OrderBook.opposite_of_ne (b : OrderBook) (s1 s2 : Side) (h : s1 ≠ s2) :
    b.opposite s1 = b.own s2 := by
  cases s1 <;> cases s2 <;> first | exact absurd rfl h | rfl

theorem OrderBook.opposite_sublist (b : OrderBook) (side : Side) :
    (Ladder.all (b.opposite side)).Sublist b.resting := by
  unfold OrderBook.opposite OrderBook.resting
  split
  · exact List.sublist_append_right _ _
  · exact List.sublist_append_left _ _

/-- On a book that satisfies the invariant, when the order `z` is the last of its level, an
incoming order of the other side that trades with `z` has traded with the other orders of
the level first. -/
theorem AddOrder_last_in_level {b : OrderBook} (h : Inv b) (side : Side) (p : Int)
    (others : Level) (z : Order) (hat : Ladder.at (b.own side) p = some (others ++ [z]))
    (o : Order) (ts pre post : List Trade) (t : Trade) (hs : o.side ≠ side)
    (hts : (AddOrder b o).2 = .ok ts) (hsplit : ts = pre ++ t :: post)
    (ht : (Trade.resting o.side t).orderId = z.orderId) :
    ∀ x ∈ others, ∃ t2 ∈ pre, (Trade.resting o.side t2).orderId = x.orderId := by
  have hw := h.toWellFormed
  rcases AddOrder_cases h o with (h1 | h1) | ⟨o1, _, hside, _, _, _, h1⟩
  · rw [h1] at hts; cases hts; simp at hsplit
  · rw [h1] at hts; cases hts
  · rw [h1] at hts
    have hts2 : ts = (sweepLadder o1 (b.opposite o1.side)).trades := by
      rw [← OrderBook.admitted_trades]; cases hts; rfl
    have hpre := sweepLadder_ids_initial (b.opposite o1.side) o1
    rw [← hts2, hside, OrderBook.opposite_of_ne b o.side side hs] at hpre
    obtain ⟨A, B, hAB⟩ := Ladder.all_split_level _ _ (Ladder.at_some_mem _ _ _ hat)
    have hnd : ((Ladder.all (b.own side)).map Order.orderId).Nodup :=
      hw.ids.sublist ((OrderBook.own_sublist b side).map _)
    have hall : (Ladder.all (b.own side)).map Order.orderId =
        (A ++ others).map Order.orderId ++ z.orderId :: B.map Order.orderId := by
      rw [hAB]; simp
    rw [hall] at hpre hnd
    rw [hsplit, List.map_append, List.map_cons, ht] at hpre
    have heq := List.split_unique_of_nodup _ _ _ _ _ hpre hnd
    intro x hx
    have hxm : x.orderId ∈ (A ++ others).map Order.orderId :=
      List.mem_map.mpr ⟨x, List.mem_append_right _ hx, rfl⟩
    rw [← heq] at hxm
    obtain ⟨t2, ht2, he⟩ := List.mem_map.mp hxm
    exact ⟨t2, ht2, he⟩

/-- Loss of time priority when the type read for the new order is GoodTillCancel, the type of
every resting order: on a reachable book, when the order `a` rests in a level that holds
other orders and is modified at its own side and price, with any quantity, the modify
returns no trade and afterwards the queue of that level is the other orders, in their
previous order, followed by the new order under the id of `a`; and whenever a later order of
the other side trades with that new order, the trades that precede in the returned list
name every other order of the level. -/
theorem requeue_when_type_kept (b : OrderBook) (a : Order) (lv : Level) (qty : Int)
    (h : Reachable b) (hat : Ladder.at (b.own a.side) a.price = some lv) (ha : a ∈ lv)
    (hne : lv.erase a ≠ []) :
    (MatchOrder b (OrderModify.mk a.orderId a.side a.price qty)
      OrderType.GoodTillCancel).2 = .ok [] ∧
    Ladder.at ((MatchOrder b (OrderModify.mk a.orderId a.side a.price qty)
      OrderType.GoodTillCancel).1.own a.side) a.price =
      some (lv.erase a ++ [Order.new OrderType.GoodTillCancel a.orderId a.side a.price qty]) ∧
    ∀ (o : Order) (ts pre post : List Trade) (t : Trade), o.side ≠ a.side →
      (AddOrder (MatchOrder b (OrderModify.mk a.orderId a.side a.price qty)
      OrderType.GoodTillCancel).1 o).2 = .ok ts →
      ts = pre ++ t :: post → (Trade.resting o.side t).orderId = a.orderId →
      ∀ x ∈ lv.erase a, ∃ t2 ∈ pre, (Trade.resting o.side t2).orderId = x.orderId := by
  obtain ⟨h1, h2⟩ := MatchOrder_requeue h.inv a lv qty hat ha hne
  refine ⟨h1, h2, ?_⟩
  intro o ts pre post t hs hts hsplit ht
  exact AddOrder_last_in_level (h.inv.after_modify _ _) a.side a.price (lv.erase a)
    (Order.new OrderType.GoodTillCancel a.orderId a.side a.price qty) h2 o ts pre post t hs hts
    hsplit ht

theorem Reachable.queue : Reachable queueBook :=
  Reachable.add _ _ (Reachable.add _ _ Reachable.empty)

/-- The order 1 of `queueBook` is modified to the quantity 9 at its price, the type read
being GoodTillCancel: it now stands behind the order 2. -/
theorem requeue_when_type_kept_sample :
    Ladder.at ((MatchOrder queueBook (OrderModify.mk 1 Side.Buy 100 9)
      OrderType.GoodTillCancel).1.own Side.Buy) 100 =
      some [Order.new OrderType.GoodTillCancel 2 Side.Buy 100 6,
            Order.new OrderType.GoodTillCancel 1 Side.Buy 100 9] :=
  (requeue_when_type_kept queueBook (Order.new OrderType.GoodTillCancel 1 Side.Buy 100 5)
    [Order.new OrderType.GoodTillCancel 1 Side.Buy 100 5,
     Order.new OrderType.GoodTillCancel 2 Side.Buy 100 6] 9
    Reachable.queue (by decide) (by decide) (by decide)).2.1

/-- C12 (modify loses time priority), at the modify of the order 1 of `queueBook`, first of
the two bids queued at 100, to the quantity 9 at its side and price: `MatchOrder` reads the
type of the new order from an entry it has erased; when that read gives GoodTillCancel the
new order stands last in the level, behind the order 2, and when it gives FillAndKill the
new order does not cross, is turned away, and the id 1 is in neither the level nor the
index. -/
theorem modify_priority_rests_on_stale_read :
    Ladder.at ((MatchOrder queueBook (OrderModify.mk 1 Side.Buy 100 9)
      OrderType.GoodTillCancel).1.own Side.Buy) 100 =
      some [Order.new OrderType.GoodTillCancel 2 Side.Buy 100 6,
            Order.new OrderType.GoodTillCancel 1 Side.Buy 100 9] ∧
    Ladder.at ((MatchOrder queueBook (OrderModify.mk 1 Side.Buy 100 9)
      OrderType.FillAndKill).1.own Side.Buy) 100 =
      some [Order.new OrderType.GoodTillCancel 2 Side.Buy 100 6] ∧
    (MatchOrder queueBook (OrderModify.mk 1 Side.Buy 100 9)
      OrderType.FillAndKill).1.orders.contains 1 = false := by
  decide

theorem wrapInt32_add_left (x y : Int) : wrapInt32 (wrapInt32 x + y) = wrapInt32 (x + y) := by
  unfold wrapInt32; omega

theorem wrapInt32_fold (l : Level) : ∀ x : Int,
    l.foldl (fun runningSum order => wrapInt32 (runningSum + order.remainingQuantity))
      (wrapInt32 x) = wrapInt32 (x + volume l) := by
  induction l with
  | nil => intro x; simp [volume]
  | cons a r ih =>
    intro x
    rw [List.foldl_cons, wrapInt32_add_left, ih, volume_cons, add_assoc]

theorem CreateLevelInfos_eq (price : Int) (orders : Level) :
    CreateLevelInfos price orders = { price := price, quantity := wrapInt32 (volume orders) } := by
  unfold CreateLevelInfos
  have := wrapInt32_fold orders 0
  rw [wrapInt32_zero, zero_add] at this
  rw [this]

theorem wrapInt32_of_fits (x : Int) (h1 : -2147483648 ≤ x) (h2 : x < 2147483648) :
    wrapInt32 x = x := by
  unfold wrapInt32; omega

/-- C13 (snapshot): for every book `getOrderInfos` leaves the book as it was and returns one
entry per level of the bid ladder and one per level of the ask ladder, in the order of the
ladder and under the price of the level; the quantity of an entry is the sum of the
remaining quantities of the orders of the level reduced to 32 bits, hence that sum when it
fits a signed 32-bit integer; and, the ladders being maps whose keys descend for the bids
and ascend for the asks, as in every reachable book, the bid entries are in strictly
descending and the ask entries in strictly ascending price order. -/
theorem snapshot_levels (b : OrderBook) :
    (getOrderInfos b).1 = b ∧
    (getOrderInfos b).2.bids.map LevelInfo.price = b.bids.keys ∧
    (getOrderInfos b).2.asks.map LevelInfo.price = b.asks.keys ∧
    (getOrderInfos b).2.bids.map LevelInfo.quantity = b.bids.map (fun x => wrapInt32 (volume x.2)) ∧
    (getOrderInfos b).2.asks.map LevelInfo.quantity = b.asks.map (fun x => wrapInt32 (volume x.2)) ∧
    ((∀ x ∈ b.bids, -2147483648 ≤ volume x.2 ∧ volume x.2 < 2147483648) →
      (getOrderInfos b).2.bids = b.bids.map (fun x => { price := x.1, quantity := volume x.2 })) ∧
    ((∀ x ∈ b.asks, -2147483648 ≤ volume x.2 ∧ volume x.2 < 2147483648) →
      (getOrderInfos b).2.asks = b.asks.map (fun x => { price := x.1, quantity := volume x.2 })) ∧
    (b.bids.keys.Pairwise (fun x y => x > y) →
      ((getOrderInfos b).2.bids.map LevelInfo.price).Pairwise (fun x y => x > y)) ∧
    (b.asks.keys.Pairwise (fun x y => x < y) →
      ((getOrderInfos b).2.asks.map LevelInfo.price).Pairwise (fun x y => x < y)) ∧
    (Reachable b →
      ((getOrderInfos b).2.bids.map LevelInfo.price).Pairwise (fun x y => x > y) ∧
      ((getOrderInfos b).2.asks.map LevelInfo.price).Pairwise (fun x y => x < y)) := by
  have hb : (getOrderInfos b).2.bids.map LevelInfo.price = b.bids.keys := by
    simp [getOrderInfos, Ladder.keys, CreateLevelInfos_eq, Function.comp]
  have ha : (getOrderInfos b).2.asks.map LevelInfo.price = b.asks.keys := by
    simp [getOrderInfos, Ladder.keys, CreateLevelInfos_eq, Function.comp]
  refine ⟨rfl, hb, ha, ?_, ?_, ?_, ?_, ?_, ?_, ?_⟩
  · simp [getOrderInfos, CreateLevelInfos_eq, Function.comp]
  · simp [getOrderInfos, CreateLevelInfos_eq, Function.comp]
  · intro hfit
    simp only [getOrderInfos]
    apply List.map_congr_left
    intro x hx
    rw [CreateLevelInfos_eq, wrapInt32_of_fits _ (hfit x hx).1 (hfit x hx).2]
  · intro hfit
    simp only [getOrderInfos]
    apply List.map_congr_left
    intro x hx
    rw [CreateLevelInfos_eq, wrapInt32_of_fits _ (hfit x hx).1 (hfit x hx).2]
  · intro hs; rw [hb]; exact hs
  · intro hs; rw [ha]; exact hs
  · intro hr
    rw [hb, ha]
    exact ⟨hr.inv.bids.sorted, hr.inv.asks.sorted⟩

/-- The snapshot of `sampleBook`: one bid level, 4 at 99, and two ask levels, 5 at 100 and 5
at 101. -/
theorem snapshot_levels_witness :
    (getOrderInfos sampleBook).2 =
      { bids := [{ price := 99, quantity := 4 }],
        asks := [{ price := 100, quantity := 5 }, { price := 101, quantity := 5 }] } ∧
    ((getOrderInfos sampleBook).2.bids.map LevelInfo.price).Pairwise (fun x y => x > y) ∧
    ((getOrderInfos sampleBook).2.asks.map LevelInfo.price).Pairwise (fun x y => x < y) :=
  ⟨by decide, (snapshot_levels sampleBook).2.2.2.2.2.2.2.2.2 Reachable.sample⟩

/-- Every trade `AddOrder` returns on a book that satisfies the invariant is between the
incoming order, pegged when it is a Market order, and a resting order of the opposite ladder
whose price it crosses. -/
theorem AddOrder_trade_shape {b : OrderBook} (h : Inv b) (o : Order) (ts : List Trade)
    (hts : (AddOrder b o).2 = .ok ts) (t : Trade) (ht : t ∈ ts) :
    ∃ o1 a q, o1.orderId = o.orderId ∧ o1.side = o.side ∧
      a ∈ Ladder.all (b.opposite o.side) ∧ t = Trade.between o1 a q ∧
      o1.crosses a.price = true ∧ (o.orderType ≠ OrderType.Market → o1 = o) ∧
      (o.orderType = OrderType.Market → o1.price = a.price) := by
  have hw := h.toWellFormed
  rcases AddOrder_cases h o with (h1 | h1) | ⟨o1, hid, hside, hf, _, hne, h1⟩
  · rw [h1] at hts; cases hts; simp at ht
  · rw [h1] at hts; cases hts
  · by_cases hm : o.orderType = OrderType.Market
    · have hf2 : o.orderId ∉ b.orders.map OrderEntry.orderId := hid ▸ hf
      cases hopp : b.opposite o.side with
      | nil =>
        have hc : b.orders.contains o.orderId = false := by
          rw [← Bool.not_eq_true, Index.contains_iff]; exact hf2
        have herr : AddOrder b o = (b, .error Fault.noLiquidity) := by
          unfold OrderBook.opposite at hopp
          cases hs : o.side with
          | Buy =>
            simp only [hs, if_true] at hopp
            simp [AddOrder, hc, hm, rewriteMarket, hs, hopp]
          | Sell =>
            have hsne : ¬ (Side.Sell = Side.Buy) := by decide
            simp only [hs, hsne, if_false] at hopp
            simp [AddOrder, hc, hm, rewriteMarket, hs, hopp]
        rw [herr] at hts; cases hts
      | cons x R =>
        obtain ⟨A, lvl⟩ := x
        rw [AddOrder_market h o hf2 hm A lvl R hopp] at hts
        have hts2 : ts = (sweepLadder (o.pegged A) (b.opposite o.side)).trades := by
          have hsd : (o.pegged A).side = o.side := rfl
          rw [← hsd, ← OrderBook.admitted_trades]; cases hts; rfl
        obtain ⟨before, side, hok, _, _⟩ := LadderOk.opposite_buy_or_sell hw o
        rw [hts2] at ht
        obtain ⟨a, ha, q, hq, hc⟩ := sweepLadder_trade_mem before side _ (o.pegged A) t hok ht
        have hpa := (Order.pegged_crosses hw o A lvl R hopp).1 a ha hc
        exact ⟨o.pegged A, a, q, rfl, rfl, hopp ▸ ha, hq, hc, fun hn => absurd hm hn,
          fun _ => by rw [hpa]; rfl⟩
    · have ho1 := hne hm
      subst ho1
      rw [h1] at hts
      have hts2 : ts = (sweepLadder o1 (b.opposite o1.side)).trades := by
        rw [← OrderBook.admitted_trades]; cases hts; rfl
      obtain ⟨before, side, hok, _, _⟩ := LadderOk.opposite_buy_or_sell hw o1
      rw [hts2] at ht
      obtain ⟨a, ha, q, hq, hc⟩ := sweepLadder_trade_mem before side _ o1 t hok ht
      exact ⟨o1, a, q, rfl, rfl, ha, hq, hc, fun _ => rfl, fun hn => absurd hn hm⟩

/-- C14, as the claim is written, fails: the GoodTillCancel buy `sampleSweep`, at 101, takes
the ask resting at 100 of `sampleBook`, and that trade has bid price 101 and ask price 100. -/
theorem limit_trade_prices_differ :
    ¬ (∀ (b : OrderBook) (o : Order) (ts : List Trade), Reachable b →
        (o.orderType = OrderType.GoodTillCancel ∨ o.orderType = OrderType.FillAndKill) →
        (AddOrder b o).2 = .ok ts → ∀ t ∈ ts, t.bidTrade.price = t.askTrade.price) := by
  intro hall
  have := hall sampleBook sampleSweep
    [{ bidTrade := { orderId := 12, price := 101, quantity := 5 },
       askTrade := { orderId := 1, price := 100, quantity := 5 } },
     { bidTrade := { orderId := 12, price := 101, quantity := 2 },
       askTrade := { orderId := 2, price := 101, quantity := 2 } }]
    Reachable.sample (Or.inl rfl) (by decide)
    { bidTrade := { orderId := 12, price := 101, quantity := 5 },
      askTrade := { orderId := 1, price := 100, quantity := 5 } } (by simp)
  revert this
  decide

/-- C14, amended (trade prices): in every trade `AddOrder` returns, on any book, the
quantity of the bid side is the quantity of the ask side; on a reachable book the ask price
of a trade is at most its bid price, every trade of a Market order has its bid price equal
to its ask price, and a trade of a GoodTillCancel or FillAndKill order carries the price of
the order on the side of the incoming order and, on the other side, the id and the price of
a resting order of the opposite ladder. -/
theorem trade_prices (b : OrderBook) (o : Order) (ts : List Trade) (t : Trade)
    (hts : (AddOrder b o).2 = .ok ts) (ht : t ∈ ts) :
    t.bidTrade.quantity = t.askTrade.quantity ∧
    (Reachable b →
      t.askTrade.price ≤ t.bidTrade.price ∧
      (o.orderType = OrderType.Market → t.bidTrade.price = t.askTrade.price) ∧
      (o.orderType ≠ OrderType.Market →
        (Trade.incoming o.side t).price = o.price ∧
        ∃ a ∈ Ladder.all (b.opposite o.side),
          (Trade.resting o.side t).orderId = a.orderId ∧
          (Trade.resting o.side t).price = a.price)) := by
  refine ⟨AddOrder_trades_all (fun t => t.bidTrade.quantity = t.askTrade.quantity)
    (fun _ _ _ => rfl) b o ts hts t ht, ?_⟩
  intro hr
  obtain ⟨o1, a, q, _, hside, ha, hq, hc, hne, hmk⟩ := AddOrder_trade_shape hr.inv o ts hts t ht
  subst hq
  cases hs : o.side with
  | Buy =>
    rw [hs] at hside
    have hle : a.price ≤ o1.price := by simpa [Order.crosses, hside] using hc
    simp only [Trade.between, hside, if_true, Trade.of, Trade.incoming, Trade.resting]
    refine ⟨hle, fun hm => hmk hm, fun hn => ?_⟩
    rw [hne hn]
    exact ⟨rfl, a, by rw [← hs]; exact ha, rfl, rfl⟩
  | Sell =>
    rw [hs] at hside
    have hsne : ¬ (Side.Sell = Side.Buy) := by decide
    have hle : o1.price ≤ a.price := by simpa [Order.crosses, hside] using hc
    simp only [Trade.between, hside, hsne, if_false, Trade.of, Trade.incoming, Trade.resting]
    refine ⟨hle, fun hm => (hmk hm).symm, fun hn => ?_⟩
    rw [hne hn]
    exact ⟨rfl, a, by rw [← hs]; exact ha, rfl, rfl⟩

/-- The first trade of `sampleSweep` on `sampleBook`: 5 at the bid price 101 and the ask
price 100. -/
theorem trade_prices_witness :
    (5 : Int) = 5 ∧
    (Reachable sampleBook →
      (100 : Int) ≤ 101 ∧
      (sampleSweep.orderType = OrderType.Market → (101 : Int) = 100) ∧
      (sampleSweep.orderType ≠ OrderType.Market →
        (101 : Int) = sampleSweep.price ∧
        ∃ a ∈ Ladder.all (sampleBook.opposite sampleSweep.side),
          1 = a.orderId ∧ (100 : Int) = a.price)) :=
  trade_prices sampleBook sampleSweep
    [{ bidTrade := { orderId := 12, price := 101, quantity := 5 },
       askTrade := { orderId := 1, price := 100, quantity := 5 } },
     { bidTrade := { orderId := 12, price := 101, quantity := 2 },
       askTrade := { orderId := 2, price := 101, quantity := 2 } }]
    { bidTrade := { orderId := 12, price := 101, quantity := 5 },
      askTrade := { orderId := 1, price := 100, quantity := 5 } } (by decide) (by simp)

/-- C19, as the claim is written, fails: `AddOrder` has no check of the quantity; a
GoodTillCancel buy of quantity 0 on the empty book returns normally and is admitted. -/
theorem zero_quantity_is_admitted :
    ¬ (∀ (b : OrderBook) (o : Order), o.remainingQuantity ≤ 0 →
        (∃ f, (AddOrder b o).2 = .error f) ∧ (AddOrder b o).1 = b) := by
  intro hall
  have := (hall OrderBook.empty (Order.new OrderType.GoodTillCancel 1 Side.Buy 100 0)
    (by decide)).2
  revert this
  decide

/-- C19, amended (non-positive quantity): on a reachable book `AddOrder` of an order whose
quantity is zero or negative is not turned away for its quantity: the call returns a trade
list, unless the order is a Market order and the opposite ladder is empty, where it ends by
`noLiquidity`; and a GoodTillCancel order with a new id that does not cross returns no
trade and is admitted, resting last in the level of its price with its quantity, its id in
the index. -/
theorem nonpositive_quantity_add (b : OrderBook) (o : Order) (h : Reachable b)
    (hq : o.remainingQuantity ≤ 0) :
    ((∃ ts, (AddOrder b o).2 = .ok ts) ∨
      ((AddOrder b o).2 = .error Fault.noLiquidity ∧ o.orderType = OrderType.Market ∧
        b.opposite o.side = [])) ∧
    (o.orderType = OrderType.GoodTillCancel → b.orders.contains o.orderId = false →
      canMatch b o.side o.price = false →
      (AddOrder b o).2 = .ok [] ∧
      (∃ lv, Ladder.at ((AddOrder b o).1.own o.side) o.price = some (lv ++ [o])) ∧
      (AddOrder b o).1.orders.contains o.orderId = true ∧
      ∀ a ∈ (AddOrder b o).1.resting, a.orderId = o.orderId → a.remainingQuantity ≤ 0) := by
  have hinv := h.inv
  have hw := hinv.toWellFormed
  constructor
  · rcases AddOrder_cases hinv o with (h1 | h1) | ⟨o1, hid, _, hf, _, hne, h1⟩
    · exact Or.inl ⟨[], by rw [h1]⟩
    · right
      refine ⟨by rw [h1], ?_⟩
      by_cases hm : o.orderType = OrderType.Market
      · refine ⟨hm, ?_⟩
        by_contra hopp
        obtain ⟨x, R, hx⟩ := List.exists_cons_of_ne_nil hopp
        have hc : ¬ b.orders.contains o.orderId = true := by
          intro hc
          have : AddOrder b o = (b, .ok []) := by unfold AddOrder; rw [if_pos hc]
          rw [this] at h1; cases h1
        have hf2 : o.orderId ∉ b.orders.map OrderEntry.orderId := by
          rw [← Index.contains_iff]; exact hc
        rw [AddOrder_market hinv o hf2 hm x.1 x.2 R hx] at h1
        exact absurd (congrArg Prod.snd h1) (by simp)
      · have hc : b.orders.contains o.orderId = false := by
          by_contra hc
          have : AddOrder b o = (b, .ok []) := by
            unfold AddOrder; rw [if_pos (by simpa using hc)]
          rw [this] at h1; cases h1
        exfalso
        unfold AddOrder at h1
        rw [hc, rewriteMarket_of_ne b o hm] at h1
        simp only [Bool.false_eq_true, if_false] at h1
        split at h1
        · cases h1
        · have hf2 : o.orderId ∉ b.orders.map OrderEntry.orderId := by
            rw [← Index.contains_iff, hc]; simp
          rename_i hrej
          have := MatchOrders_insert hinv o hf2 hm (by
            intro hfak
            rw [← canMatch_marketable]
            by_contra hcm
            exact hrej ⟨hfak, hcm⟩)
          rw [this] at h1
          exact absurd (congrArg Prod.snd h1) (by simp)
    · exact Or.inl ⟨_, by rw [h1]⟩
  · intro ht hc hcm
    have hf : o.orderId ∉ b.orders.map OrderEntry.orderId := by
      rw [← Index.contains_iff, hc]; simp
    have hnm : o.orderType ≠ OrderType.Market := by rw [ht]; decide
    have hnf : o.orderType ≠ OrderType.FillAndKill := by rw [ht]; decide
    have hadd := AddOrder_admitted hinv o hf hnm (fun hfak => absurd hfak hnf)
    have hadm : b.admitted o = b.matched o := by
      unfold OrderBook.admitted; rw [if_neg hnf]
    have hmk : o.marketable (b.opposite o.side) = false := by
      rw [← hcm, canMatch_marketable]; rfl
    obtain ⟨before, side, hok, hmono, _⟩ := LadderOk.opposite_buy_or_sell hw o
    have hnc := Order.not_marketable o before _ hmono hok.sorted hmk
    obtain ⟨n1, n2, _⟩ := OrderBook.matched_nocross b o hnc
    have hres : (sweepLadder o (b.opposite o.side)).residual = some o := by
      rw [sweepLadder_nocross _ _ hnc]
    have hrest := OrderBook.matched_rests b o o hres
    have hafter := hinv.after_add o
    rw [hadd, hadm] at hafter ⊢
    have hmem := OrderBook.matched_mem_own b o o hres
    refine ⟨by rw [n1], hrest, ?_, ?_⟩
    · rw [Index.contains_iff, hafter.toWellFormed.index_iff]
      exact List.mem_map.mpr ⟨o, hmem, rfl⟩
    · intro a ha hid
      have : a = o := List.inj_on_of_nodup_map hafter.toWellFormed.ids ha hmem hid
      rw [this]; exact hq

/-- A GoodTillCancel buy of quantity 0 at 98 on `sampleBook` rests behind nothing at 98. -/
theorem nonpositive_quantity_add_witness :
    (AddOrder sampleBook (Order.new OrderType.GoodTillCancel 20 Side.Buy 98 0)).2 = .ok [] ∧
    (AddOrder sampleBook (Order.new OrderType.GoodTillCancel 20 Side.Buy 98 0)).1.orders.contains
      20 = true :=
  ⟨((nonpositive_quantity_add sampleBook (Order.new OrderType.GoodTillCancel 20 Side.Buy 98 0)
      Reachable.sample (by decide)).2 rfl (by decide) (by decide)).1,
   ((nonpositive_quantity_add sampleBook (Order.new OrderType.GoodTillCancel 20 Side.Buy 98 0)
      Reachable.sample (by decide)).2 rfl (by decide) (by decide)).2.2.1⟩

/-- C11 (modify is cancel, then add), at the modify of the order 1 of `sampleBook`: the
index holds an entry for the id 1 when `MatchOrder` binds `existingOrder` to it, and after
the `CancelOrder` of `MatchOrder` that entry is no longer in the index and no order with the
id 1 is held in the ladders, so the type `MatchOrder` then reads through `existingOrder` is
that of an entry that is gone. -/
theorem modify_reads_erased_entry :
    sampleBook.orders.lookup 1 =
      some { orderId := 1, orderType := OrderType.GoodTillCancel, side := Side.Sell,
             price := 100 } ∧
    (CancelOrder sampleBook 1).2 = .ok () ∧
    (CancelOrder sampleBook 1).1.orders.lookup 1 = none ∧
    1 ∉ (CancelOrder sampleBook 1).1.resting.map Order.orderId := by
  decide

theorem Trade.conserving_nil (side : Side) (r : Int) (queue : List Order) :
    Trade.conserving side r queue [] := by
  cases queue <;> simp [Trade.conserving]

theorem Trade.conserving_more (side : Side) (l2 : List Order) :
    ∀ (ts : List Trade) (l : List Order) (r : Int),
    Trade.conserving side r l ts → Trade.conserving side r (l ++ l2) ts := by
  intro ts
  induction ts with
  | nil => intro l r _; exact Trade.conserving_nil _ _ _
  | cons t ts ih =>
    intro l r h
    cases l with
    | nil => simp [Trade.conserving] at h
    | cons a l =>
      simp only [Trade.conserving, List.cons_append] at h ⊢
      exact ⟨h.1, h.2.1, h.2.2.1, ih _ _ h.2.2.2⟩

theorem Trade.conserving_append (side : Side) (l2 : List Order) (ts2 : List Trade) :
    ∀ (ts1 : List Trade) (l1 : List Order) (r : Int),
    Trade.conserving side r l1 ts1 → ts1.length = l1.length →
    Trade.conserving side (r - tradedQuantity ts1) l2 ts2 →
    Trade.conserving side r (l1 ++ l2) (ts1 ++ ts2) := by
  intro ts1
  induction ts1 with
  | nil =>
    intro l1 r _ hlen h2
    have : l1 = [] := List.length_eq_zero.mp hlen.symm
    subst this
    simpa [tradedQuantity_nil] using h2
  | cons t ts ih =>
    intro l1 r h hlen h2
    cases l1 with
    | nil => simp at hlen
    | cons a l =>
      simp only [Trade.conserving, List.cons_append] at h ⊢
      refine ⟨h.1, h.2.1, h.2.2.1, ih _ _ h.2.2.2 (by simpa using hlen) ?_⟩
      rw [tradedQuantity_cons, h.1] at h2
      rw [sub_sub]
      exact h2

theorem Order.filledBy_fits (o : Order) (q : Int) (h0 : 0 ≤ o.remainingQuantity - q)
    (h1 : o.remainingQuantity - q < 2147483648) :
    (o.filledBy q).remainingQuantity = o.remainingQuantity - q := by
  simp only [Order.filledBy]
  exact wrapInt32_of_range _ h0 h1

theorem Order.filledBy_withRemaining (o : Order) (q : Int) (h0 : 0 ≤ o.remainingQuantity - q)
    (h1 : o.remainingQuantity - q < 2147483648) :
    o.filledBy q = o.withRemaining (o.remainingQuantity - q) := by
  simp only [Order.filledBy, Order.withRemaining, wrapInt32_of_range _ h0 h1]

theorem Trade.between_ask_quantity (o a : Order) (q : Int) :
    (Trade.between o a q).askTrade.quantity = q := by
  unfold Trade.between
  split <;> rfl

theorem Order.isFilled_iff (o : Order) : o.isFilled = true ↔ o.remainingQuantity = 0 := by
  simp [Order.isFilled]

/-- The quantities of a sweep of one level, for quantities that are not negative and fit 32
bits. -/
theorem sweepLevel_quantities (l : Level) : ∀ (o : Order), fitsQuantity o.remainingQuantity →
    (∀ a ∈ l, fitsQuantity a.remainingQuantity) →
    SweepQuantities o l (sweepLevel o l).residual (sweepLevel o l).rest (sweepLevel o l).trades ∧
    (∀ o1, (sweepLevel o l).residual = some o1 → (sweepLevel o l).trades.length = l.length) := by
  induction l with
  | nil =>
    intro o ho _
    simp only [sweepLevel]
    refine ⟨⟨Trade.conserving_nil _ _ _, by simp [tradedQuantity_nil, volume_nil], ?_, ?_, ?_⟩, ?_⟩
    · intro o1 h1
      simp only [Option.some.injEq] at h1
      subst h1
      exact ⟨by simp [tradedQuantity_nil], rfl, le_refl _, Or.inl rfl, ho⟩
    · intro h; simp at h
    · intro a1 h; simp at h
    · intro o1 _; rfl
  | cons a r ih =>
    intro o ho hl
    have ha := hl a (List.mem_cons_self _ _)
    have hr : ∀ x ∈ r, fitsQuantity x.remainingQuantity :=
      fun x hx => hl x (List.mem_cons_of_mem _ hx)
    have hq1 : min o.remainingQuantity a.remainingQuantity ≤ o.remainingQuantity := min_le_left _ _
    have hq2 : min o.remainingQuantity a.remainingQuantity ≤ a.remainingQuantity := min_le_right _ _
    have hq0 : 0 ≤ min o.remainingQuantity a.remainingQuantity := le_min ho.1 ha.1
    have ho1 := Order.filledBy_fits o (min o.remainingQuantity a.remainingQuantity)
      (by omega) (by have := ho.2; omega)
    have ha1 := Order.filledBy_fits a (min o.remainingQuantity a.remainingQuantity)
      (by omega) (by have := ha.2; omega)
    have haw := Order.filledBy_withRemaining a (min o.remainingQuantity a.remainingQuantity)
      (by omega) (by have := ha.2; omega)
    have hrid : (Trade.resting o.side (Trade.between o a
        (min o.remainingQuantity a.remainingQuantity))).orderId = a.orderId := by
      rw [Trade.resting_between]
    simp only [sweepLevel]
    split
    · rename_i hf
      rw [Order.isFilled_iff, ho1] at hf
      simp only [Trade.between_filledBy]
      refine ⟨⟨?_, ?_, ?_, ?_, ?_⟩, ?_⟩
      · simp only [Trade.conserving, Trade.between_quantity, Trade.between_ask_quantity, hrid,
          true_and]
      · rw [tradedQuantity_cons, tradedQuantity_nil, Trade.between_quantity, volume_cons]
        split
        · rename_i hfa
          rw [Order.isFilled_iff, ha1] at hfa
          omega
        · rw [volume_cons, ha1]; omega
      · intro o1 h1; simp at h1
      · intro _
        rw [tradedQuantity_cons, tradedQuantity_nil, Trade.between_quantity]; omega
      · intro a1 h1
        split at h1
        · exact Or.inl (List.mem_cons_of_mem _ h1)
        · rename_i hfa
          rw [Order.isFilled_iff, ha1] at hfa
          rcases List.mem_cons.mp h1 with h1 | h1
          · right
            refine ⟨a, List.mem_cons_self _ _, _, List.mem_singleton.mpr rfl, hrid, ?_, ?_, ?_⟩
            · rw [h1, Trade.between_quantity]; exact haw
            · rw [h1, ha1]; omega
            · rw [h1, ha1]; omega
          · exact Or.inl (List.mem_cons_of_mem _ h1)
      · intro o1 h1; simp at h1
    · rename_i hnf
      have hmin := Order.min_of_not_filled o a hnf
      rw [Order.isFilled_iff, ho1] at hnf
      have ho1f : fitsQuantity
          (o.filledBy (min o.remainingQuantity a.remainingQuantity)).remainingQuantity := by
        rw [ho1]; exact ⟨by omega, by have := ho.2; omega⟩
      obtain ⟨⟨c1, c2, c3, c4, c5⟩, c6⟩ :=
        ih (o.filledBy (min o.remainingQuantity a.remainingQuantity)) ho1f hr
      have hside : (o.filledBy (min o.remainingQuantity a.remainingQuantity)).side = o.side := rfl
      have hinit : (o.filledBy (min o.remainingQuantity a.remainingQuantity)).initialQuantity =
          o.initialQuantity := rfl
      rw [hside] at c1 c5
      rw [ho1] at c1 c3 c4
      rw [hinit] at c3
      simp only [Trade.between_filledBy]
      refine ⟨⟨?_, ?_, ?_, ?_, ?_⟩, ?_⟩
      · simp only [Trade.conserving, Trade.between_quantity, Trade.between_ask_quantity, hrid,
          true_and]
        exact c1
      · rw [tradedQuantity_cons, Trade.between_quantity, volume_cons, c2]; omega
      · intro o1 h1
        obtain ⟨d1, d2, d3, d4, d5⟩ := c3 o1 h1
        refine ⟨?_, d2, by omega, Or.inr ?_, d5⟩
        · rw [tradedQuantity_cons, Trade.between_quantity, d1]; omega
        · rcases d4 with d4 | d4
          · rw [d4, ho1]; exact hnf
          · exact d4
      · intro h1
        rw [tradedQuantity_cons, Trade.between_quantity, c4 h1]; omega
      · intro a1 h1
        rcases c5 a1 h1 with h2 | ⟨a0, h2, t, h3, h4⟩
        · exact Or.inl (List.mem_cons_of_mem _ h2)
        · exact Or.inr ⟨a0, List.mem_cons_of_mem _ h2, t, List.mem_cons_of_mem _ h3, h4⟩
      · intro o1 h1
        simp only [List.length_cons, c6 o1 h1]

theorem Ladder.all_cons_if (p : Int) (l : Level) (R : Ladder) :
    Ladder.all (if l.isEmpty then R else (p, l) :: R) = l ++ Ladder.all R := by
  cases l with
  | nil => rfl
  | cons a r => rfl

/-- The quantities of a sweep of the ladder, for quantities that are not negative and fit 32
bits. -/
theorem sweepLadder_quantities (L : Ladder) : ∀ (o : Order), fitsQuantity o.remainingQuantity →
    (∀ a ∈ Ladder.all L, fitsQuantity a.remainingQuantity) →
    SweepQuantities o (Ladder.all L) (sweepLadder o L).residual
      (Ladder.all (sweepLadder o L).rest) (sweepLadder o L).trades := by
  induction L with
  | nil =>
    intro o ho _
    simp only [sweepLadder, Ladder.all]
    refine ⟨Trade.conserving_nil _ _ _, by simp [tradedQuantity_nil, volume_nil], ?_, ?_, ?_⟩
    · intro o1 h1
      simp only [Option.some.injEq] at h1
      subst h1
      exact ⟨by simp [tradedQuantity_nil], rfl, le_refl _, Or.inl rfl, ho⟩
    · intro h; simp at h
    · intro a1 h; simp at h
  | cons x R ih =>
    obtain ⟨p, l⟩ := x
    intro o ho hl
    have hll : ∀ a ∈ l, fitsQuantity a.remainingQuantity :=
      fun a ha => hl a (by simp [Ladder.all, ha])
    have hlR : ∀ a ∈ Ladder.all R, fitsQuantity a.remainingQuantity :=
      fun a ha => hl a (by simp [Ladder.all, ha])
    simp only [sweepLadder]
    split
    · obtain ⟨⟨c1, c2, c3, c4, c5⟩, c6⟩ := sweepLevel_quantities l o ho hll
      cases hres : (sweepLevel o l).residual with
      | none =>
        simp only [Ladder.all_cons_if, Ladder.all]
        refine ⟨Trade.conserving_more _ _ _ _ _ c1, ?_, ?_, ?_, ?_⟩
        · rw [c2, volume_append, volume_append]; omega
        · intro o1 h1; simp at h1
        · intro _; exact c4 hres
        · intro a1 h1
          rcases List.mem_append.mp h1 with h1 | h1
          · rcases c5 a1 h1 with h2 | ⟨a0, h2, h3⟩
            · exact Or.inl (List.mem_append_left _ h2)
            · exact Or.inr ⟨a0, List.mem_append_left _ h2, h3⟩
          · exact Or.inl (List.mem_append_right _ h1)
      | some o1 =>
        obtain ⟨d1, d2, d3, d4, d5⟩ := c3 o1 hres
        obtain ⟨he, hrest⟩ := sweepLevel_residual l o o1 hres
        have hside : o1.side = o.side := congrArg OrderEntry.side he
        obtain ⟨e1, e2, e3, e4, e5⟩ := ih o1 d5 hlR
        rw [hside] at e1 e5
        rw [d1] at e1
        rw [hrest, volume_nil] at c2
        simp only [Ladder.all]
        refine ⟨Trade.conserving_append _ _ _ _ _ _ c1 (c6 o1 hres) e1, ?_, ?_, ?_, ?_⟩
        · rw [tradedQuantity_append, c2, e2, volume_append]; omega
        · intro o2 h2
          obtain ⟨f1, f2, f3, f4, f5⟩ := e3 o2 h2
          refine ⟨?_, by rw [f2, d2], by omega, ?_, f5⟩
          · rw [tradedQuantity_append, f1, d1]; omega
          · rcases f4 with f4 | f4
            · rcases d4 with d4 | d4
              · exact Or.inl (by rw [f4, d4])
              · exact Or.inr (by rw [f4]; exact d4)
            · exact Or.inr f4
        · intro h2
          rw [tradedQuantity_append, e4 h2, d1]; omega
        · intro a1 h1
          rcases e5 a1 h1 with h2 | ⟨a0, h2, t, h3, h4⟩
          · exact Or.inl (List.mem_append_right _ h2)
          · exact Or.inr ⟨a0, List.mem_append_right _ h2, t, List.mem_append_right _ h3, h4⟩
    · simp only [Ladder.all]
      refine ⟨Trade.conserving_nil _ _ _, by simp [tradedQuantity_nil], ?_, ?_, ?_⟩
      · intro o1 h1
        simp only [Option.some.injEq] at h1
        subst h1
        exact ⟨by simp [tradedQuantity_nil], rfl, le_refl _, Or.inl rfl, ho⟩
      · intro h; simp at h
      · intro a1 h1; exact Or.inl h1

theorem OrderBook.matched_opposite (b : OrderBook) (o : Order) :
    (b.matched o).1.opposite o.side = (sweepLadder o (b.opposite o.side)).rest := by
  cases hs : o.side with
  | Buy => simp only [OrderBook.matched, OrderBook.opposite, hs, if_true]
  | Sell =>
    have hsne : ¬ (Side.Sell = Side.Buy) := by decide
    simp only [OrderBook.matched, OrderBook.opposite, hs, hsne, if_false]

theorem OrderBook.matched_own (b : OrderBook) (o a : Order) :
    a ∈ Ladder.all ((b.matched o).1.own o.side) ↔
      a ∈ Ladder.all (b.own o.side) ∨ (sweepLadder o (b.opposite o.side)).residual = some a := by
  cases hs : o.side with
  | Buy =>
    simp only [OrderBook.matched, OrderBook.opposite, OrderBook.own, hs, if_true]
    cases hres : (sweepLadder o b.asks).residual with
    | none => simp
    | some r =>
      simp only [(Ladder.push_all _ _ _).mem_iff, List.mem_cons, Option.some.injEq]
      constructor
      · rintro (h | h)
        · exact Or.inr h.symm
        · exact Or.inl h
      · rintro (h | h)
        · exact Or.inr h
        · exact Or.inl h.symm
  | Sell =>
    have hsne : ¬ (Side.Sell = Side.Buy) := by decide
    simp only [OrderBook.matched, OrderBook.opposite, OrderBook.own, hs, hsne, if_false]
    cases hres : (sweepLadder o b.bids).residual with
    | none => simp
    | some r =>
      simp only [(Ladder.push_all _ _ _).mem_iff, List.mem_cons, Option.some.injEq]
      constructor
      · rintro (h | h)
        · exact Or.inr h.symm
        · exact Or.inl h
      · rintro (h | h)
        · exact Or.inr h
        · exact Or.inl h.symm

/-- The orders a sweep leaves in the ladder carry ids of orders of the ladder. -/
theorem sweepLadder_rest_ids (L : Ladder) (o a : Order)
    (h : a ∈ Ladder.all (sweepLadder o L).rest) : a.orderId ∈ (Ladder.all L).map Order.orderId := by
  obtain ⟨gone, kept, h1, _, h3⟩ := sweepLadder_split L o
  have : a.entry ∈ kept.map Order.entry := by rw [← h3]; exact List.mem_map.mpr ⟨a, h, rfl⟩
  obtain ⟨a0, ha0, he⟩ := List.mem_map.mp this
  refine List.mem_map.mpr ⟨a0, by rw [h1]; exact List.mem_append_right _ ha0, ?_⟩
  exact congrArg OrderEntry.orderId he

/-- The two sides of the book after an order with a new id has been admitted: the opposite
side is what the sweep leaves, and the own side is as it was, with what is left of the order
when it is not a FillAndKill order. -/
theorem OrderBook.admitted_sides {b : OrderBook} (h : WellFormed b) (o : Order)
    (hf : o.orderId ∉ b.orders.map OrderEntry.orderId) :
    Ladder.all ((b.admitted o).1.opposite o.side) =
      Ladder.all (sweepLadder o (b.opposite o.side)).rest ∧
    (∀ a ∈ Ladder.all ((b.admitted o).1.own o.side),
      a ∈ Ladder.all (b.own o.side) ∨ (sweepLadder o (b.opposite o.side)).residual = some a) ∧
    (∀ a ∈ Ladder.all (b.own o.side), a ∈ Ladder.all ((b.admitted o).1.own o.side)) ∧
    (o.orderType ≠ OrderType.FillAndKill → ∀ r,
      (sweepLadder o (b.opposite o.side)).residual = some r →
        r ∈ Ladder.all ((b.admitted o).1.own o.side)) := by
  have hfr : o.orderId ∉ b.resting.map Order.orderId := h.fresh hf
  have hown : ∀ a ∈ Ladder.all (b.own o.side), a.orderId ≠ o.orderId := by
    intro a ha he
    exact hfr (List.mem_map.mpr ⟨a, (OrderBook.own_sublist b o.side).subset ha, he⟩)
  have hopp : ∀ a ∈ Ladder.all (sweepLadder o (b.opposite o.side)).rest,
      a.orderId ≠ o.orderId := by
    intro a ha he
    obtain ⟨a0, ha0, he0⟩ := List.mem_map.mp (sweepLadder_rest_ids _ _ _ ha)
    exact hfr (List.mem_map.mpr ⟨a0, (OrderBook.opposite_sublist b o.side).subset ha0,
      by rw [he0, he]⟩)
  unfold OrderBook.admitted
  split
  · simp only [OrderBook.opposite_without, OrderBook.own_without, Ladder.all_without,
      OrderBook.matched_opposite]
    refine ⟨?_, ?_, ?_, fun hn => absurd ‹_› hn⟩
    · rw [List.filter_eq_self]
      intro a ha
      simpa [bne_iff_ne] using hopp a ha
    · intro a ha
      exact (OrderBook.matched_own b o a).mp (List.mem_filter.mp ha).1
    · intro a ha
      exact List.mem_filter.mpr ⟨(OrderBook.matched_own b o a).mpr (Or.inl ha),
        by simpa [bne_iff_ne] using hown a ha⟩
  · refine ⟨by rw [OrderBook.matched_opposite], ?_, ?_, ?_⟩
    · intro a ha; exact (OrderBook.matched_own b o a).mp ha
    · intro a ha; exact (OrderBook.matched_own b o a).mpr (Or.inl ha)
    · intro _ r hr; exact (OrderBook.matched_own b o r).mpr (Or.inr hr)

/-- The outcome of `AddOrder` on a book that satisfies the invariant: nothing is done, or
the order, pegged when it is a Market order, is admitted. -/
theorem AddOrder_pegged {b : OrderBook} (h : Inv b) (o : Order) :
    (AddOrder b o = (b, .ok []) ∨ AddOrder b o = (b, .error Fault.noLiquidity)) ∨
    ∃ o1 : Order, (o1 = o ∨ ∃ p, o1 = o.pegged p) ∧
      o1.orderId ∉ b.orders.map OrderEntry.orderId ∧ o1.orderType ≠ OrderType.Market ∧
      (o.orderType = OrderType.FillAndKill → o1 = o) ∧
      AddOrder b o = ((b.admitted o1).1, .ok (b.admitted o1).2) := by
  rcases AddOrder_cases h o with h1 | ⟨o1, hid, hside, hf, hnm, hne, h1⟩
  · exact Or.inl h1
  · by_cases hm : o.orderType = OrderType.Market
    · have hf2 : o.orderId ∉ b.orders.map OrderEntry.orderId := hid ▸ hf
      cases hopp : b.opposite o.side with
      | nil =>
        left; right
        have hc : b.orders.contains o.orderId = false := by
          rw [← Bool.not_eq_true, Index.contains_iff]; exact hf2
        unfold OrderBook.opposite at hopp
        cases hs : o.side with
        | Buy =>
          simp only [hs, if_true] at hopp
          simp [AddOrder, hc, hm, rewriteMarket, hs, hopp]
        | Sell =>
          have hsne : ¬ (Side.Sell = Side.Buy) := by decide
          simp only [hs, hsne, if_false] at hopp
          simp [AddOrder, hc, hm, rewriteMarket, hs, hopp]
      | cons x R =>
        right
        have hp1 : (o.pegged x.1).orderType ≠ OrderType.Market := by simp [Order.pegged]
        have hp2 : o.orderType = OrderType.FillAndKill → o.pegged x.1 = o := by
          intro hfak; rw [hm] at hfak; cases hfak
        exact ⟨o.pegged x.1, Or.inr ⟨_, rfl⟩, hf2, hp1, hp2,
          AddOrder_market h o hf2 hm x.1 x.2 R hopp⟩
    · right
      have := hne hm
      subst this
      exact ⟨o1, Or.inl rfl, hf, hnm, fun _ => rfl, h1⟩

theorem ReachablePositive.reachable {b : OrderBook} (h : ReachablePositive b) : Reachable b := by
  induction h with
  | empty => exact Reachable.empty
  | add b o _ _ ih => exact Reachable.add b o ih
  | cancel b id _ ih => exact Reachable.cancel b id ih
  | modify b m t _ _ ih => exact Reachable.modify b m t ih

theorem Order.sound_fits (o : Order) (h : o.sound) : fitsQuantity o.remainingQuantity := by
  obtain ⟨h1, h2, h3⟩ := h
  exact ⟨by omega, by omega⟩

theorem OrderBook.mem_resting_sides (b : OrderBook) (side : Side) (a : Order) :
    a ∈ b.resting ↔ a ∈ Ladder.all (b.own side) ∨ a ∈ Ladder.all (b.opposite side) := by
  cases side with
  | Buy => simp only [OrderBook.resting, OrderBook.own, OrderBook.opposite, if_true,
      List.mem_append]
  | Sell =>
    have hsne : ¬ (Side.Sell = Side.Buy) := by decide
    simp only [OrderBook.resting, OrderBook.own, OrderBook.opposite, hsne, if_false,
      List.mem_append]
    exact Or.comm

/-- After an order with a positive quantity has been admitted to a book whose orders are
sound, the orders of the book are sound. -/
theorem OrderBook.admitted_sound {b : OrderBook} (h : WellFormed b) (o : Order)
    (hf : o.orderId ∉ b.orders.map OrderEntry.orderId) (hq : ∀ a ∈ b.resting, a.sound)
    (ho : o.sound) : ∀ a ∈ (b.admitted o).1.resting, a.sound := by
  have hfits : ∀ a ∈ Ladder.all (b.opposite o.side), fitsQuantity a.remainingQuantity :=
    fun a ha => Order.sound_fits a (hq a ((OrderBook.opposite_sublist b o.side).subset ha))
  obtain ⟨q1, q2, q3, q4, q5⟩ := sweepLadder_quantities (b.opposite o.side) o (Order.sound_fits o ho) hfits
  obtain ⟨s1, s2, _, _⟩ := OrderBook.admitted_sides h o hf
  intro a ha
  rcases (OrderBook.mem_resting_sides _ o.side a).mp ha with ha | ha
  · rcases s2 a ha with h1 | h1
    · exact hq a ((OrderBook.own_sublist b o.side).subset h1)
    · obtain ⟨l1, l2, l3, l4, l5⟩ := q3 a h1
      have hpos : 0 < a.remainingQuantity := by
        rcases l4 with l4 | l4
        · rw [l4]; exact ho.1
        · have := l5.1; omega
      exact ⟨hpos, by rw [l2]; exact l3.trans ho.2.1, by rw [l2]; exact ho.2.2⟩
  · rw [s1] at ha
    rcases q5 a ha with h1 | ⟨a0, h1, t, _, _, h2, h3, h4⟩
    · exact hq a ((OrderBook.opposite_sublist b o.side).subset h1)
    · have h0 := hq a0 ((OrderBook.opposite_sublist b o.side).subset h1)
      have hi : a.initialQuantity = a0.initialQuantity := by rw [h2]; rfl
      exact ⟨h3, by rw [hi]; exact h4.trans h0.2.1, by rw [hi]; exact h0.2.2⟩

theorem AddOrder_sound {b : OrderBook} (h : Inv b) (o : Order)
    (hq : ∀ a ∈ b.resting, a.sound) (ho : o.sound) :
    ∀ a ∈ (AddOrder b o).1.resting, a.sound := by
  rcases AddOrder_pegged h o with (h1 | h1) | ⟨o1, hp, hf, _, _, h1⟩
  · rw [h1]; exact hq
  · rw [h1]; exact hq
  · rw [h1]
    have ho1 : o1.sound := by
      rcases hp with hp | ⟨p, hp⟩
      · rw [hp]; exact ho
      · rw [hp]; exact ho
    exact OrderBook.admitted_sound h.toWellFormed o1 hf hq ho1

theorem ReachablePositive.sound {b : OrderBook} (h : ReachablePositive b) :
    ∀ a ∈ b.resting, a.sound := by
  induction h with
  | empty => intro a ha; simp [OrderBook.empty, OrderBook.resting, Ladder.all] at ha
  | add b o hb ho ih => exact AddOrder_sound hb.reachable.inv o ih ho
  | cancel b id hb ih =>
    rw [CancelOrder_eq hb.reachable.inv.toWellFormed, OrderBook.resting_without]
    intro a ha
    exact ih a (List.mem_filter.mp ha).1
  | modify b m t hb hm ih =>
    have hinv := hb.reachable.inv
    unfold MatchOrder
    split
    · exact ih
    · rw [CancelOrder_eq hinv.toWellFormed]
      apply AddOrder_sound (hinv.without_inv _)
      · rw [OrderBook.resting_without]
        intro a ha
        exact ih a (List.mem_filter.mp ha).1
      · exact ⟨hm.1, le_refl _, hm.2⟩

/-- C18 (resting quantities): when every order passed to `AddOrder` has a positive remaining
quantity at most its initial quantity, as an order built with a positive quantity has, and
every modify request has a positive quantity, the quantities being values of a signed
32-bit integer, then after every operation every order held in the book has a remaining
quantity that is positive and at most its initial quantity; no order with the remaining
quantity 0 is held. -/
theorem resting_quantities (b : OrderBook) (h : ReachablePositive b) :
    ∀ a ∈ b.resting, 0 < a.remainingQuantity ∧ a.remainingQuantity ≤ a.initialQuantity ∧
      a.isFilled = false := by
  intro a ha
  obtain ⟨h1, h2, _⟩ := h.sound a ha
  refine ⟨h1, h2, ?_⟩
  rw [← Bool.not_eq_true, Order.isFilled_iff]
  omega

/-- The book `sampleBook` is built from three orders of positive quantity. -/
theorem ReachablePositive.of_sample : ReachablePositive sampleBook :=
  ReachablePositive.add _ _ (ReachablePositive.add _ _ (ReachablePositive.add _ _
    ReachablePositive.empty (by decide)) (by decide)) (by decide)

/-- The orders of `sampleBook`, built from three orders of positive quantity. -/
theorem resting_quantities_witness :
    ReachablePositive sampleBook ∧
    ∀ a ∈ sampleBook.resting, 0 < a.remainingQuantity ∧
      a.remainingQuantity ≤ a.initialQuantity ∧ a.isFilled = false :=
  ⟨ReachablePositive.of_sample, resting_quantities sampleBook ReachablePositive.of_sample⟩

/-- On a book that satisfies the invariant `AddOrder` ends by an exception exactly for a
Market order with a new id whose opposite ladder is empty, and the exception is then
`noLiquidity`. -/
theorem AddOrder_error_iff {b : OrderBook} (h : Inv b) (o : Order) :
    ((∃ f, (AddOrder b o).2 = .error f) ↔
      (o.orderType = OrderType.Market ∧ b.orders.contains o.orderId = false ∧
        b.opposite o.side = [])) ∧
    (∀ f, (AddOrder b o).2 = .error f → f = Fault.noLiquidity) := by
  by_cases hc : b.orders.contains o.orderId = true
  · have h1 : AddOrder b o = (b, .ok []) := by unfold AddOrder; rw [if_pos hc]
    rw [h1]
    refine ⟨⟨(fun ⟨f, hf⟩ => by cases hf), fun ⟨_, h2, _⟩ => by rw [hc] at h2; cases h2⟩,
      fun f hf => by cases hf⟩
  have hf : o.orderId ∉ b.orders.map OrderEntry.orderId := by
    rw [← Index.contains_iff]; exact hc
  have hcf : b.orders.contains o.orderId = false := by simpa using hc
  by_cases hrej : o.orderType = OrderType.FillAndKill ∧ ¬ canMatch b o.side o.price = true
  · have h1 : AddOrder b o = (b, .ok []) := by
      unfold AddOrder; rw [if_neg hc, if_pos hrej]
    rw [h1]
    refine ⟨⟨(fun ⟨f, hf⟩ => by cases hf), fun ⟨h2, _, _⟩ => by rw [hrej.1] at h2; cases h2⟩,
      fun f hf => by cases hf⟩
  by_cases hm : o.orderType = OrderType.Market
  · cases hopp : b.opposite o.side with
    | nil =>
      have h1 : AddOrder b o = (b, .error Fault.noLiquidity) := by
        unfold OrderBook.opposite at hopp
        cases hs : o.side with
        | Buy =>
          simp only [hs, if_true] at hopp
          simp [AddOrder, hcf, hm, rewriteMarket, hs, hopp]
        | Sell =>
          have hsne : ¬ (Side.Sell = Side.Buy) := by decide
          simp only [hs, hsne, if_false] at hopp
          simp [AddOrder, hcf, hm, rewriteMarket, hs, hopp]
      rw [h1]
      exact ⟨⟨fun _ => ⟨hm, hcf, rfl⟩, fun _ => ⟨_, rfl⟩⟩, fun f hf => by cases hf; rfl⟩
    | cons x R =>
      rw [AddOrder_market h o hf hm x.1 x.2 R hopp]
      refine ⟨⟨(fun ⟨f, hf⟩ => by cases hf), fun ⟨_, _, h2⟩ => by cases h2⟩,
        fun f hf => by cases hf⟩
  · have hadd := AddOrder_admitted h o hf hm (fun ht => by
      by_contra hcm
      exact hrej ⟨ht, hcm⟩)
    rw [hadd]
    refine ⟨⟨(fun ⟨f, hf⟩ => by cases hf), fun ⟨h2, _, _⟩ => absurd h2 hm⟩,
      fun f hf => by cases hf⟩

/-- On a book that satisfies the invariant the modify operation returns a trade list when
the type read for the new order is not Market, and ends by no exception but `noLiquidity`
when it is. -/
theorem MatchOrder_ok {b : OrderBook} (h : Inv b) (m : OrderModify) (t : OrderType) :
    (t ≠ OrderType.Market → ∃ ts, (MatchOrder b m t).2 = .ok ts) ∧
    (∀ f, (MatchOrder b m t).2 = .error f → f = Fault.noLiquidity ∧ t = OrderType.Market) := by
  unfold MatchOrder
  cases hl : b.orders.lookup m.orderId with
  | none => exact ⟨fun _ => ⟨[], rfl⟩, fun f hf => by cases hf⟩
  | some e =>
    simp only [CancelOrder_eq h.toWellFormed]
    have herr := AddOrder_error_iff (h.without_inv m.orderId) (m.toOrderPointer t)
    constructor
    · intro ht
      cases hr : (AddOrder (b.without m.orderId) (m.toOrderPointer t)).2 with
      | ok ts => exact ⟨ts, rfl⟩
      | error f => exact absurd (herr.1.mp ⟨f, hr⟩).1 ht
    · intro f hf
      exact ⟨herr.2 f hf, (herr.1.mp ⟨f, hf⟩).1⟩

/-- The exceptions of the three operations on a reachable book: `AddOrder` ends by an
exception exactly when the order is a Market order, its id is not in the index and the
opposite ladder is empty, and that exception is `noLiquidity`; `CancelOrder` returns
normally; `MatchOrder` returns a trade list unless the type it reads for the new order is
Market, and then ends by no exception but `noLiquidity`.  So neither the check of
`Order::fill`, nor that of `ToGoodTillCancel`, nor a level lookup of `CancelOrder` raises. -/
theorem faults_on_reachable (b : OrderBook) (h : Reachable b) :
    (∀ o : Order, (∃ f, (AddOrder b o).2 = .error f) ↔
      (o.orderType = OrderType.Market ∧ b.orders.contains o.orderId = false ∧
        b.opposite o.side = [])) ∧
    (∀ (o : Order) (f : Fault), (AddOrder b o).2 = .error f → f = Fault.noLiquidity) ∧
    (∀ id : OrderId, (CancelOrder b id).2 = .ok ()) ∧
    (∀ (m : OrderModify) (t : OrderType), t ≠ OrderType.Market →
      ∃ ts, (MatchOrder b m t).2 = .ok ts) ∧
    (∀ (m : OrderModify) (t : OrderType) (f : Fault), (MatchOrder b m t).2 = .error f →
      f = Fault.noLiquidity ∧ t = OrderType.Market) := by
  have hinv := h.inv
  exact ⟨fun o => (AddOrder_error_iff hinv o).1, fun o => (AddOrder_error_iff hinv o).2,
    fun id => by rw [CancelOrder_eq hinv.toWellFormed],
    fun m t => (MatchOrder_ok hinv m t).1, fun m t => (MatchOrder_ok hinv m t).2⟩

/-- C21 (no internal fault is reachable), at the modify of the order 1 of `queueBook`, a
book of two bids at 100 and no ask, to the quantity 9 at its side and price: `MatchOrder`
reads the type of the new order from an entry it has erased; when that read gives
GoodTillCancel the modify returns an empty trade list, and when it gives Market the modify
ends by the exception `noLiquidity`, the order 1 being cancelled and not added again. -/
theorem modify_fails_on_stale_read :
    (MatchOrder queueBook (OrderModify.mk 1 Side.Buy 100 9) OrderType.GoodTillCancel).2 =
      .ok [] ∧
    (MatchOrder queueBook (OrderModify.mk 1 Side.Buy 100 9) OrderType.Market).2 =
      .error Fault.noLiquidity ∧
    (MatchOrder queueBook (OrderModify.mk 1 Side.Buy 100 9) OrderType.Market).1 =
      (CancelOrder queueBook 1).1 ∧
    (MatchOrder queueBook (OrderModify.mk 1 Side.Buy 100 9) OrderType.Market).1.orders.contains 1
      = false := by
  decide

theorem Trade.incoming_between (o a : Order) (q : Int) :
    Trade.incoming o.side (Trade.between o a q) =
      { orderId := o.orderId, price := o.price, quantity := q } := by
  unfold Trade.incoming Trade.between Trade.of
  split <;> rfl

/-- On a book that satisfies the invariant every trade `AddOrder` returns names the incoming
order, whose id is new, on its own side and an order of the opposite ladder on the other. -/
theorem AddOrder_names {b : OrderBook} (h : Inv b) (o : Order) (ts : List Trade) (t : Trade)
    (hts : (AddOrder b o).2 = .ok ts) (ht : t ∈ ts) :
    (Trade.incoming o.side t).orderId = o.orderId ∧
    (∃ a ∈ Ladder.all (b.opposite o.side), (Trade.resting o.side t).orderId = a.orderId) ∧
    o.orderId ∉ b.resting.map Order.orderId := by
  obtain ⟨o1, a, q, hid, hside, ha, hq, _, _, _⟩ := AddOrder_trade_shape h o ts hts t ht
  subst hq
  refine ⟨?_, ⟨a, ha, ?_⟩, ?_⟩
  · rw [← hside, Trade.incoming_between]; exact hid
  · rw [← hside, Trade.resting_between]
  · apply h.toWellFormed.fresh
    intro hin
    have hc : b.orders.contains o.orderId = true := (Index.contains_iff _ _).mpr hin
    have h1 : AddOrder b o = (b, .ok []) := by unfold AddOrder; rw [if_pos hc]
    rw [h1] at hts
    cases hts
    simp at ht

/-- C22 (every trade involves the incoming order): for every reachable book, each trade
`AddOrder` returns for the order `o` names the id of `o` on the side of `o`, the bid side for
a buy and the ask side for a sell, and on the other side the id of an order that was resting
in the opposite ladder before the call; the id of `o` is then not that of an order resting
before the call, so no trade is between two orders that were both resting before the call.
Each trade a modify returns, whatever type it reads for the order it builds, names the id of
the request on the side of the request and, on the other side, an order that was resting in
the opposite ladder before the call and is not the modified order. -/
theorem trades_name_incoming (b : OrderBook) (h : Reachable b) :
    (∀ (o : Order) (ts : List Trade) (t : Trade), (AddOrder b o).2 = .ok ts → t ∈ ts →
      (Trade.incoming o.side t).orderId = o.orderId ∧
      (∃ a ∈ b.resting, a ∈ Ladder.all (b.opposite o.side) ∧
        (Trade.resting o.side t).orderId = a.orderId) ∧
      o.orderId ∉ b.resting.map Order.orderId ∧
      ¬ (t.bidTrade.orderId ∈ b.resting.map Order.orderId ∧
         t.askTrade.orderId ∈ b.resting.map Order.orderId)) ∧
    (∀ (m : OrderModify) (ty : OrderType) (ts : List Trade) (t : Trade),
      (MatchOrder b m ty).2 = .ok ts → t ∈ ts →
      (Trade.incoming m.side t).orderId = m.orderId ∧
      (∃ a ∈ b.resting, a ∈ Ladder.all (b.opposite m.side) ∧ a.orderId ≠ m.orderId ∧
        (Trade.resting m.side t).orderId = a.orderId)) := by
  have hinv := h.inv
  constructor
  · intro o ts t hts ht
    obtain ⟨h1, ⟨a, ha, h2⟩, h3⟩ := AddOrder_names hinv o ts t hts ht
    refine ⟨h1, ⟨a, (OrderBook.opposite_sublist b o.side).subset ha, ha, h2⟩, h3, ?_⟩
    rintro ⟨hb, hs⟩
    apply h3
    rw [← h1]
    unfold Trade.incoming
    split
    · exact hb
    · exact hs
  · intro m ty ts t hts ht
    unfold MatchOrder at hts
    cases hl : b.orders.lookup m.orderId with
    | none => rw [hl] at hts; cases hts; simp at ht
    | some e =>
      rw [hl] at hts
      simp only [CancelOrder_eq hinv.toWellFormed] at hts
      obtain ⟨h1, ⟨a, ha, h2⟩, _⟩ :=
        AddOrder_names (hinv.without_inv m.orderId) _ ts t hts ht
      have hs : (m.toOrderPointer ty).side = m.side := rfl
      have hi : (m.toOrderPointer ty).orderId = m.orderId := rfl
      rw [hs] at h1 h2 ha
      rw [hi] at h1
      rw [OrderBook.opposite_without, Ladder.all_without] at ha
      obtain ⟨ha1, ha2⟩ := List.mem_filter.mp ha
      exact ⟨h1, a, (OrderBook.opposite_sublist b m.side).subset ha1, ha1,
        by simpa [bne_iff_ne] using ha2, h2⟩

/-- The first trade of `sampleSweep` on `sampleBook` names `sampleSweep` as the bid and the
resting order 1 as the ask. -/
theorem trades_name_incoming_witness :
    Reachable sampleBook ∧
    (12 : OrderId) = sampleSweep.orderId ∧
    ∃ a ∈ sampleBook.resting, a ∈ Ladder.all (sampleBook.opposite sampleSweep.side) ∧
      (1 : OrderId) = a.orderId :=
  ⟨Reachable.sample,
   ((trades_name_incoming sampleBook Reachable.sample).1 sampleSweep
    [{ bidTrade := { orderId := 12, price := 101, quantity := 5 },
       askTrade := { orderId := 1, price := 100, quantity := 5 } },
     { bidTrade := { orderId := 12, price := 101, quantity := 2 },
       askTrade := { orderId := 2, price := 101, quantity := 2 } }]
    { bidTrade := { orderId := 12, price := 101, quantity := 5 },
      askTrade := { orderId := 1, price := 100, quantity := 5 } } (by decide) (by simp)).1,
   ((trades_name_incoming sampleBook Reachable.sample).1 sampleSweep
    [{ bidTrade := { orderId := 12, price := 101, quantity := 5 },
       askTrade := { orderId := 1, price := 100, quantity := 5 } },
     { bidTrade := { orderId := 12, price := 101, quantity := 2 },
       askTrade := { orderId := 2, price := 101, quantity := 2 } }]
    { bidTrade := { orderId := 12, price := 101, quantity := 5 },
      askTrade := { orderId := 1, price := 100, quantity := 5 } } (by decide) (by simp)).2.1⟩

/-- The inner loop keeps a property of the entries of the queued bids, one of the entries of
the queued asks, and a property of the trades that holds of a trade between such orders. -/
theorem matchLevel_levels (Pb Pa : OrderEntry → Prop) (Q : Trade → Prop)
    (hQ : ∀ (bid ask : Order) (q : Int), Pb bid.entry → Pa ask.entry → Q (Trade.of bid ask q)) :
    ∀ (fuel : Nat) (bids asks : Level) (idx : Index) (ts : List Trade),
    (∀ x ∈ bids, Pb x.entry) → (∀ y ∈ asks, Pa y.entry) → (∀ t ∈ ts, Q t) →
    (∀ x ∈ (matchLevel fuel bids asks idx ts).1, Pb x.entry) ∧
    (∀ y ∈ (matchLevel fuel bids asks idx ts).2.1, Pa y.entry) ∧
    (∀ t ∈ (matchLevel fuel bids asks idx ts).2.2.2.1, Q t) := by
  intro fuel
  induction fuel with
  | zero =>
    intro bids asks idx ts hb ha ht
    cases bids with
    | nil => rw [matchLevel_nil_left]; exact ⟨by simp, ha, ht⟩
    | cons bid bids =>
      cases asks with
      | nil => rw [matchLevel_nil_right]; exact ⟨hb, by simp, ht⟩
      | cons ask asks => simp only [matchLevel]; exact ⟨hb, ha, ht⟩
  | succ n ih =>
    intro bids asks idx ts hb ha ht
    cases bids with
    | nil => rw [matchLevel_nil_left]; exact ⟨by simp, ha, ht⟩
    | cons bid bids =>
      cases asks with
      | nil => rw [matchLevel_nil_right]; exact ⟨hb, by simp, ht⟩
      | cons ask asks =>
        rw [matchLevel_step]
        have hbid := hb bid (List.mem_cons_self _ _)
        have hask := ha ask (List.mem_cons_self _ _)
        apply ih
        · intro x hx
          simp only [matchStep] at hx
          split at hx
          · exact hb x (List.mem_cons_of_mem _ hx)
          · rcases List.mem_cons.mp hx with hx | hx
            · rw [hx]; exact hbid
            · exact hb x (List.mem_cons_of_mem _ hx)
        · intro y hy
          simp only [matchStep] at hy
          split at hy
          · exact ha y (List.mem_cons_of_mem _ hy)
          · rcases List.mem_cons.mp hy with hy | hy
            · rw [hy]; exact hask
            · exact ha y (List.mem_cons_of_mem _ hy)
        · intro t htm
          rcases List.mem_append.mp htm with h1 | h1
          · exact ht t h1
          · rw [List.mem_singleton] at h1
            rw [h1]
            exact hQ _ _ _ hbid hask

/-- The outer loop: every trade it adds is between a bid of a level `bp` and an ask of a
level `ap` with `ap ≤ bp`. -/
theorem matchLoop_levels (PB PA : Int → OrderEntry → Prop) (Q : Trade → Prop)
    (hQ : ∀ (bp ap : Int) (bid ask : Order) (q : Int), ap ≤ bp → PB bp bid.entry →
      PA ap ask.entry → Q (Trade.of bid ask q)) :
    ∀ (fuel : Nat) (b : OrderBook) (ts : List Trade),
    (∀ x ∈ b.bids, ∀ o ∈ x.2, PB x.1 o.entry) → (∀ x ∈ b.asks, ∀ o ∈ x.2, PA x.1 o.entry) →
    (∀ t ∈ ts, Q t) →
    ∀ trades, (matchLoop fuel b ts).2 = .ok trades → ∀ t ∈ trades, Q t := by
  intro fuel
  induction fuel with
  | zero =>
    intro b ts _ _ ht trades hr
    obtain ⟨bids, asks, idx⟩ := b
    cases bids with
    | nil => rw [matchLoop_stop_left] at hr; cases hr; exact ht
    | cons x rb =>
      cases asks with
      | nil => rw [matchLoop_stop_right] at hr; cases hr; exact ht
      | cons y ra =>
        obtain ⟨bp, bids⟩ := x
        obtain ⟨ap, asks⟩ := y
        by_cases hc : bp < ap
        · rw [matchLoop_stop_price _ _ _ _ _ _ _ _ _ hc] at hr; cases hr; exact ht
        · rw [matchLoop] at hr; simp only [if_neg hc] at hr; cases hr
  | succ n ih =>
    intro b ts hb ha ht trades hr
    obtain ⟨bids, asks, idx⟩ := b
    cases bids with
    | nil => rw [matchLoop_stop_left] at hr; cases hr; exact ht
    | cons x rb =>
      cases asks with
      | nil => rw [matchLoop_stop_right] at hr; cases hr; exact ht
      | cons y ra =>
        obtain ⟨bp, bids⟩ := x
        obtain ⟨ap, asks⟩ := y
        by_cases hc : bp < ap
        · rw [matchLoop_stop_price _ _ _ _ _ _ _ _ _ hc] at hr; cases hr; exact ht
        · rw [matchLoop_step _ _ _ _ _ _ _ _ _ hc] at hr
          have hle : ap ≤ bp := not_lt.mp hc
          obtain ⟨l1, l2, l3⟩ := matchLevel_levels (PB bp) (PA ap) Q
            (fun bid ask q h1 h2 => hQ bp ap bid ask q hle h1 h2)
            (bids.length + asks.length) bids asks idx ts
            (hb (bp, bids) (List.mem_cons_self _ _)) (ha (ap, asks) (List.mem_cons_self _ _)) ht
          refine ih _ _ ?_ ?_ l3 trades hr
          · intro x hx o ho
            simp only [loopStep, Ladder.erase, if_true] at hx
            split at hx
            · exact hb x (List.mem_cons_of_mem _ hx) o ho
            · rcases List.mem_cons.mp hx with hx | hx
              · rw [hx] at ho ⊢; exact l1 o ho
              · exact hb x (List.mem_cons_of_mem _ hx) o ho
          · intro x hx o ho
            simp only [loopStep, Ladder.erase, if_true] at hx
            split at hx
            · exact ha x (List.mem_cons_of_mem _ hx) o ho
            · rcases List.mem_cons.mp hx with hx | hx
              · rw [hx] at ho ⊢; exact l2 o ho
              · exact ha x (List.mem_cons_of_mem _ hx) o ho

/-- The trades of the matcher on a book whose orders are filed under their prices. -/
theorem MatchOrders_levels (b : OrderBook) (hb : b.bids.priced) (ha : b.asks.priced)
    (ts : List Trade) (hts : (MatchOrders b).2 = .ok ts) :
    ∀ t ∈ ts, Trade.atLevels b.bids b.asks t := by
  refine matchLoop_levels (Ladder.holds b.bids) (Ladder.holds b.asks)
    (Trade.atLevels b.bids b.asks) ?_ _ b [] ?_ ?_ (by simp) ts (MatchOrders_trades b ts hts)
  · rintro bp ap bid ask q hle ⟨h1, x, hx, hxp, o, ho, hoe⟩ ⟨h2, y, hy, hyp, o2, ho2, hoe2⟩
    have e1 : bid.price = bp := h1
    have e2 : ask.price = ap := h2
    refine ⟨?_, ⟨x, hx, ?_, o, ho, ?_, ?_⟩, ⟨y, hy, ?_, o2, ho2, ?_, ?_⟩⟩
    · simp only [Trade.of]; omega
    · simp only [Trade.of]; omega
    · exact congrArg OrderEntry.orderId hoe
    · exact congrArg OrderEntry.price hoe
    · simp only [Trade.of]; omega
    · exact congrArg OrderEntry.orderId hoe2
    · exact congrArg OrderEntry.price hoe2
  · intro x hx o ho
    exact ⟨hb x hx o ho, x, hx, rfl, o, ho, rfl⟩
  · intro x hx o ho
    exact ⟨ha x hx o ho, x, hx, rfl, o, ho, rfl⟩

theorem Ladder.priced_push (bf : Int → Int → Bool) (l : Ladder) (o : Order) (h : l.priced) :
    (Ladder.push bf l o).priced := by
  intro x hx a ha
  rcases Ladder.push_cases bf l o x hx with h1 | h1 | ⟨lv, h1, h2⟩
  · exact h x h1 a ha
  · rw [h1] at ha ⊢
    simp only [List.mem_singleton] at ha
    rw [ha]
  · rw [h2] at ha ⊢
    rcases List.mem_append.mp ha with ha | ha
    · exact h _ h1 a ha
    · simp only [List.mem_singleton] at ha
      rw [ha]

theorem insertOrder_priced (b : OrderBook) (o : Order) (hb : b.bids.priced)
    (ha : b.asks.priced) : (insertOrder b o).bids.priced ∧ (insertOrder b o).asks.priced := by
  unfold insertOrder
  split
  · exact ⟨Ladder.priced_push _ _ _ hb, ha⟩
  · exact ⟨hb, Ladder.priced_push _ _ _ ha⟩

/-- No trade `AddOrder` returns, on a book whose orders are filed under their prices, has an
ask price above its bid price. -/
theorem AddOrder_levels (b : OrderBook) (hb : b.bids.priced) (ha : b.asks.priced) (o : Order)
    (ts : List Trade) (hts : (AddOrder b o).2 = .ok ts) :
    ∀ t ∈ ts, t.askTrade.price ≤ t.bidTrade.price := by
  unfold AddOrder at hts
  split at hts
  · cases hts; simp
  · split at hts
    · cases hts; simp
    · split at hts
      · simp at hts
      · rename_i o1 _
        obtain ⟨p1, p2⟩ := insertOrder_priced b o1 hb ha
        intro t ht
        exact (MatchOrders_levels _ p1 p2 ts hts t ht).1

theorem Inv.priced {b : OrderBook} (h : Inv b) : b.bids.priced ∧ b.asks.priced :=
  ⟨fun x hx o ho => (h.bids.tagged x hx o ho).1, fun x hx o ho => (h.asks.tagged x hx o ho).1⟩

/-- The first trade of a sweep that crosses the first level is with the order at the front
of that level. -/
theorem sweepLadder_head (o a : Order) (l : Level) (R : Ladder) (A : Int)
    (hc : o.crosses A = true) :
    ∃ rest, (sweepLadder o ((A, a :: l) :: R)).trades =
      Trade.between o a (min o.remainingQuantity a.remainingQuantity) :: rest := by
  have hlevel : ∃ rest, (sweepLevel o (a :: l)).trades =
      Trade.between o a (min o.remainingQuantity a.remainingQuantity) :: rest := by
    simp only [sweepLevel]
    split
    · exact ⟨[], by simp only [Trade.between_filledBy]⟩
    · exact ⟨_, by simp only [Trade.between_filledBy]; rfl⟩
  obtain ⟨rest, hrest⟩ := hlevel
  simp only [sweepLadder, hc, if_true]
  cases (sweepLevel o (a :: l)).residual with
  | none => exact ⟨rest, hrest⟩
  | some o1 => exact ⟨rest ++ (sweepLadder o1 R).trades, by simp only [hrest, List.cons_append]⟩

/-- C23 (trades never cross the wrong way): for every book whose orders are filed under
their own prices, as `AddOrder` files them and as in every reachable book, every trade of
the matcher has a bid price at least its ask price and records on each side the id and the
limit price of an order of that ladder, the price being the key of the level that held the
order; so has every trade `AddOrder` returns a bid price at least its ask price.  On a
reachable book the same holds of the trades of a modify, whatever type it reads for the
order it builds; a trade of a limit order records
the price of the order on its side and on the other side the id and price of a resting
order at the level of that price; and a limit buy at P with a new id, on a book whose best
ask level A is at most P, has as its first trade the bid price P and the ask price A against
the front order of that level. -/
theorem trades_never_cross (b : OrderBook) (hb : b.bids.priced) (ha : b.asks.priced) :
    (∀ (ts : List Trade) (t : Trade), (MatchOrders b).2 = .ok ts → t ∈ ts →
      Trade.atLevels b.bids b.asks t) ∧
    (∀ (o : Order) (ts : List Trade) (t : Trade), (AddOrder b o).2 = .ok ts → t ∈ ts →
      t.askTrade.price ≤ t.bidTrade.price) ∧
    (Reachable b →
      (∀ (m : OrderModify) (ty : OrderType) (ts : List Trade) (t : Trade),
        (MatchOrder b m ty).2 = .ok ts → t ∈ ts → t.askTrade.price ≤ t.bidTrade.price) ∧
      (∀ (o : Order) (ts : List Trade) (t : Trade), o.orderType ≠ OrderType.Market →
        (AddOrder b o).2 = .ok ts → t ∈ ts →
        (Trade.incoming o.side t).price = o.price ∧
        ∃ x ∈ b.opposite o.side, ∃ a ∈ x.2,
          (Trade.resting o.side t).orderId = a.orderId ∧
          (Trade.resting o.side t).price = a.price ∧ a.price = x.1) ∧
      (∀ (o a : Order) (A : Int) (l : Level) (R : Ladder), o.side = Side.Buy →
        o.orderType ≠ OrderType.Market → b.orders.contains o.orderId = false →
        b.asks = (A, a :: l) :: R → A ≤ o.price →
        ∃ rest, (AddOrder b o).2 = .ok
          (Trade.mk
            (TradeInfo.mk o.orderId o.price (min o.remainingQuantity a.remainingQuantity))
            (TradeInfo.mk a.orderId A (min o.remainingQuantity a.remainingQuantity))
            :: rest))) := by
  refine ⟨fun ts t hts ht => MatchOrders_levels b hb ha ts hts t ht,
    fun o ts t hts ht => AddOrder_levels b hb ha o ts hts t ht, ?_⟩
  intro hr
  have hinv := hr.inv
  have hw := hinv.toWellFormed
  refine ⟨?_, ?_, ?_⟩
  · intro m ty ts t hts ht
    unfold MatchOrder at hts
    cases hl : b.orders.lookup m.orderId with
    | none => rw [hl] at hts; cases hts; simp at ht
    | some e =>
      rw [hl] at hts
      simp only [CancelOrder_eq hw] at hts
      obtain ⟨p1, p2⟩ := (hinv.without_inv m.orderId).priced
      exact AddOrder_levels _ p1 p2 _ ts hts t ht
  · intro o ts t hnm hts ht
    obtain ⟨o1, a, q, _, _, hmem, hq, _, hne, _⟩ := AddOrder_trade_shape hinv o ts hts t ht
    have ho1 := hne hnm
    subst ho1
    subst hq
    obtain ⟨before, side, hok, _, _⟩ := LadderOk.opposite_buy_or_sell hw o1
    obtain ⟨x, hx, hax⟩ := (Ladder.mem_all _ _).mp hmem
    refine ⟨by rw [Trade.incoming_between], x, hx, a, hax, ?_, ?_, (hok.tagged x hx a hax).1⟩
    · rw [Trade.resting_between]
    · rw [Trade.resting_between]
  · intro o a A l R hs hnm hc hasks hle
    have hf : o.orderId ∉ b.orders.map OrderEntry.orderId := by
      rw [← Index.contains_iff, hc]; simp
    have hcm : canMatch b o.side o.price = true := by
      simp [canMatch, hs, hasks, hle]
    have hadd := AddOrder_admitted hinv o hf hnm (fun _ => hcm)
    have hcr : o.crosses A = true := by simp [Order.crosses, hs, hle]
    obtain ⟨rest, hrest⟩ := sweepLadder_head o a l R A hcr
    have hopp : b.opposite o.side = (A, a :: l) :: R := by
      simp only [OrderBook.opposite, hs, if_true, hasks]
    have hpa : a.price = A := ha (A, a :: l) (by rw [hasks]; simp) a (by simp)
    refine ⟨rest, ?_⟩
    rw [hadd, OrderBook.admitted_trades, hopp, hrest]
    simp only [Trade.between, hs, if_true, Trade.of, hpa]

/-- The limit buy `sampleSweep`, at 101, on `sampleBook`, whose best ask is the order 1 at
100: its first trade has the bid price 101 and the ask price 100. -/
theorem trades_never_cross_witness :
    sampleBook.bids.priced ∧ sampleBook.asks.priced ∧
    ∃ rest, (AddOrder sampleBook sampleSweep).2 = .ok
      (Trade.mk (TradeInfo.mk 12 101 5) (TradeInfo.mk 1 100 5) :: rest) :=
  ⟨by decide, by decide,
   ((trades_never_cross sampleBook (by decide) (by decide)).2.2 Reachable.sample).2.2
     sampleSweep (Order.new OrderType.GoodTillCancel 1 Side.Sell 100 5) 100 []
     [(101, [Order.new OrderType.GoodTillCancel 2 Side.Sell 101 5])]
     rfl (by decide) (by decide) (by decide) (by decide)⟩

/-- The quantities of a sweep of one level in which no fill leaves the 32-bit range. -/
theorem sweepLevel_exact (l : Level) : ∀ (o : Order), sweepLevelExact o l →
    SweepExact o l (sweepLevel o l).residual (sweepLevel o l).rest (sweepLevel o l).trades ∧
    (∀ o1, (sweepLevel o l).residual = some o1 → (sweepLevel o l).trades.length = l.length) := by
  induction l with
  | nil =>
    intro o _
    simp only [sweepLevel]
    refine ⟨⟨Trade.conserving_nil _ _ _, by simp [tradedQuantity_nil, volume_nil], ?_, ?_, ?_⟩, ?_⟩
    · intro o1 h1
      simp only [Option.some.injEq] at h1
      subst h1
      exact ⟨by simp [tradedQuantity_nil], rfl⟩
    · intro h; simp at h
    · intro a1 h; simp at h
    · intro o1 _; rfl
  | cons a r ih =>
    intro o hE
    simp only [sweepLevelExact] at hE
    obtain ⟨e1, e2, e3⟩ := hE
    have hq1 : min o.remainingQuantity a.remainingQuantity ≤ o.remainingQuantity := min_le_left _ _
    have hq2 : min o.remainingQuantity a.remainingQuantity ≤ a.remainingQuantity := min_le_right _ _
    have ho1 := Order.filledBy_fits o (min o.remainingQuantity a.remainingQuantity) (by omega) e1
    have ha1 := Order.filledBy_fits a (min o.remainingQuantity a.remainingQuantity) (by omega) e2
    have haw := Order.filledBy_withRemaining a (min o.remainingQuantity a.remainingQuantity)
      (by omega) e2
    have hrid : (Trade.resting o.side (Trade.between o a
        (min o.remainingQuantity a.remainingQuantity))).orderId = a.orderId := by
      rw [Trade.resting_between]
    simp only [sweepLevel]
    split
    · rename_i hf
      rw [Order.isFilled_iff, ho1] at hf
      simp only [Trade.between_filledBy]
      refine ⟨⟨?_, ?_, ?_, ?_, ?_⟩, ?_⟩
      · simp only [Trade.conserving, Trade.between_quantity, Trade.between_ask_quantity, hrid,
          true_and]
      · rw [tradedQuantity_cons, tradedQuantity_nil, Trade.between_quantity, volume_cons]
        split
        · rename_i hfa
          rw [Order.isFilled_iff, ha1] at hfa
          omega
        · rw [volume_cons, ha1]; omega
      · intro o1 h1; simp at h1
      · intro _
        rw [tradedQuantity_cons, tradedQuantity_nil, Trade.between_quantity]; omega
      · intro a1 h1
        split at h1
        · exact Or.inl (List.mem_cons_of_mem _ h1)
        · rcases List.mem_cons.mp h1 with h1 | h1
          · right
            refine ⟨a, List.mem_cons_self _ _, _, List.mem_singleton.mpr rfl, hrid, ?_⟩
            rw [h1, Trade.between_quantity]; exact haw
          · exact Or.inl (List.mem_cons_of_mem _ h1)
      · intro o1 h1; simp at h1
    · rename_i hnf
      obtain ⟨⟨c1, c2, c3, c4, c5⟩, c6⟩ :=
        ih (o.filledBy (min o.remainingQuantity a.remainingQuantity))
          (e3 (by simpa using hnf))
      have hmin := Order.min_of_not_filled o a hnf
      have hside : (o.filledBy (min o.remainingQuantity a.remainingQuantity)).side = o.side := rfl
      have hinit : (o.filledBy (min o.remainingQuantity a.remainingQuantity)).initialQuantity =
          o.initialQuantity := rfl
      rw [hside] at c1 c5
      rw [ho1] at c1 c3 c4
      rw [hinit] at c3
      simp only [Trade.between_filledBy]
      refine ⟨⟨?_, ?_, ?_, ?_, ?_⟩, ?_⟩
      · simp only [Trade.conserving, Trade.between_quantity, Trade.between_ask_quantity, hrid,
          true_and]
        exact c1
      · rw [tradedQuantity_cons, Trade.between_quantity, volume_cons, c2]; omega
      · intro o1 h1
        obtain ⟨d1, d2⟩ := c3 o1 h1
        refine ⟨?_, d2⟩
        rw [tradedQuantity_cons, Trade.between_quantity, d1]; omega
      · intro h1
        rw [tradedQuantity_cons, Trade.between_quantity, c4 h1]; omega
      · intro a1 h1
        rcases c5 a1 h1 with h2 | ⟨a0, h2, t, h3, h4⟩
        · exact Or.inl (List.mem_cons_of_mem _ h2)
        · exact Or.inr ⟨a0, List.mem_cons_of_mem _ h2, t, List.mem_cons_of_mem _ h3, h4⟩
      · intro o1 h1
        simp only [List.length_cons, c6 o1 h1]

/-- The quantities of a sweep of the ladder in which no fill leaves the 32-bit range. -/
theorem sweepLadder_exact (L : Ladder) : ∀ (o : Order), sweepLadderExact o L →
    SweepExact o (Ladder.all L) (sweepLadder o L).residual
      (Ladder.all (sweepLadder o L).rest) (sweepLadder o L).trades := by
  induction L with
  | nil =>
    intro o _
    simp only [sweepLadder, Ladder.all]
    refine ⟨Trade.conserving_nil _ _ _, by simp [tradedQuantity_nil, volume_nil], ?_, ?_, ?_⟩
    · intro o1 h1
      simp only [Option.some.injEq] at h1
      subst h1
      exact ⟨by simp [tradedQuantity_nil], rfl⟩
    · intro h; simp at h
    · intro a1 h; simp at h
  | cons x R ih =>
    obtain ⟨p, l⟩ := x
    intro o hE
    simp only [sweepLadderExact] at hE
    simp only [sweepLadder]
    split
    · rename_i hc
      obtain ⟨hEl, hER⟩ := hE hc
      obtain ⟨⟨c1, c2, c3, c4, c5⟩, c6⟩ := sweepLevel_exact l o hEl
      cases hres : (sweepLevel o l).residual with
      | none =>
        simp only [Ladder.all_cons_if, Ladder.all]
        refine ⟨Trade.conserving_more _ _ _ _ _ c1, ?_, ?_, ?_, ?_⟩
        · rw [c2, volume_append, volume_append]; omega
        · intro o1 h1; simp at h1
        · intro _; exact c4 hres
        · intro a1 h1
          rcases List.mem_append.mp h1 with h1 | h1
          · rcases c5 a1 h1 with h2 | ⟨a0, h2, h3⟩
            · exact Or.inl (List.mem_append_left _ h2)
            · exact Or.inr ⟨a0, List.mem_append_left _ h2, h3⟩
          · exact Or.inl (List.mem_append_right _ h1)
      | some o1 =>
        obtain ⟨d1, d2⟩ := c3 o1 hres
        obtain ⟨he, hrest⟩ := sweepLevel_residual l o o1 hres
        have hside : o1.side = o.side := congrArg OrderEntry.side he
        obtain ⟨e1, e2, e3, e4, e5⟩ := ih o1 (hER o1 hres)
        rw [hside] at e1 e5
        rw [d1] at e1
        rw [hrest, volume_nil] at c2
        simp only [Ladder.all]
        refine ⟨Trade.conserving_append _ _ _ _ _ _ c1 (c6 o1 hres) e1, ?_, ?_, ?_, ?_⟩
        · rw [tradedQuantity_append, c2, e2, volume_append]; omega
        · intro o2 h2
          obtain ⟨f1, f2⟩ := e3 o2 h2
          refine ⟨?_, by rw [f2, d2]⟩
          rw [tradedQuantity_append, f1, d1]; omega
        · intro h2
          rw [tradedQuantity_append, e4 h2, d1]; omega
        · intro a1 h1
          rcases e5 a1 h1 with h2 | ⟨a0, h2, t, h3, h4⟩
          · exact Or.inl (List.mem_append_right _ h2)
          · exact Or.inr ⟨a0, List.mem_append_right _ h2, t, List.mem_append_right _ h3, h4⟩
    · simp only [Ladder.all]
      refine ⟨Trade.conserving_nil _ _ _, by simp [tradedQuantity_nil], ?_, ?_, ?_⟩
      · intro o1 h1
        simp only [Option.some.injEq] at h1
        subst h1
        exact ⟨by simp [tradedQuantity_nil], rfl⟩
      · intro h; simp at h
      · intro a1 h1; exact Or.inl h1

theorem sweepLevelExact_of_fits (l : Level) : ∀ (o : Order),
    fitsQuantity o.remainingQuantity → (∀ a ∈ l, fitsQuantity a.remainingQuantity) →
    sweepLevelExact o l := by
  induction l with
  | nil => intro o _ _; simp [sweepLevelExact]
  | cons a r ih =>
    intro o ho hl
    have ha := hl a (List.mem_cons_self _ _)
    have hq1 : min o.remainingQuantity a.remainingQuantity ≤ o.remainingQuantity := min_le_left _ _
    have hq0 : 0 ≤ min o.remainingQuantity a.remainingQuantity := le_min ho.1 ha.1
    have h1 : o.remainingQuantity - min o.remainingQuantity a.remainingQuantity < 2147483648 := by
      have := ho.2; omega
    have h2 : a.remainingQuantity - min o.remainingQuantity a.remainingQuantity < 2147483648 := by
      have := ha.2; omega
    simp only [sweepLevelExact]
    refine ⟨h1, h2, fun _ => ih _ ?_ (fun x hx => hl x (List.mem_cons_of_mem _ hx))⟩
    rw [Order.filledBy_fits o _ (by omega) h1]
    exact ⟨by omega, h1⟩

theorem sweepLadderExact_of_fits (L : Ladder) : ∀ (o : Order),
    fitsQuantity o.remainingQuantity → (∀ a ∈ Ladder.all L, fitsQuantity a.remainingQuantity) →
    sweepLadderExact o L := by
  induction L with
  | nil => intro o _ _; simp [sweepLadderExact]
  | cons x R ih =>
    obtain ⟨p, l⟩ := x
    intro o ho hl
    have hll : ∀ a ∈ l, fitsQuantity a.remainingQuantity :=
      fun a ha => hl a (by simp [Ladder.all, ha])
    have hlR : ∀ a ∈ Ladder.all R, fitsQuantity a.remainingQuantity :=
      fun a ha => hl a (by simp [Ladder.all, ha])
    simp only [sweepLadderExact]
    intro _
    refine ⟨sweepLevelExact_of_fits l o ho hll, fun o1 hres => ih o1 ?_ hlR⟩
    exact (((sweepLevel_quantities l o ho hll).1).left o1 hres).2.2.2.2

theorem rewriteMarket_quantity (b : OrderBook) (o o1 : Order) (h : rewriteMarket b o = .ok o1) :
    o1.remainingQuantity = o.remainingQuantity ∧ o1.side = o.side := by
  unfold rewriteMarket at h
  split at h
  · rename_i hm
    split at h
    · split at h
      · cases h
      · simp only [Order.ToGoodTillCancel, hm, ne_eq, not_true_eq_false, if_false] at h
        cases h; exact ⟨rfl, rfl⟩
    · split at h
      · cases h
      · simp only [Order.ToGoodTillCancel, hm, ne_eq, not_true_eq_false, if_false] at h
        cases h; exact ⟨rfl, rfl⟩
  · cases h; exact ⟨rfl, rfl⟩

/-- With quantities that are not negative and fit 32 bits no fill leaves the 32-bit range. -/
theorem fillsExact_of_fits (b : OrderBook) (o : Order)
    (hq : ∀ a ∈ b.resting, fitsQuantity a.remainingQuantity)
    (hQ : fitsQuantity o.remainingQuantity) : fillsExact b o := by
  intro o1 h1
  apply sweepLadderExact_of_fits
  · rw [(rewriteMarket_quantity b o o1 h1).1]; exact hQ
  · intro a ha
    exact hq a ((OrderBook.opposite_sublist b o.side).subset ha)

/-- The outcome of `AddOrder` for an order with a new id that the FillAndKill guard does not
turn away and that `rewriteMarket` turns into `o1`: `o1` is admitted. -/
theorem AddOrder_rewritten {b : OrderBook} (h : Inv b) (o o1 : Order)
    (hf : o.orderId ∉ b.orders.map OrderEntry.orderId)
    (hrej : ¬ (o.orderType = OrderType.FillAndKill ∧ ¬ canMatch b o.side o.price = true))
    (hrw : rewriteMarket b o = .ok o1) :
    (o1 = o ∨ ∃ p, o1 = o.pegged p) ∧
    AddOrder b o = ((b.admitted o1).1, .ok (b.admitted o1).2) := by
  have hc : b.orders.contains o.orderId = false := by
    rw [← Bool.not_eq_true, Index.contains_iff]; exact hf
  have hadd : AddOrder b o = MatchOrders (insertOrder b o1) := by
    unfold AddOrder
    rw [hc]
    simp only [Bool.false_eq_true, if_false, hrej, hrw]
  by_cases hm : o.orderType = OrderType.Market
  · have hp : ∃ p, o1 = o.pegged p := by
      unfold rewriteMarket at hrw
      rw [if_pos hm] at hrw
      split at hrw
      · split at hrw
        · cases hrw
        · simp only [Order.ToGoodTillCancel, hm, ne_eq, not_true_eq_false, if_false] at hrw
          cases hrw; exact ⟨_, rfl⟩
      · split at hrw
        · cases hrw
        · simp only [Order.ToGoodTillCancel, hm, ne_eq, not_true_eq_false, if_false] at hrw
          cases hrw; exact ⟨_, rfl⟩
    obtain ⟨p, hp⟩ := hp
    refine ⟨Or.inr ⟨p, hp⟩, ?_⟩
    rw [hadd, hp]
    exact MatchOrders_insert h (o.pegged p) hf (by simp [Order.pegged])
      (fun hh => by simp [Order.pegged] at hh)
  · rw [rewriteMarket_of_ne b o hm] at hrw
    cases hrw
    exact ⟨Or.inl rfl, AddOrder_admitted h o hf hm (fun ht => by
      by_contra hcm
      exact hrej ⟨ht, hcm⟩)⟩

/-- The quantities of an admission in which no fill leaves the 32-bit range. -/
theorem OrderBook.admitted_exact {b : OrderBook} (h : WellFormed b) (o : Order)
    (hf : o.orderId ∉ b.orders.map OrderEntry.orderId)
    (hE : sweepLadderExact o (b.opposite o.side)) :
    Trade.conserving o.side o.remainingQuantity (Ladder.all (b.opposite o.side))
      (b.admitted o).2 ∧
    tradedQuantity (b.admitted o).2 = volume (Ladder.all (b.opposite o.side)) -
      volume (Ladder.all ((b.admitted o).1.opposite o.side)) ∧
    (∃ left : Int, tradedQuantity (b.admitted o).2 = o.remainingQuantity - left ∧
      (∀ a ∈ (b.admitted o).1.resting, a.orderId = o.orderId →
        a.remainingQuantity = left ∧ a.initialQuantity = o.initialQuantity) ∧
      (o.orderType ≠ OrderType.FillAndKill →
        o.orderId ∉ (b.admitted o).1.resting.map Order.orderId → left = 0)) ∧
    (∀ a ∈ Ladder.all (b.own o.side), a ∈ Ladder.all ((b.admitted o).1.own o.side)) ∧
    (∀ a1 ∈ Ladder.all ((b.admitted o).1.opposite o.side),
      a1 ∈ Ladder.all (b.opposite o.side) ∨
      ∃ a ∈ Ladder.all (b.opposite o.side), ∃ t ∈ (b.admitted o).2,
        (Trade.resting o.side t).orderId = a.orderId ∧
        a1 = a.withRemaining (a.remainingQuantity - t.bidTrade.quantity)) := by
  have hfr : o.orderId ∉ b.resting.map Order.orderId := h.fresh hf
  obtain ⟨q1, q2, q3, q4, q5⟩ := sweepLadder_exact (b.opposite o.side) o hE
  obtain ⟨s1, s2, s3, s4⟩ := OrderBook.admitted_sides h o hf
  rw [OrderBook.admitted_trades, s1]
  refine ⟨q1, q2, ?_, s3, q5⟩
  cases hres : (sweepLadder o (b.opposite o.side)).residual with
  | none =>
    refine ⟨0, by rw [q4 hres]; simp, ?_, fun _ _ => rfl⟩
    intro a ha hid
    exfalso
    rcases (OrderBook.mem_resting_sides _ o.side a).mp ha with ha | ha
    · rcases s2 a ha with h1 | h1
      · exact hfr (List.mem_map.mpr ⟨a, (OrderBook.own_sublist b o.side).subset h1, hid⟩)
      · rw [hres] at h1; cases h1
    · rw [s1] at ha
      obtain ⟨a0, ha0, he0⟩ := List.mem_map.mp (sweepLadder_rest_ids _ _ _ ha)
      exact hfr (List.mem_map.mpr ⟨a0, (OrderBook.opposite_sublist b o.side).subset ha0,
        by rw [he0, hid]⟩)
  | some r =>
    obtain ⟨l1, l2⟩ := q3 r hres
    have hrid : r.orderId = o.orderId :=
      congrArg OrderEntry.orderId (sweepLadder_residual _ _ _ hres)
    refine ⟨r.remainingQuantity, by rw [l1]; ring, ?_, ?_⟩
    · intro a ha hid
      rcases (OrderBook.mem_resting_sides _ o.side a).mp ha with ha | ha
      · rcases s2 a ha with h1 | h1
        · exact absurd (List.mem_map.mpr
            ⟨a, (OrderBook.own_sublist b o.side).subset h1, hid⟩) hfr
        · rw [hres] at h1
          cases h1
          exact ⟨rfl, l2⟩
      · rw [s1] at ha
        obtain ⟨a0, ha0, he0⟩ := List.mem_map.mp (sweepLadder_rest_ids _ _ _ ha)
        exact absurd (List.mem_map.mpr
          ⟨a0, (OrderBook.opposite_sublist b o.side).subset ha0, by rw [he0, hid]⟩) hfr
    · intro hn hnot
      exfalso
      apply hnot
      have hmem := s4 hn r hres
      exact List.mem_map.mpr
        ⟨r, (OrderBook.mem_resting_sides _ o.side r).mpr (Or.inl hmem), hrid⟩

/-- C15, as the claim is written, fails: the book that holds one ask of 2147483647 at 100
is reachable, and a GoodTillCancel buy of -1 at 100, whose id is new, is admitted to it and
trades the quantity -1 with the ask; the fill of the ask by -1 leaves the 32-bit range, so
the ask is left with -2147483648 and the opposite side has lost 4294967295, which is not the
-1 the trade quantities sum to. -/
theorem conservation_fails_on_overflow :
    Reachable (AddOrder OrderBook.empty
      (Order.new OrderType.GoodTillCancel 1 Side.Sell 100 2147483647)).1 ∧
    (AddOrder OrderBook.empty
      (Order.new OrderType.GoodTillCancel 1 Side.Sell 100 2147483647)).1.orders.contains 2
      = false ∧
    (AddOrder (AddOrder OrderBook.empty
      (Order.new OrderType.GoodTillCancel 1 Side.Sell 100 2147483647)).1
      (Order.new OrderType.GoodTillCancel 2 Side.Buy 100 (-1))).2 =
      .ok [Trade.mk (TradeInfo.mk 2 100 (-1)) (TradeInfo.mk 1 100 (-1))] ∧
    tradedQuantity [Trade.mk (TradeInfo.mk 2 100 (-1)) (TradeInfo.mk 1 100 (-1))] = -1 ∧
    volume (Ladder.all ((AddOrder OrderBook.empty
      (Order.new OrderType.GoodTillCancel 1 Side.Sell 100 2147483647)).1.opposite Side.Buy))
      = 2147483647 ∧
    volume (Ladder.all ((AddOrder (AddOrder OrderBook.empty
      (Order.new OrderType.GoodTillCancel 1 Side.Sell 100 2147483647)).1
      (Order.new OrderType.GoodTillCancel 2 Side.Buy 100 (-1))).1.opposite Side.Buy))
      = -2147483648 ∧
    ¬ (∀ (b : OrderBook) (o : Order) (ts : List Trade), Reachable b →
        b.orders.contains o.orderId = false → (AddOrder b o).2 = .ok ts →
        tradedQuantity ts = volume (Ladder.all (b.opposite o.side)) -
          volume (Ladder.all ((AddOrder b o).1.opposite o.side))) := by
  refine ⟨Reachable.add _ _ Reachable.empty, by decide, by decide, by decide, by decide,
    by decide, ?_⟩
  intro hall
  have := hall
    (AddOrder OrderBook.empty (Order.new OrderType.GoodTillCancel 1 Side.Sell 100 2147483647)).1
    (Order.new OrderType.GoodTillCancel 2 Side.Buy 100 (-1))
    [Trade.mk (TradeInfo.mk 2 100 (-1)) (TradeInfo.mk 1 100 (-1))]
    (Reachable.add _ _ Reachable.empty) (by decide) (by decide)
  revert this
  decide

/-- C15, amended (quantity conservation): for every reachable book and every order with a
new id for which `AddOrder` returns the trades `ts`, if no subtraction of `Order::fill`
leaves the 32-bit range in the call, then: trade by trade, the two quantities of the trade
are the smaller of what is then left of the incoming order and the remaining quantity of
the resting order the trade names, the resting orders being taken in priority order; the
trade quantities sum to the loss of total remaining quantity of the opposite side, and to
the quantity of the incoming order less what is left of it, which is the remaining quantity
under which it rests if it rests, and 0 if it is not a FillAndKill order and does not rest;
every order of the own side is held as it was; and an order held on the opposite side is as
it was or is the order a trade names, less the quantity of that trade.  No subtraction
leaves the 32-bit range when the quantities of the book and of the order are not negative
and fit 32 bits. -/
theorem quantity_conservation (b : OrderBook) (o : Order) (ts : List Trade)
    (h : Reachable b) (hf : b.orders.contains o.orderId = false)
    (hts : (AddOrder b o).2 = .ok ts) :
    (fillsExact b o →
      Trade.conserving o.side o.remainingQuantity (Ladder.all (b.opposite o.side)) ts ∧
      tradedQuantity ts = volume (Ladder.all (b.opposite o.side)) -
        volume (Ladder.all ((AddOrder b o).1.opposite o.side)) ∧
      (∃ left : Int, tradedQuantity ts = o.remainingQuantity - left ∧
        (∀ a ∈ (AddOrder b o).1.resting, a.orderId = o.orderId →
          a.remainingQuantity = left ∧ a.initialQuantity = o.initialQuantity) ∧
        (o.orderType ≠ OrderType.FillAndKill →
          o.orderId ∉ (AddOrder b o).1.resting.map Order.orderId → left = 0)) ∧
      (∀ a ∈ Ladder.all (b.own o.side), a ∈ Ladder.all ((AddOrder b o).1.own o.side)) ∧
      (∀ a1 ∈ Ladder.all ((AddOrder b o).1.opposite o.side),
        a1 ∈ Ladder.all (b.opposite o.side) ∨
        ∃ a ∈ Ladder.all (b.opposite o.side), ∃ t ∈ ts,
          (Trade.resting o.side t).orderId = a.orderId ∧
          a1 = a.withRemaining (a.remainingQuantity - t.bidTrade.quantity))) ∧
    ((∀ a ∈ b.resting, fitsQuantity a.remainingQuantity) →
      fitsQuantity o.remainingQuantity → fillsExact b o) := by
  refine ⟨?_, fun hq hQ => fillsExact_of_fits b o hq hQ⟩
  intro hE
  have hinv := h.inv
  have hw := hinv.toWellFormed
  have hfr : o.orderId ∉ b.orders.map OrderEntry.orderId := by
    rw [← Index.contains_iff, hf]; simp
  have hfr2 : o.orderId ∉ b.resting.map Order.orderId := hw.fresh hfr
  by_cases hrej : o.orderType = OrderType.FillAndKill ∧ ¬ canMatch b o.side o.price = true
  · have h1 : AddOrder b o = (b, .ok []) := by
      unfold AddOrder
      rw [if_neg (by rw [hf]; simp), if_pos hrej]
    rw [h1] at hts ⊢
    cases hts
    refine ⟨Trade.conserving_nil _ _ _, by simp [tradedQuantity_nil],
      ⟨o.remainingQuantity, by simp [tradedQuantity_nil], ?_, fun hn => absurd hrej.1 hn⟩,
      fun a ha => ha, fun a ha => Or.inl ha⟩
    intro a ha hid
    exact absurd (List.mem_map.mpr ⟨a, ha, hid⟩) hfr2
  · cases hrw : rewriteMarket b o with
    | error e =>
      have h1 : (AddOrder b o).2 = .error e := by
        unfold AddOrder
        rw [hf]
        simp only [Bool.false_eq_true, if_false, hrej, hrw]
      rw [h1] at hts; cases hts
    | ok o1 =>
      obtain ⟨hp, h1⟩ := AddOrder_rewritten hinv o o1 hfr hrej hrw
      have hE1 := hE o1 hrw
      rw [h1] at hts ⊢
      have hts2 : ts = (b.admitted o1).2 := by cases hts; rfl
      subst hts2
      rcases hp with hp | ⟨p, hp⟩
      · subst hp
        exact OrderBook.admitted_exact hw o1 hfr hE1
      · subst hp
        obtain ⟨c1, c2, ⟨left, l2, l3, l4⟩, c4, c5⟩ :=
          OrderBook.admitted_exact hw (o.pegged p) hfr hE1
        exact ⟨c1, c2, ⟨left, l2, l3, fun _ hnot => l4 (by simp [Order.pegged]) hnot⟩,
          c4, c5⟩

/-- The GoodTillCancel buy `sampleSweep` of 7 at 101 on `sampleBook`: 5 with the ask at 100
and 2 with the ask at 101, of which 3 stay. -/
theorem quantity_conservation_witness :
    Trade.conserving sampleSweep.side sampleSweep.remainingQuantity
      (Ladder.all (sampleBook.opposite sampleSweep.side))
      [Trade.mk (TradeInfo.mk 12 101 5) (TradeInfo.mk 1 100 5),
       Trade.mk (TradeInfo.mk 12 101 2) (TradeInfo.mk 2 101 2)] ∧
    tradedQuantity
      [Trade.mk (TradeInfo.mk 12 101 5) (TradeInfo.mk 1 100 5),
       Trade.mk (TradeInfo.mk 12 101 2) (TradeInfo.mk 2 101 2)] =
      volume (Ladder.all (sampleBook.opposite sampleSweep.side)) -
        volume (Ladder.all ((AddOrder sampleBook sampleSweep).1.opposite sampleSweep.side)) :=
  ⟨((quantity_conservation sampleBook sampleSweep _ Reachable.sample (by decide)
      (by decide)).1
      ((quantity_conservation sampleBook sampleSweep
        [Trade.mk (TradeInfo.mk 12 101 5) (TradeInfo.mk 1 100 5),
         Trade.mk (TradeInfo.mk 12 101 2) (TradeInfo.mk 2 101 2)]
        Reachable.sample (by decide) (by decide)).2 (by decide) (by decide))).1,
   ((quantity_conservation sampleBook sampleSweep _ Reachable.sample (by decide)
      (by decide)).1
      ((quantity_conservation sampleBook sampleSweep
        [Trade.mk (TradeInfo.mk 12 101 5) (TradeInfo.mk 1 100 5),
         Trade.mk (TradeInfo.mk 12 101 2) (TradeInfo.mk 2 101 2)]
        Reachable.sample (by decide) (by decide)).2 (by decide) (by decide))).2.1⟩

end OrderBookProject
